import Mathlib

/-!
# Cell battles: the world tick (`src/world/world.cpp`)

A shallow embedding of the simulation passes of `World` and theorems about them.

Conventions of the embedding:

* `float` values are rational numbers (`ℚ`): exact arithmetic, no rounding; a
  literal such as `0.1f` or `1e-4f` is the rational it is written as.
* A `std::shared_ptr<Cell>` is a `Cell` record carrying the identity `id` of the
  shared object; the registry `World::cells` is the list of these records and a
  chunk bucket (`Chunk::cells[team]`) is the list of the `id`s it references.
* `std::vector` is `List`; an access outside the vector is undefined in the
  source: here a read yields the default element and a write is dropped.
* `Chunk::getCurrentOwner`, declared in `world.h`, is not part of this file:
  every pass that calls it takes it as the parameter `owner`.
* The territory image written by `updateTerritoryColor` is render output and is
  not part of the state.
-/

namespace CellBattles

/-! ## Data model -/

/-- The type `sf::Vector2f`. -/
structure Vec2f where
  x : ℚ
  y : ℚ
deriving DecidableEq

/-- The type `sf::Vector2i`. -/
structure Vec2i where
  x : Int
  y : Int
deriving DecidableEq

/-- An agent. `id` stands for the address of the shared object. The remaining
fields are those of the constructor call
`Cell(teamId, seed, strength, health, supply, velocity, preferredVelocity, position)`
and `lastBirth`. -/
structure Cell where
  id : Nat
  teamId : Nat
  seed : Int
  strength : ℚ
  health : ℚ
  supply : ℚ
  velocity : Vec2f
  preferredVelocity : Vec2f
  position : Vec2f
  lastBirth : ℚ
deriving DecidableEq

/-- A chunk of the grid: per-team buckets of agent references, per-team
ownership fractions, the supply scalar and its generation constant. -/
structure Chunk where
  cells : List (List Nat)
  teamOwnership : List ℚ
  supply : ℚ
  supplyGeneration : ℚ
  isASpawn : Bool
deriving DecidableEq

instance : Inhabited Chunk := ⟨⟨[], [], 0, 0, false⟩⟩

/-- The fields of `WorldSettings` read by the simulation passes. -/
structure WorldSettings where
  width : Int
  height : Int
  pixelsPerChunk : ℚ
  numTeams : Nat
  numChunks : Vec2i
  cellAttackRange : ℚ

/-- The simulation state of `World`: the registry, the chunk vector and the clock. -/
structure World where
  cells : List Cell
  chunks : List Chunk
  worldTime : ℚ

/-! ## Grid access -/

/-- Linear index `position.x + position.y * settings.numChunks.x` of `getChunk`. -/
def chunkIndex (S : WorldSettings) (p : Vec2i) : Int :=
  p.x + p.y * S.numChunks.x

/-- The chunk read by `getChunk(position)`, when the index is inside the vector. -/
def getChunk? (S : WorldSettings) (chunks : List Chunk) (p : Vec2i) : Option Chunk :=
  if 0 ≤ chunkIndex S p then chunks[(chunkIndex S p).toNat]? else none

/-- Function `World::getChunk`, read access. -/
def getChunk (S : WorldSettings) (chunks : List Chunk) (p : Vec2i) : Chunk :=
  (getChunk? S chunks p).getD default

/-- A write through the reference returned by `getChunk(position)`. -/
def modifyChunk (S : WorldSettings) (chunks : List Chunk) (p : Vec2i) (f : Chunk → Chunk) :
    List Chunk :=
  if 0 ≤ chunkIndex S p then chunks.modify f (chunkIndex S p).toNat else chunks

/-- The positions visited by
`for (x = 0; x < numChunks.x; x++) for (y = 0; y < numChunks.y; y++)`, in order. -/
def gridPositions (S : WorldSettings) : List Vec2i :=
  (List.range S.numChunks.x.toNat).flatMap fun (x : Nat) =>
    (List.range S.numChunks.y.toNat).map fun (y : Nat) => Vec2i.mk (x : Int) (y : Int)

/-- Conversion `(int)` of a float: truncation toward zero. -/
def truncToInt (q : ℚ) : Int :=
  if 0 ≤ q then ⌊q⌋ else ⌈q⌉

/-- Function `World::worldToChunkPos`. -/
def worldToChunkPos (S : WorldSettings) (position : Vec2f) : Vec2i :=
  ⟨truncToInt (position.x / S.pixelsPerChunk), truncToInt (position.y / S.pixelsPerChunk)⟩

/-! ## Binary32 values of the constants compared with positions -/

/-- Number of halvings of `n` until the value drops below `2`, at most `fuel` of
them: the position of the leading bit of `n` when `fuel ≥ n`. -/
def log2Floor : Nat → Nat → Nat
  | 0, _ => 0
  | fuel + 1, n => if n < 2 then 0 else log2Floor fuel (n / 2) + 1

/-- The binary exponent of a non-zero rational: the `e` with
`2^e ≤ |q| < 2^(e+1)`. -/
def binade (q : ℚ) : Int :=
  if 1 ≤ |q| then (log2Floor ⌊|q|⌋₊ ⌊|q|⌋₊ : Int)
  else if 2 ^ log2Floor ⌈|q|⁻¹⌉₊ ⌈|q|⁻¹⌉₊ = ⌈|q|⁻¹⌉₊ then -(log2Floor ⌈|q|⁻¹⌉₊ ⌈|q|⁻¹⌉₊ : Int)
  else -(log2Floor ⌈|q|⁻¹⌉₊ ⌈|q|⁻¹⌉₊ : Int) - 1

/-- Rounding to the nearest integer, ties to the even one. -/
def roundHalfEven (q : ℚ) : Int :=
  if q - ⌊q⌋ < 1 / 2 then ⌊q⌋
  else if q - ⌊q⌋ > 1 / 2 then ⌊q⌋ + 1
  else if ⌊q⌋ % 2 = 0 then ⌊q⌋ else ⌊q⌋ + 1

/-- The `float` (IEEE 754 binary32) nearest to `q`, ties to even: 24 significant
bits, smallest exponent `-126`. Overflow to infinity is not modelled; the values
rounded here are world dimensions and chunk sizes. -/
def toFloat (q : ℚ) : ℚ :=
  (roundHalfEven (q / (2 : ℚ) ^ (max (binade q) (-126) - 23)) : ℚ) *
    (2 : ℚ) ^ (max (binade q) (-126) - 23)

/-- The expression `(float) dim - 1e-4f` of `updatePositions` and `spawnChildren`
for an `int` dimension: conversion, literal and difference are each rounded to
`float`. -/
def upperBound (dim : Int) : ℚ :=
  toFloat (toFloat (dim : ℚ) - toFloat (1 / 10000))

/-- The upper bounds `(float) width - 1e-4f` and `(float) height - 1e-4f` lie in
`[0, width)` and `[0, height)`: the margin survives the rounding. -/
def BoundInside (S : WorldSettings) : Prop :=
  (0 ≤ upperBound S.width ∧ upperBound S.width < (S.width : ℚ)) ∧
    (0 ≤ upperBound S.height ∧ upperBound S.height < (S.height : ℚ))

instance (S : WorldSettings) : Decidable (BoundInside S) := by
  unfold BoundInside; infer_instance

/-- The same for the `128` dimensions `offset, ..., offset + 127`. -/
def BoundBlock (offset : Int) : Prop :=
  ∀ n : Fin 128, 0 ≤ upperBound ((n.val : Int) + offset) ∧
    upperBound ((n.val : Int) + offset) < (((n.val : Int) + offset : Int) : ℚ)

instance (offset : Int) : Decidable (BoundBlock offset) := by
  unfold BoundBlock; infer_instance

/-! ## `utils.h` -/

/-- Modelled from the spec: `clamp(v, lo, hi)` of `utils.h`, which is not among the
sources, taken as `min(max(v, lo), hi)`. -/
def clamp (v lo hi : ℚ) : ℚ :=
  min (max v lo) hi

/-- Modelled from the spec: the `sf::Vector2f` overload of `clamp` of `utils.h`,
which is not among the sources, taken componentwise ("clamped into world bounds"). -/
def clampVec (v lo hi : Vec2f) : Vec2f :=
  ⟨clamp v.x lo.x hi.x, clamp v.y lo.y hi.y⟩

/-! ## `World::updateTerritories` -/

/-- The local `claimSpeed = 1.f`. -/
def claimSpeed : ℚ := 1

/-- Size of the bucket of team `i`: `chunk->cells[i].size()`. -/
def Chunk.count (chunk : Chunk) (i : Nat) : Nat :=
  (chunk.cells.getD i []).length

/-- First inner loop of `updateTerritories`: the running `total` and the
`cellCounts` buffer (every entry below `numTeams` is written before it is read). -/
def countCells (numTeams : Nat) (chunk : Chunk) : Nat × List Nat :=
  (List.range numTeams).foldl
    (fun (acc : Nat × List Nat) i =>
      if chunk.count i > 0 then (acc.1 + chunk.count i, acc.2.set i (chunk.count i))
      else (acc.1, acc.2.set i 0))
    (0, List.replicate numTeams 0)

/-- Body of the second inner loop of `updateTerritories` for team `i`: compute
`ownershipTarget[i]` and move `teamOwnership[i]` toward it. -/
def moveOwnership (delta : ℚ) (cellCounts : List Nat) (total : Nat) (own : List ℚ) (i : Nat) :
    List ℚ :=
  if own.getD i 0 > (cellCounts.getD i 0 : ℚ) / (total : ℚ) then
    own.set i (clamp (own.getD i 0 - delta * claimSpeed) ((cellCounts.getD i 0 : ℚ) / (total : ℚ)) 1)
  else
    own.set i (clamp (own.getD i 0 + delta * claimSpeed) 0 ((cellCounts.getD i 0 : ℚ) / (total : ℚ)))

/-- Body of the chunk loop of `updateTerritories`. -/
def updateTerritoriesChunk (numTeams : Nat) (delta : ℚ) (chunk : Chunk) : Chunk :=
  if (countCells numTeams chunk).1 ≠ 0 then
    { chunk with
      teamOwnership :=
        (List.range numTeams).foldl
          (moveOwnership delta (countCells numTeams chunk).2 (countCells numTeams chunk).1)
          chunk.teamOwnership }
  else chunk

/-- Function `World::updateTerritories`. -/
def updateTerritories (S : WorldSettings) (delta : ℚ) (w : World) : World :=
  { w with
    chunks :=
      (gridPositions S).foldl
        (fun chunks p => modifyChunk S chunks p (updateTerritoriesChunk S.numTeams delta))
        w.chunks }

/-- Reference definition of the ownership update, in the words of the
specification: unchanged without agents, otherwise a move of length `elapsed`
toward `count / total` that stops at the target. -/
def ownershipSpec (count total : Nat) (elapsed o : ℚ) : ℚ :=
  if total = 0 then o
  else if |o - (count : ℚ) / (total : ℚ)| ≤ elapsed then (count : ℚ) / (total : ℚ)
  else if o > (count : ℚ) / (total : ℚ) + elapsed then o - elapsed
  else o + elapsed

/-- Total population of a chunk over the teams `0 .. numTeams - 1`. -/
def Chunk.total (numTeams : Nat) (chunk : Chunk) : Nat :=
  ((List.range numTeams).map chunk.count).sum

/-- Shape of the chunk grid as built by the constructor: non-negative
dimensions and one chunk per grid position. -/
def GridShape (S : WorldSettings) (chunks : List Chunk) : Prop :=
  0 ≤ S.numChunks.x ∧ 0 ≤ S.numChunks.y ∧
    chunks.length = S.numChunks.x.toNat * S.numChunks.y.toNat

/-- Ownership fraction of team `i` in the chunk at linear index `k`. -/
def ownershipAt (w : World) (k i : Nat) : ℚ :=
  (w.chunks.getD k default).teamOwnership.getD i 0

/-- Number of agents of team `i` in the chunk at linear index `k`. -/
def countAt (w : World) (k i : Nat) : Nat :=
  (w.chunks.getD k default).count i

/-- Number of agents of all teams in the chunk at linear index `k`. -/
def totalAt (S : WorldSettings) (w : World) (k : Nat) : Nat :=
  (w.chunks.getD k default).total S.numTeams

/-- Instantaneous fraction `count / total` of team `i` in the chunk at index `k`. -/
def targetAt (S : WorldSettings) (w : World) (k i : Nat) : ℚ :=
  (countAt w k i : ℚ) / (totalAt S w k : ℚ)

/-- A one-chunk world with two teams: team 0 holds agent 1, team 1 holds agents
2 and 3, and the chunk is fully owned by team 0. -/
def territoryExampleSettings : WorldSettings :=
  { width := 10, height := 10, pixelsPerChunk := 10, numTeams := 2, numChunks := ⟨1, 1⟩,
    cellAttackRange := 0 }

/-- The world of `territoryExampleSettings`. -/
def territoryExampleWorld : World :=
  { cells := [], worldTime := 0,
    chunks := [{ cells := [[1], [2, 3]], teamOwnership := [1, 0], supply := 0,
                 supplyGeneration := 0, isASpawn := false }] }

/-- A one-chunk world with two teams holding one agent each and ownership
already at the instantaneous fractions `1/2`, `1/2`. -/
def settledExampleWorld : World :=
  { cells := [], worldTime := 0,
    chunks := [{ cells := [[1], [2]], teamOwnership := [1 / 2, 1 / 2], supply := 0,
                 supplyGeneration := 0, isASpawn := false }] }

/-! ## `World::updateChunkSupply` -/

/-- Modelled from the spec: `Chunk::getCurrentOwner` of `world.h`, which is not
among the sources ("the dominant team id, or -1 if unowned"): the first team
holding more than half of the chunk, and `-1` when there is none. The passes
take the owner function as a parameter; this model only instantiates it in
examples, on chunks whose ownership fractions are all `0` or `1`. -/
def getCurrentOwner (chunk : Chunk) : Int :=
  match (List.range chunk.teamOwnership.length).find?
      (fun i => decide (chunk.teamOwnership.getD i 0 > 1 / 2)) with
  | some i => (i : Int)
  | none => -1

/-- Pass 1 of `updateChunkSupply`, visiting the grid positions in `order`:
`ownerBuffer[x + y * numChunks.x] = getChunk({x, y})->getCurrentOwner()`.
The static buffer has one entry per chunk and every entry is written here. -/
def ownerPass (S : WorldSettings) (owner : Chunk → Int) (order : List Vec2i)
    (chunks : List Chunk) : List Int :=
  order.foldl
    (fun buf p => buf.set (chunkIndex S p).toNat (owner (getChunk S chunks p)))
    (List.replicate (S.numChunks.x.toNat * S.numChunks.y.toNat) 0)

/-- Body of pass 2 of `updateChunkSupply` at position `p = {x, y}`: the value
stored into `transferBuffer[x + y * numChunks.x]`. -/
def supplyTransfer (S : WorldSettings) (delta : ℚ) (ownerBuffer : List Int) (chunks : List Chunk)
    (p : Vec2i) : ℚ :=
  if ownerBuffer.getD (chunkIndex S p).toNat 0 = -1 then -delta
  else
    ((((if p.x + 1 < S.numChunks.x ∧
            ownerBuffer.getD (chunkIndex S ⟨p.x + 1, p.y⟩).toNat 0 =
              ownerBuffer.getD (chunkIndex S p).toNat 0
          then (getChunk S chunks ⟨p.x + 1, p.y⟩).supply else (getChunk S chunks p).supply)
          - (getChunk S chunks p).supply)
        - ((getChunk S chunks p).supply -
          (if p.x - 1 ≥ 0 ∧
            ownerBuffer.getD (chunkIndex S ⟨p.x - 1, p.y⟩).toNat 0 =
              ownerBuffer.getD (chunkIndex S p).toNat 0
          then (getChunk S chunks ⟨p.x - 1, p.y⟩).supply else (getChunk S chunks p).supply)))
      + (((if p.y + 1 < S.numChunks.y ∧
            ownerBuffer.getD (chunkIndex S ⟨p.x, p.y + 1⟩).toNat 0 =
              ownerBuffer.getD (chunkIndex S p).toNat 0
          then (getChunk S chunks ⟨p.x, p.y + 1⟩).supply else (getChunk S chunks p).supply)
          - (getChunk S chunks p).supply)
        - ((getChunk S chunks p).supply -
          (if p.y - 1 ≥ 0 ∧
            ownerBuffer.getD (chunkIndex S ⟨p.x, p.y - 1⟩).toNat 0 =
              ownerBuffer.getD (chunkIndex S p).toNat 0
          then (getChunk S chunks ⟨p.x, p.y - 1⟩).supply else (getChunk S chunks p).supply)))
        * (1 / 10))
      + (getChunk S chunks p).supplyGeneration

/-- Pass 2 of `updateChunkSupply`, visiting the grid positions in `order`. -/
def transferPass (S : WorldSettings) (delta : ℚ) (ownerBuffer : List Int) (order : List Vec2i)
    (chunks : List Chunk) : List ℚ :=
  order.foldl
    (fun buf p => buf.set (chunkIndex S p).toNat (supplyTransfer S delta ownerBuffer chunks p))
    (List.replicate (S.numChunks.x.toNat * S.numChunks.y.toNat) 0)

/-- Pass 3 of `updateChunkSupply`, visiting the grid positions in `order`:
`getChunk({x, y})->supply += transferBuffer[x + y * numChunks.x] * delta`. -/
def applyPass (S : WorldSettings) (delta : ℚ) (transferBuffer : List ℚ) (order : List Vec2i)
    (chunks : List Chunk) : List Chunk :=
  order.foldl
    (fun chunks p =>
      modifyChunk S chunks p fun c =>
        { c with supply := c.supply + transferBuffer.getD (chunkIndex S p).toNat 0 * delta })
    chunks

/-- The three passes of `updateChunkSupply` with the grid visited in the orders
`o1`, `o2`, `o3`. -/
def updateChunkSupplyIn (S : WorldSettings) (owner : Chunk → Int) (delta : ℚ)
    (o1 o2 o3 : List Vec2i) (w : World) : World :=
  { w with
    chunks :=
      applyPass S delta (transferPass S delta (ownerPass S owner o1 w.chunks) o2 w.chunks) o3
        w.chunks }

/-- Function `World::updateChunkSupply`: the three passes in the loop order of
the source. -/
def updateChunkSupply (S : WorldSettings) (owner : Chunk → Int) (delta : ℚ) (w : World) : World :=
  updateChunkSupplyIn S owner delta (gridPositions S) (gridPositions S) (gridPositions S) w

/-- Whether the position lies inside the grid. -/
def inGrid (S : WorldSettings) (p : Vec2i) : Prop :=
  (0 ≤ p.x ∧ p.x < S.numChunks.x) ∧ (0 ≤ p.y ∧ p.y < S.numChunks.y)

instance (S : WorldSettings) (p : Vec2i) : Decidable (inGrid S p) := by
  unfold inGrid; infer_instance

/-- Supply of the chunk at grid position `p`. -/
def supplyAt (S : WorldSettings) (w : World) (p : Vec2i) : ℚ :=
  (getChunk S w.chunks p).supply

/-- Owner of the chunk at grid position `p`. -/
def ownerAt (S : WorldSettings) (owner : Chunk → Int) (w : World) (p : Vec2i) : Int :=
  owner (getChunk S w.chunks p)

/-- In the words of the specification: the supply substituted for the neighbour
`q` of `p`, the neighbour's own when it is inside the grid and has the same
owner as `p`, and the supply of `p` otherwise. -/
def neighbourSupplySpec (S : WorldSettings) (owner : Chunk → Int) (w : World) (p q : Vec2i) : ℚ :=
  if inGrid S q ∧ ownerAt S owner w q = ownerAt S owner w p then supplyAt S w q
  else supplyAt S w p

/-- In the words of the specification: the transfer `T` of the chunk at `p`,
computed from the supplies and owners before the pass. -/
def supplyTransferSpec (S : WorldSettings) (owner : Chunk → Int) (elapsed : ℚ) (w : World)
    (p : Vec2i) : ℚ :=
  if ownerAt S owner w p = -1 then -elapsed
  else
    ((neighbourSupplySpec S owner w p ⟨p.x + 1, p.y⟩ - supplyAt S w p) -
        (supplyAt S w p - neighbourSupplySpec S owner w p ⟨p.x - 1, p.y⟩)) +
      1 / 10 * ((neighbourSupplySpec S owner w p ⟨p.x, p.y + 1⟩ - supplyAt S w p) -
        (supplyAt S w p - neighbourSupplySpec S owner w p ⟨p.x, p.y - 1⟩)) +
      (getChunk S w.chunks p).supplyGeneration

/-- A row of two chunks: the left one unowned, the right one owned by team 0. -/
def supplyExampleSettings : WorldSettings :=
  { width := 20, height := 10, pixelsPerChunk := 10, numTeams := 1, numChunks := ⟨2, 1⟩,
    cellAttackRange := 0 }

/-- The world of `supplyExampleSettings`: supplies `3` and `5`. -/
def supplyExampleWorld : World :=
  { cells := [], worldTime := 0,
    chunks := [{ cells := [[]], teamOwnership := [0], supply := 3,
                 supplyGeneration := 1, isASpawn := false },
               { cells := [[]], teamOwnership := [1], supply := 5,
                 supplyGeneration := 2, isASpawn := false }] }

/-- A uniform field on the grid of `supplyExampleSettings`: both chunks owned by
team 0 with supply `4`, generation constants `1` and `2`. -/
def uniformExampleWorld : World :=
  { cells := [], worldTime := 0,
    chunks := [{ cells := [[]], teamOwnership := [1], supply := 4,
                 supplyGeneration := 1, isASpawn := false },
               { cells := [[]], teamOwnership := [1], supply := 4,
                 supplyGeneration := 2, isASpawn := false }] }

/-! ## `World::deleteCell`, `World::deleteDeadCells` -/

/-- The statement `chunkCells.erase(std::find(chunkCells.begin(), chunkCells.end(), elem))`
on the bucket of team `team` in the chunk at `p`: the first reference to `id` is
removed. -/
def eraseFromBucket (S : WorldSettings) (chunks : List Chunk) (p : Vec2i) (team id : Nat) :
    List Chunk :=
  modifyChunk S chunks p fun c => { c with cells := c.cells.modify (fun b => b.erase id) team }

/-- The statement `bucket.push_back(cell)` on the bucket of team `team` in the
chunk at `p`. -/
def pushToBucket (S : WorldSettings) (chunks : List Chunk) (p : Vec2i) (team id : Nat) :
    List Chunk :=
  modifyChunk S chunks p fun c => { c with cells := c.cells.modify (fun b => b ++ [id]) team }

/-- Function `World::deleteCell`; the iterator is the position `it` in the registry. -/
def deleteCell (S : WorldSettings) (w : World) (it : Nat) : World :=
  match w.cells[it]? with
  | none => w
  | some elem =>
    { w with
      chunks := eraseFromBucket S w.chunks (worldToChunkPos S elem.position) elem.teamId elem.id
      cells := w.cells.eraseIdx it }

/-- The loop of `deleteDeadCells` from iterator position `it`. Every iteration
either erases the entry under the iterator or steps over it, so the loop makes
at most `cells.size()` iterations; `fuel` counts them. -/
def deleteDeadCellsFrom (S : WorldSettings) : Nat → Nat → World → World
  | 0, _, w => w
  | fuel + 1, it, w =>
    match w.cells[it]? with
    | none => w
    | some c =>
      if c.health ≤ 0 then deleteDeadCellsFrom S fuel it (deleteCell S w it)
      else deleteDeadCellsFrom S fuel (it + 1) w

/-- Function `World::deleteDeadCells`. -/
def deleteDeadCells (S : WorldSettings) (w : World) : World :=
  deleteDeadCellsFrom S w.cells.length 0 w

/-! ## `World::updateCellSupply` -/

/-- Amount `t` moved from the chunk to the agent:
`std::min(std::min(maxTransfer, chunk->supply), 2 - cell->supply)` with
`maxTransfer = delta * (1 / (0.3f * cell->supply + 1))`. -/
def supplyExchange (delta cellSupply chunkSupply : ℚ) : ℚ :=
  min (min (delta * (1 / (3 / 10 * cellSupply + 1))) chunkSupply) (2 - cellSupply)

/-- Body of the loop of `updateCellSupply` for one agent, acting on the agent and
on the chunk vector. -/
def updateCellSupplyCell (S : WorldSettings) (owner : Chunk → Int) (delta : ℚ) (cell : Cell)
    (chunks : List Chunk) : Cell × List Chunk :=
  if owner (getChunk S chunks (worldToChunkPos S cell.position)) ≠ (cell.teamId : Int) then
    (cell, chunks)
  else
    ({ cell with
        supply :=
          cell.supply
            + supplyExchange delta cell.supply
                (getChunk S chunks (worldToChunkPos S cell.position)).supply
            - delta * (1 / 5)
        health :=
          if cell.supply
              + supplyExchange delta cell.supply
                  (getChunk S chunks (worldToChunkPos S cell.position)).supply
              - delta * (1 / 5) < 0 then
            cell.health +
              (cell.supply
                + supplyExchange delta cell.supply
                    (getChunk S chunks (worldToChunkPos S cell.position)).supply
                - delta * (1 / 5))
          else cell.health },
      modifyChunk S chunks (worldToChunkPos S cell.position) fun c =>
        { c with
          supply :=
            c.supply - supplyExchange delta cell.supply
              (getChunk S chunks (worldToChunkPos S cell.position)).supply })

/-- The loop `for (auto& cell : cells)` of `updateCellSupply`: the agents are
visited in registry order, each seeing the chunks as left by the previous ones. -/
def updateCellSupplyLoop (S : WorldSettings) (owner : Chunk → Int) (delta : ℚ) :
    List Cell → List Chunk → List Cell × List Chunk
  | [], chunks => ([], chunks)
  | cell :: rest, chunks =>
    ((updateCellSupplyCell S owner delta cell chunks).1 ::
        (updateCellSupplyLoop S owner delta rest
          (updateCellSupplyCell S owner delta cell chunks).2).1,
      (updateCellSupplyLoop S owner delta rest
        (updateCellSupplyCell S owner delta cell chunks).2).2)

/-- Function `World::updateCellSupply`. -/
def updateCellSupply (S : WorldSettings) (owner : Chunk → Int) (delta : ℚ) (w : World) : World :=
  deleteDeadCells S
    { w with
      cells := (updateCellSupplyLoop S owner delta w.cells w.chunks).1
      chunks := (updateCellSupplyLoop S owner delta w.cells w.chunks).2 }

/-- Supply of the chunk at linear index `k`. -/
def supplyAtIndex (w : World) (k : Nat) : ℚ :=
  (w.chunks.getD k default).supply

/-- In the words of the specification: the transfer amount, the minimum of the
diminishing-returns cap `elapsed / (0.3 * supply + 1)`, the chunk's supply and the
agent's headroom `2 - supply`. -/
def exchangeSpec (elapsed cellSupply chunkSupply : ℚ) : ℚ :=
  min (elapsed / (3 / 10 * cellSupply + 1)) (min chunkSupply (2 - cellSupply))

/-- A one-chunk world of one team. -/
def exchangeExampleSettings : WorldSettings :=
  { width := 10, height := 10, pixelsPerChunk := 10, numTeams := 1, numChunks := ⟨1, 1⟩,
    cellAttackRange := 0 }

/-- An agent of team 0 at `(5, 5)` with supply `1` and health `1`. -/
def exchangeExampleCell : Cell :=
  { id := 1, teamId := 0, seed := 0, strength := 1, health := 1, supply := 1,
    velocity := ⟨0, 0⟩, preferredVelocity := ⟨1, 0⟩, position := ⟨5, 5⟩, lastBirth := 0 }

/-- The chunk of `exchangeExampleSettings`, owned by team 0, holding the example
agent, with the given supply. -/
def exchangeExampleChunks (supply : ℚ) : List Chunk :=
  [{ cells := [[1]], teamOwnership := [1], supply := supply, supplyGeneration := 0,
     isASpawn := false }]

/-- The world made of `exchangeExampleCell` and `exchangeExampleChunks supply`. -/
def exchangeExampleWorld (supply : ℚ) : World :=
  { cells := [exchangeExampleCell], chunks := exchangeExampleChunks supply, worldTime := 0 }

/-! ## `World::updateCellPosition`, `World::updatePositions` -/

/-- Function `World::updateCellPosition`: the position is stored, and when the
chunk changes the reference is appended to the new bucket and then erased from
the old one. -/
def updateCellPosition (S : WorldSettings) (cell : Cell) (newPosition : Vec2f)
    (chunks : List Chunk) : Cell × List Chunk :=
  ({ cell with position := newPosition },
    if worldToChunkPos S newPosition ≠ worldToChunkPos S cell.position then
      eraseFromBucket S
        (pushToBucket S chunks (worldToChunkPos S newPosition) cell.teamId cell.id)
        (worldToChunkPos S cell.position) cell.teamId cell.id
    else chunks)

/-- The `x` block of the body of `updatePositions`, acting on the agent and on
`newPos`; the bound `(float) settings.width - 1e-4f` has its binary32 value. -/
def reflectX (S : WorldSettings) (st : Cell × Vec2f) : Cell × Vec2f :=
  if st.2.x < 0 then
    ({ st.1 with
        velocity := ⟨st.1.velocity.x * -1, st.1.velocity.y⟩
        preferredVelocity := ⟨st.1.preferredVelocity.x * -1, st.1.preferredVelocity.y⟩ },
      ⟨0, st.2.y⟩)
  else if st.2.x ≥ upperBound S.width then
    ({ st.1 with
        velocity := ⟨st.1.velocity.x * -1, st.1.velocity.y⟩
        preferredVelocity := ⟨st.1.preferredVelocity.x * -1, st.1.preferredVelocity.y⟩ },
      ⟨upperBound S.width, st.2.y⟩)
  else st

/-- The `y` block of the body of `updatePositions`. -/
def reflectY (S : WorldSettings) (st : Cell × Vec2f) : Cell × Vec2f :=
  if st.2.y < 0 then
    ({ st.1 with
        velocity := ⟨st.1.velocity.x, st.1.velocity.y * -1⟩
        preferredVelocity := ⟨st.1.preferredVelocity.x, st.1.preferredVelocity.y * -1⟩ },
      ⟨st.2.x, 0⟩)
  else if st.2.y ≥ upperBound S.height then
    ({ st.1 with
        velocity := ⟨st.1.velocity.x, st.1.velocity.y * -1⟩
        preferredVelocity := ⟨st.1.preferredVelocity.x, st.1.preferredVelocity.y * -1⟩ },
      ⟨st.2.x, upperBound S.height⟩)
  else st

/-- The body of the loop of `updatePositions` before the call of
`updateCellPosition`: the agent with reflected velocities, and `newPos`. -/
def integrateCell (S : WorldSettings) (delta : ℚ) (cell : Cell) : Cell × Vec2f :=
  reflectY S
    (reflectX S
      (cell,
        ⟨cell.position.x + cell.velocity.x * delta, cell.position.y + cell.velocity.y * delta⟩))

/-- The body of the loop of `updatePositions` for one agent. -/
def updatePositionsCell (S : WorldSettings) (delta : ℚ) (cell : Cell) (chunks : List Chunk) :
    Cell × List Chunk :=
  updateCellPosition S (integrateCell S delta cell).1 (integrateCell S delta cell).2 chunks

/-- The loop `for (auto& cell : cells)` of `updatePositions`. -/
def updatePositionsLoop (S : WorldSettings) (delta : ℚ) :
    List Cell → List Chunk → List Cell × List Chunk
  | [], chunks => ([], chunks)
  | cell :: rest, chunks =>
    ((updatePositionsCell S delta cell chunks).1 ::
        (updatePositionsLoop S delta rest (updatePositionsCell S delta cell chunks).2).1,
      (updatePositionsLoop S delta rest (updatePositionsCell S delta cell chunks).2).2)

/-- Function `World::updatePositions`. -/
def updatePositions (S : WorldSettings) (delta : ℚ) (w : World) : World :=
  { w with
    cells := (updatePositionsLoop S delta w.cells w.chunks).1
    chunks := (updatePositionsLoop S delta w.cells w.chunks).2 }

/-! ## `World::spawnChildren` -/

/-- The values drawn from the generator for one child, in the order of the
source: `cosAngle`, `sinAngle` stand for `cosf(angle)`, `sinf(angle)` of the drawn
angle, `root` for `sqrtf(distrib01(generator))`, then the two velocity
components, the strength multiplier and the seed. -/
structure SpawnDraw where
  cosAngle : ℚ
  sinAngle : ℚ
  root : ℚ
  velocity : Vec2f
  strengthMul : ℚ
  seed : Int

/-- Identity of a newly allocated agent (`std::make_shared<Cell>`): one that no
agent of the registry has. -/
def freshId (cells : List Cell) : Nat :=
  (cells.map Cell.id).foldr max 0 + 1

/-- The child built by `spawnChildren` for `parent`, at `dist = root * 3.f` from
it, clamped to `[0, (float) width - 1e-4f] x [0, (float) height - 1e-4f]` with
the binary32 values of the bounds; `birth0` is the value the `Cell` constructor
(declared in `world.h`) gives to `lastBirth`. -/
def makeChild (S : WorldSettings) (birth0 : ℚ) (id : Nat) (parent : Cell) (d : SpawnDraw) : Cell :=
  { id := id
    teamId := parent.teamId
    seed := d.seed
    strength := parent.strength * d.strengthMul
    health := 1
    supply := 0
    velocity := d.velocity
    preferredVelocity := ⟨d.cosAngle, d.sinAngle⟩
    position :=
      clampVec
        ⟨d.cosAngle * (d.root * 3) + parent.position.x,
          d.sinAngle * (d.root * 3) + parent.position.y⟩
        ⟨0, 0⟩ ⟨upperBound S.width, upperBound S.height⟩
    lastBirth := birth0 }

/-- The body of the loop of `spawnChildren` for an eligible `parent` at registry
position `it`. -/
def spawnChild (S : WorldSettings) (birth0 : ℚ) (w : World) (it : Nat) (parent : Cell)
    (d : SpawnDraw) : World :=
  { w with
    cells :=
      w.cells.set it { parent with supply := parent.supply - 1, lastBirth := w.worldTime } ++
        [makeChild S birth0 (freshId w.cells) parent d]
    chunks :=
      pushToBucket S w.chunks
        (worldToChunkPos S (makeChild S birth0 (freshId w.cells) parent d).position)
        parent.teamId (freshId w.cells) }

/-- The loop of `spawnChildren` from iterator position `it`; the registry is a
`std::list`, so the children appended during the loop are visited as well.
`rng` is the stream of draws still to come and `fuel` bounds the iterations. -/
def spawnChildrenFrom (S : WorldSettings) (birth0 : ℚ) : Nat → Nat → (Nat → SpawnDraw) → World → World
  | 0, _, _, w => w
  | fuel + 1, it, rng, w =>
    match w.cells[it]? with
    | none => w
    | some parent =>
      if parent.supply ≥ 2 ∧ parent.lastBirth < w.worldTime - 60 then
        spawnChildrenFrom S birth0 fuel (it + 1) (fun n => rng (n + 1))
          (spawnChild S birth0 w it parent (rng 0))
      else spawnChildrenFrom S birth0 fuel (it + 1) rng w

/-- Function `World::spawnChildren`. A child has supply `0` and is never eligible,
so the loop makes at most two iterations per agent present at its start. -/
def spawnChildren (S : WorldSettings) (birth0 : ℚ) (rng : Nat → SpawnDraw) (w : World) : World :=
  spawnChildrenFrom S birth0 (2 * w.cells.length) 0 rng w

/-! ## Registry and buckets -/

/-- The bucket of team `t` in the chunk at linear index `k`. -/
def bucketAt (chunks : List Chunk) (k t : Nat) : List Nat :=
  (chunks.getD k default).cells.getD t []

/-- Linear index of the chunk given by `worldToChunkPos(position)`. -/
def homeIndex (S : WorldSettings) (c : Cell) : Int :=
  chunkIndex S (worldToChunkPos S c.position)

/-- The position lies inside the world bounds. -/
def inBounds (S : WorldSettings) (p : Vec2f) : Prop :=
  (0 ≤ p.x ∧ p.x < (S.width : ℚ)) ∧ (0 ≤ p.y ∧ p.y < (S.height : ℚ))

/-- The grid as built by the constructor: positive chunk size,
`numChunks = ceil(size / pixelsPerChunk)` per axis, one chunk per grid position,
and `numTeams` buckets in every chunk. -/
def WorldShape (S : WorldSettings) (w : World) : Prop :=
  0 < S.pixelsPerChunk ∧
    S.numChunks.x = ⌈(S.width : ℚ) / S.pixelsPerChunk⌉ ∧
    S.numChunks.y = ⌈(S.height : ℚ) / S.pixelsPerChunk⌉ ∧
    w.chunks.length = S.numChunks.x.toNat * S.numChunks.y.toNat ∧
    ∀ c ∈ w.chunks, c.cells.length = S.numTeams

/-- The agent is referenced by exactly one bucket, once: the bucket of its team in
the chunk given by `worldToChunkPos(position)`, which exists. -/
def InHomeBucket (S : WorldSettings) (w : World) (c : Cell) : Prop :=
  0 ≤ homeIndex S c ∧ (homeIndex S c).toNat < w.chunks.length ∧ c.teamId < S.numTeams ∧
    ∀ k < w.chunks.length, ∀ t < S.numTeams,
      (bucketAt w.chunks k t).count c.id =
        if k = (homeIndex S c).toNat ∧ t = c.teamId then 1 else 0

/-- Registry/bucket consistency: the grid has the shape the constructor gives it,
the registry holds every agent once, every agent of the registry lies inside the
world bounds and is referenced by exactly one bucket, that of its team in the
chunk of its position, and every bucket entry is an agent of the registry. -/
def Consistent (S : WorldSettings) (w : World) : Prop :=
  WorldShape S w ∧ (w.cells.map Cell.id).Nodup ∧
    (∀ c ∈ w.cells, inBounds S c.position ∧ InHomeBucket S w c) ∧
    ∀ k < w.chunks.length, ∀ t < S.numTeams, ∀ i ∈ bucketAt w.chunks k t,
      ∃ c ∈ w.cells, c.id = i

/-- Identities of the agents of the registry with `health ≤ 0`. -/
def deadIds (w : World) : List Nat :=
  (w.cells.filter fun c => decide (c.health ≤ 0)).map Cell.id

/-- The chunk vector with every reference to an identity in `ids` removed from
every bucket, and nothing else changed. -/
def purgeIds (ids : List Nat) (chunks : List Chunk) : List Chunk :=
  chunks.map fun ch =>
    { ch with cells := ch.cells.map fun b => b.filter fun i => decide (i ∉ ids) }

/-- The bucket counts of an agent over all indices: `1` in the bucket of its team
in the chunk of its position, `0` in every other bucket. -/
def HomeCount (S : WorldSettings) (chunks : List Chunk) (c : Cell) : Prop :=
  ∀ k t, (bucketAt chunks k t).count c.id =
    if (k : Int) = homeIndex S c ∧ k < chunks.length ∧ t = c.teamId then 1 else 0

/-- Two adjacent chunks of one team: agents 1 (dead) and 3 in the left chunk,
agent 2 in the right one. -/
def purgeExampleSettings : WorldSettings :=
  { width := 20, height := 10, pixelsPerChunk := 10, numTeams := 1, numChunks := ⟨2, 1⟩,
    cellAttackRange := 0 }

/-- An agent of team 0 for the examples, at rest. -/
def exampleCell (id : Nat) (health supply : ℚ) (position : Vec2f) : Cell :=
  { id := id, teamId := 0, seed := 0, strength := 1, health := health, supply := supply,
    velocity := ⟨0, 0⟩, preferredVelocity := ⟨1, 0⟩, position := position, lastBirth := 0 }

/-- The world of `purgeExampleSettings`. -/
def purgeExampleWorld : World :=
  { cells := [exampleCell 1 0 1 ⟨5, 5⟩, exampleCell 2 1 1 ⟨15, 5⟩, exampleCell 3 (1 / 2) 1 ⟨7, 2⟩],
    chunks := [{ cells := [[1, 3]], teamOwnership := [1], supply := 0, supplyGeneration := 0,
                 isASpawn := false },
               { cells := [[2]], teamOwnership := [1], supply := 0, supplyGeneration := 0,
                 isASpawn := false }],
    worldTime := 0 }

instance (S : WorldSettings) (chunks : List Chunk) : Decidable (GridShape S chunks) := by
  unfold GridShape; infer_instance

instance (S : WorldSettings) (p : Vec2f) : Decidable (inBounds S p) := by
  unfold inBounds; infer_instance

instance (S : WorldSettings) (w : World) : Decidable (WorldShape S w) := by
  unfold WorldShape; infer_instance

instance (S : WorldSettings) (w : World) (c : Cell) : Decidable (InHomeBucket S w c) := by
  unfold InHomeBucket; infer_instance

instance (S : WorldSettings) (w : World) : Decidable (Consistent S w) := by
  unfold Consistent; infer_instance

/-- A draw for the examples: angle `0`, root `2/3` (distance `2` for a child),
velocity `(1/2, -1/2)`, strength multiplier `1`, seed `7`. -/
def exampleDraw : SpawnDraw :=
  { cosAngle := 1, sinAngle := 0, root := 2 / 3, velocity := ⟨1 / 2, -1 / 2⟩, strengthMul := 1,
    seed := 7 }

/-- The grid of `purgeExampleSettings` with a fast agent of supply `5/2` in the
left chunk, last born long ago, and an agent at rest in the right chunk. -/
def movingExampleWorld : World :=
  { cells := [{ exampleCell 1 1 (5 / 2) ⟨5, 5⟩ with velocity := ⟨12, -20⟩, lastBirth := -100 },
              exampleCell 2 1 1 ⟨15, 5⟩],
    chunks := [{ cells := [[1]], teamOwnership := [1], supply := 0, supplyGeneration := 0,
                 isASpawn := false },
               { cells := [[2]], teamOwnership := [1], supply := 0, supplyGeneration := 0,
                 isASpawn := false }],
    worldTime := 0 }

/-- Bound on the iterations the loop of `spawnChildren` still makes from iterator
position `it`: one per agent ahead, and one more per eligible agent ahead, for
the child it appends. -/
def spawnPending (w : World) (it : Nat) : Nat :=
  (w.cells.drop it).length +
    ((w.cells.drop it).filter fun c =>
      decide (c.supply ≥ 2 ∧ c.lastBirth < w.worldTime - 60)).length

/-- The chunk of `exchangeExampleSettings` with no owner (ownership fraction `0`),
holding the example agent. -/
def unownedExampleWorld : World :=
  { cells := [exchangeExampleCell],
    chunks := [{ cells := [[1]], teamOwnership := [0], supply := 3, supplyGeneration := 0,
                 isASpawn := false }],
    worldTime := 0 }

/-- In the words of the specification: the reflection of one axis. For position
`p`, velocity `v`, preferred heading `h` on the axis and upper bound `hi` of the
axis, with `p' = p + v * elapsed`: the new position, velocity and heading. -/
def reflectAxisSpec (hi p v h elapsed : ℚ) : ℚ × ℚ × ℚ :=
  if p + v * elapsed < 0 then (0, -v, -h)
  else if p + v * elapsed ≥ hi then (hi, -v, -h)
  else (p + v * elapsed, v, h)

/-- In the words of the specification: the agent after `updatePositions`, both
axes reflected independently of each other, with the upper bounds
`(float) width - 1e-4f` and `(float) height - 1e-4f` of the code. -/
def positionSpec (S : WorldSettings) (elapsed : ℚ) (c : Cell) : Cell :=
  { c with
    position :=
      ⟨(reflectAxisSpec (upperBound S.width) c.position.x c.velocity.x c.preferredVelocity.x elapsed).1,
        (reflectAxisSpec (upperBound S.height) c.position.y c.velocity.y c.preferredVelocity.y elapsed).1⟩
    velocity :=
      ⟨(reflectAxisSpec (upperBound S.width) c.position.x c.velocity.x c.preferredVelocity.x
          elapsed).2.1,
        (reflectAxisSpec (upperBound S.height) c.position.y c.velocity.y c.preferredVelocity.y
          elapsed).2.1⟩
    preferredVelocity :=
      ⟨(reflectAxisSpec (upperBound S.width) c.position.x c.velocity.x c.preferredVelocity.x
          elapsed).2.2,
        (reflectAxisSpec (upperBound S.height) c.position.y c.velocity.y c.preferredVelocity.y
          elapsed).2.2⟩ }

/-- The eligibility test of `spawnChildren`:
`parent->supply >= 2 && parent->lastBirth < worldTime - 60`. -/
def isEligible (worldTime : ℚ) (c : Cell) : Prop :=
  c.supply ≥ 2 ∧ c.lastBirth < worldTime - 60

instance (worldTime : ℚ) (c : Cell) : Decidable (isEligible worldTime c) := by
  unfold isEligible; infer_instance

/-- The parent after a birth: one unit of supply less, last birth at the clock. -/
def parentAfterBirth (worldTime : ℚ) (p : Cell) : Cell :=
  { p with supply := p.supply - 1, lastBirth := worldTime }

/-- The children of the eligible agents of a list, in order: the `k`-th child gets
the identity `firstId + k` and the `k`-th draw of the stream. -/
def childrenOf (S : WorldSettings) (birth0 worldTime : ℚ) :
    Nat → (Nat → SpawnDraw) → List Cell → List Cell
  | _, _, [] => []
  | firstId, rng, p :: ps =>
    if isEligible worldTime p then
      makeChild S birth0 firstId p (rng 0) ::
        childrenOf S birth0 worldTime (firstId + 1) (fun n => rng (n + 1)) ps
    else childrenOf S birth0 worldTime firstId rng ps

/-- The chunk vector after each child of the list has been appended to the bucket
of its team in the chunk of its position. -/
def pushChildren (S : WorldSettings) (children : List Cell) (chunks : List Chunk) : List Chunk :=
  children.foldl
    (fun chunks child =>
      pushToBucket S chunks (worldToChunkPos S child.position) child.teamId child.id)
    chunks

/-- In the words of the specification: the world after `spawnChildren`. Every
eligible agent has paid one unit of supply and records the birth, every other
agent is unchanged, and one child per eligible agent has been appended to the
registry and to its bucket. -/
def spawnSpec (S : WorldSettings) (birth0 : ℚ) (rng : Nat → SpawnDraw) (w : World) : World :=
  { cells :=
      (w.cells.map fun c => if isEligible w.worldTime c then parentAfterBirth w.worldTime c else c)
        ++ childrenOf S birth0 w.worldTime (freshId w.cells) rng w.cells
    chunks :=
      pushChildren S (childrenOf S birth0 w.worldTime (freshId w.cells) rng w.cells) w.chunks
    worldTime := w.worldTime }

/-- In the words of the amended specification: eligibility as a condition on the
time elapsed since the last birth, which has to exceed 60 units. -/
def eligibleSpec (worldTime : ℚ) (c : Cell) : Prop :=
  c.supply ≥ 2 ∧ worldTime - c.lastBirth > 60

instance (worldTime : ℚ) (c : Cell) : Decidable (eligibleSpec worldTime c) := by
  unfold eligibleSpec; infer_instance

/-- A world at clock `60` whose only agent has supply `2` and was last born at
time `0`: exactly 60 time units have elapsed. -/
def boundaryExampleWorld : World :=
  { cells := [exampleCell 1 1 2 ⟨5, 5⟩],
    chunks := [{ cells := [[1]], teamOwnership := [1], supply := 0, supplyGeneration := 0,
                 isASpawn := false }],
    worldTime := 60 }

/-- The draw satisfies the ranges of the distributions of `spawnChildren`: the
strength multiplier lies in `[0.8, 1.25]`, the root of the `distrib01` draw in
`[0, 1]`, and `(cos, sin)` is a point of the unit disc. -/
def DrawInRange (d : SpawnDraw) : Prop :=
  8 / 10 ≤ d.strengthMul ∧ d.strengthMul ≤ 125 / 100 ∧ 0 ≤ d.root ∧ d.root ≤ 1 ∧
    d.cosAngle * d.cosAngle + d.sinAngle * d.sinAngle ≤ 1

instance (d : SpawnDraw) : Decidable (DrawInRange d) := by
  unfold DrawInRange; infer_instance

/-! ## Totals of the supply field -/

/-- Sum of the supplies of all chunks. -/
def totalSupply (chunks : List Chunk) : ℚ :=
  (chunks.map Chunk.supply).sum

/-- Sum of `supplyGeneration` over the chunks that have an owner. -/
def ownedGeneration (owner : Chunk → Int) (chunks : List Chunk) : ℚ :=
  ((chunks.filter fun c => decide (owner c ≠ -1)).map Chunk.supplyGeneration).sum

/-- Number of chunks without an owner. -/
def unownedCount (owner : Chunk → Int) (chunks : List Chunk) : Nat :=
  (chunks.filter fun c => decide (owner c = -1)).length

/-- The diffusion part of the transfer of the chunk at `p`: the horizontal and the
`0.1`-weighted vertical second differences, with the substitution of the own
supply for neighbours outside the grid or with another owner; `0` for an
unowned chunk, whose transfer is the decay alone. -/
def diffusionSpec (S : WorldSettings) (owner : Chunk → Int) (w : World) (p : Vec2i) : ℚ :=
  if ownerAt S owner w p = -1 then 0
  else
    ((neighbourSupplySpec S owner w p ⟨p.x + 1, p.y⟩ - supplyAt S w p) -
        (supplyAt S w p - neighbourSupplySpec S owner w p ⟨p.x - 1, p.y⟩)) +
      1 / 10 * ((neighbourSupplySpec S owner w p ⟨p.x, p.y + 1⟩ - supplyAt S w p) -
        (supplyAt S w p - neighbourSupplySpec S owner w p ⟨p.x, p.y - 1⟩))

/-- Supply flowing from the chunk at `p` to the chunk at `q` per unit of the
transfer: the difference of the supplies when both are inside the grid and have
the same owner, and `0` across grid edges and territory borders. -/
def flow (S : WorldSettings) (owner : Chunk → Int) (w : World) (p q : Vec2i) : ℚ :=
  if inGrid S p ∧ inGrid S q ∧ ownerAt S owner w q = ownerAt S owner w p ∧
      ownerAt S owner w p ≠ -1 then supplyAt S w q - supplyAt S w p
  else 0

/-! ## `World::findNearestEnemies` -/

/-- Modelled from the spec: `inBoundsEx(p, lo, hi)` of `utils.h`, which is not among
the sources, taken as `lo ≤ p < hi` in both coordinates (lower bound inclusive,
upper bound exclusive). -/
def inBoundsEx (p lo hi : Vec2i) : Prop :=
  (lo.x ≤ p.x ∧ p.x < hi.x) ∧ (lo.y ≤ p.y ∧ p.y < hi.y)

instance (p lo hi : Vec2i) : Decidable (inBoundsEx p lo hi) := by
  unfold inBoundsEx; infer_instance

/-- The values visited by `for (int o = -r; o <= r; o++)`, in order. -/
def offsets (r : Int) : List Int :=
  (List.range (2 * r + 1).toNat).map fun (k : Nat) => (k : Int) - r

/-- The agent behind a bucket entry: the agent of the registry with that
identity. -/
def cellById (cells : List Cell) (id : Nat) : Option Cell :=
  cells.find? fun c => decide (c.id = id)

/-- The value `cellDistance` computed by `findNearestEnemies` for `otherCell`.
The function `sqrtf` of the C library is a parameter. -/
def cellDistance (sqrtf : ℚ → ℚ) (cell otherCell : Cell) : ℚ :=
  sqrtf ((otherCell.position.x - cell.position.x) * (otherCell.position.x - cell.position.x) +
    (otherCell.position.y - cell.position.y) * (otherCell.position.y - cell.position.y))

/-- Body of the innermost loop of `findNearestEnemies`, acting on the pair
`(bestMatch, bestMatchDist)`. -/
def considerCell (sqrtf : ℚ → ℚ) (cell : Cell) (best : Option Cell × ℚ) (otherCell : Cell) :
    Option Cell × ℚ :=
  if cellDistance sqrtf cell otherCell < best.2 then
    (some otherCell, cellDistance sqrtf cell otherCell)
  else best

/-- The loop `for (auto& otherCell : chunk->cells[i])` of `findNearestEnemies`. -/
def scanBucket (sqrtf : ℚ → ℚ) (cells : List Cell) (cell : Cell) (best : Option Cell × ℚ)
    (bucket : List Nat) : Option Cell × ℚ :=
  bucket.foldl
    (fun best id =>
      match cellById cells id with
      | some otherCell => considerCell sqrtf cell best otherCell
      | none => best)
    best

/-- The loop `for (int i = 0; i < settings.numTeams; i++)` of `findNearestEnemies`,
which skips the team of `cell`. -/
def scanChunk (S : WorldSettings) (sqrtf : ℚ → ℚ) (cells : List Cell) (cell : Cell)
    (best : Option Cell × ℚ) (chunk : Chunk) : Option Cell × ℚ :=
  (List.range S.numTeams).foldl
    (fun best i =>
      if i = cell.teamId then best else scanBucket sqrtf cells cell best (chunk.cells.getD i []))
    best

/-- The local `searchDistance = (int) ceilf(maxDistance / settings.pixelsPerChunk)`. -/
def searchDistance (S : WorldSettings) (maxDistance : ℚ) : Int :=
  truncToInt ((⌈maxDistance / S.pixelsPerChunk⌉ : Int) : ℚ)

/-- The loops of `findNearestEnemies`: the final pair `(bestMatch, bestMatchDist)`. -/
def findNearestEnemiesScan (S : WorldSettings) (sqrtf : ℚ → ℚ) (w : World) (cell : Cell)
    (maxDistance : ℚ) : Option Cell × ℚ :=
  (offsets (searchDistance S maxDistance)).foldl
    (fun best ox =>
      (offsets (searchDistance S maxDistance)).foldl
        (fun best oy =>
          if inBoundsEx
              ⟨ox + (worldToChunkPos S cell.position).x, oy + (worldToChunkPos S cell.position).y⟩
              ⟨0, 0⟩ S.numChunks then
            scanChunk S sqrtf w.cells cell best
              (getChunk S w.chunks
                ⟨ox + (worldToChunkPos S cell.position).x,
                  oy + (worldToChunkPos S cell.position).y⟩)
          else best)
        best)
    (none, maxDistance)

/-- Function `World::findNearestEnemies`; `none` stands for `nullptr`. -/
def findNearestEnemies (S : WorldSettings) (sqrtf : ℚ → ℚ) (w : World) (cell : Cell)
    (maxDistance : ℚ) : Option Cell :=
  (findNearestEnemiesScan S sqrtf w cell maxDistance).1

/-- The agents behind the entries of a bucket, in bucket order. -/
def bucketCells (cells : List Cell) (bucket : List Nat) : List Cell :=
  bucket.filterMap (cellById cells)

/-- The agents visited by `findNearestEnemies` in one chunk, in the order of the
visit: teams in increasing order without the team of `cell`, each bucket front
to back. -/
def chunkScanOrder (S : WorldSettings) (cells : List Cell) (cell : Cell) (chunk : Chunk) :
    List Cell :=
  (List.range S.numTeams).flatMap fun i =>
    if i = cell.teamId then [] else bucketCells cells (chunk.cells.getD i [])

/-- The scan order of `findNearestEnemies`: all agents the loops visit, in the
order of the visit. -/
def scanOrder (S : WorldSettings) (w : World) (cell : Cell) (maxDistance : ℚ) : List Cell :=
  (offsets (searchDistance S maxDistance)).flatMap fun ox =>
    (offsets (searchDistance S maxDistance)).flatMap fun oy =>
      if inBoundsEx
          ⟨ox + (worldToChunkPos S cell.position).x, oy + (worldToChunkPos S cell.position).y⟩
          ⟨0, 0⟩ S.numChunks then
        chunkScanOrder S w.cells cell
          (getChunk S w.chunks
            ⟨ox + (worldToChunkPos S cell.position).x, oy + (worldToChunkPos S cell.position).y⟩)
      else []

/-- What the development assumes of the parameter `sqrtf`: on non-negative
arguments its value is non-negative and its square is not below the argument.
The real square root has both properties, the second with equality. -/
def SqrtUpper (sqrtf : ℚ → ℚ) : Prop :=
  ∀ q : ℚ, 0 ≤ q → 0 ≤ sqrtf q ∧ q ≤ sqrtf q * sqrtf q

/-- A rational function with the properties `SqrtUpper`, for the examples: the
arithmetic mean of `q` and `1`, which is the square root at `q = 1` and above it
elsewhere. -/
def exampleSqrt (q : ℚ) : ℚ :=
  (q + 1) / 2

/-! ## `World::attackNearby` -/

/-- Body of the loop of `attackNearby` for the agent at registry position `i`:
the writes through `closestEnemy` reach the agent of the registry with that
identity. -/
def attackStep (S : WorldSettings) (sqrtf : ℚ → ℚ) (delta : ℚ) (w : World) (i : Nat) : World :=
  match w.cells[i]? with
  | none => w
  | some c =>
    match findNearestEnemies S sqrtf w c S.cellAttackRange with
    | none => w
    | some closestEnemy =>
      { w with
        cells := w.cells.map fun x =>
          if x.id = closestEnemy.id then
            { x with
              health :=
                if closestEnemy.health - delta * (c.strength / closestEnemy.strength) < 0 then 0
                else closestEnemy.health - delta * (c.strength / closestEnemy.strength) }
          else x }

/-- The first `n` iterations of the loop `for (auto& c : cells)` of
`attackNearby`. -/
def attackLoop (S : WorldSettings) (sqrtf : ℚ → ℚ) (delta : ℚ) (n : Nat) (w : World) : World :=
  (List.range n).foldl (attackStep S sqrtf delta) w

/-- Function `World::attackNearby`. -/
def attackNearby (S : WorldSettings) (sqrtf : ℚ → ℚ) (delta : ℚ) (w : World) : World :=
  deleteDeadCells S (attackLoop S sqrtf delta w.cells.length w)

/-- Two chunks and two teams with attack range `3`. -/
def combatExampleSettings : WorldSettings :=
  { width := 20, height := 10, pixelsPerChunk := 10, numTeams := 2, numChunks := ⟨2, 1⟩,
    cellAttackRange := 3 }

/-- The attacker of the combat example: team 0 at `(5, 5)`. -/
def combatExampleAttacker : Cell :=
  exampleCell 1 1 1 ⟨5, 5⟩

/-- The defender of the combat example: team 1 at `(6, 5)`, at distance `1` from
the attacker, with the same strength. -/
def combatExampleDefender : Cell :=
  { exampleCell 2 1 1 ⟨6, 5⟩ with teamId := 1 }

/-- The world of `combatExampleSettings`: both agents in the left chunk. -/
def combatExampleWorld : World :=
  { cells := [combatExampleAttacker, combatExampleDefender],
    chunks := [{ cells := [[1], [2]], teamOwnership := [1 / 2, 1 / 2], supply := 0,
                 supplyGeneration := 0, isASpawn := false },
               { cells := [[], []], teamOwnership := [0, 0], supply := 0,
                 supplyGeneration := 0, isASpawn := false }],
    worldTime := 0 }

/-! ## `World::updateVelocities` -/

/-- Body of the inner loop of `updateVelocities` at offset `(ox, oy)`, acting on
`targetVelocity`, with `cellViewRange = 2`. -/
def addChunkWeight (S : WorldSettings) (chunks : List Chunk) (c : Cell) (target : Vec2f)
    (ox oy : Int) : Vec2f :=
  if inBoundsEx
      ⟨ox + (worldToChunkPos S c.position).x, oy + (worldToChunkPos S c.position).y⟩
      ⟨0, 0⟩ S.numChunks then
    if (((ox * ox + oy * oy : Int) : ℚ)) ≤ 2 * 2 then
      ⟨target.x +
          (1 - (getChunk S chunks
                ⟨ox + (worldToChunkPos S c.position).x,
                  oy + (worldToChunkPos S c.position).y⟩).teamOwnership.getD c.teamId 0) /
            ((((getChunk S chunks
                ⟨ox + (worldToChunkPos S c.position).x,
                  oy + (worldToChunkPos S c.position).y⟩).cells.getD c.teamId []).length : ℚ) + 1) *
            ((ox : ℚ) / (((ox * ox + oy * oy : Int) : ℚ) + 1)),
        target.y +
          (1 - (getChunk S chunks
                ⟨ox + (worldToChunkPos S c.position).x,
                  oy + (worldToChunkPos S c.position).y⟩).teamOwnership.getD c.teamId 0) /
            ((((getChunk S chunks
                ⟨ox + (worldToChunkPos S c.position).x,
                  oy + (worldToChunkPos S c.position).y⟩).cells.getD c.teamId []).length : ℚ) + 1) *
            ((oy : ℚ) / (((ox * ox + oy * oy : Int) : ℚ) + 1))⟩
    else target
  else target

/-- The sum built by the two offset loops of `updateVelocities`, with
`rectRadius = (int) ceilf(cellViewRange)`. -/
def weightSum (S : WorldSettings) (chunks : List Chunk) (c : Cell) : Vec2f :=
  (offsets (truncToInt ((⌈(2 : ℚ)⌉ : Int) : ℚ))).foldl
    (fun target ox =>
      (offsets (truncToInt ((⌈(2 : ℚ)⌉ : Int) : ℚ))).foldl
        (fun target oy => addChunkWeight S chunks c target ox oy) target)
    ⟨0, 0⟩

/-- The last three statements on `targetVelocity` for a sum `t`: add
`preferredVelocity / 1000`, divide by the length plus `1e-8`, multiply by `50`. -/
def normalizeTarget (sqrtf : ℚ → ℚ) (preferredVelocity t : Vec2f) : Vec2f :=
  ⟨(t.x + preferredVelocity.x / 1000) /
        (sqrtf ((t.x + preferredVelocity.x / 1000) * (t.x + preferredVelocity.x / 1000) +
            (t.y + preferredVelocity.y / 1000) * (t.y + preferredVelocity.y / 1000)) +
          1 / 100000000) * 50,
    (t.y + preferredVelocity.y / 1000) /
        (sqrtf ((t.x + preferredVelocity.x / 1000) * (t.x + preferredVelocity.x / 1000) +
            (t.y + preferredVelocity.y / 1000) * (t.y + preferredVelocity.y / 1000)) +
          1 / 100000000) * 50⟩

/-- The value of `targetVelocity` when the velocity of `c` is assigned. -/
def targetVelocity (S : WorldSettings) (sqrtf : ℚ → ℚ) (chunks : List Chunk) (c : Cell) : Vec2f :=
  normalizeTarget sqrtf c.preferredVelocity (weightSum S chunks c)

/-- Body of the loop of `updateVelocities` for one agent:
`velocity = (1 - delta) * velocity + delta * targetVelocity`. -/
def updateVelocity (S : WorldSettings) (sqrtf : ℚ → ℚ) (delta : ℚ) (chunks : List Chunk)
    (c : Cell) : Cell :=
  { c with
    velocity :=
      ⟨(1 - delta) * c.velocity.x + delta * (targetVelocity S sqrtf chunks c).x,
        (1 - delta) * c.velocity.y + delta * (targetVelocity S sqrtf chunks c).y⟩ }

/-- Function `World::updateVelocities`; the loop reads the chunks, which it does
not change, and the agent it updates. -/
def updateVelocities (S : WorldSettings) (sqrtf : ℚ → ℚ) (delta : ℚ) (w : World) : World :=
  { w with cells := w.cells.map (updateVelocity S sqrtf delta w.chunks) }

/-- Squared length of a velocity. -/
def speedSq (v : Vec2f) : ℚ :=
  v.x * v.x + v.y * v.y

/-! ## `World::step` -/

/-- The part of `step` before the call of `spawnChildren`: the clock is advanced
and the passes `updateTerritories`, `updateChunkSupply`, `updateCellSupply`,
`updateVelocities`, `updatePositions`, `attackNearby` run in this order. -/
def beforeSpawn (S : WorldSettings) (owner : Chunk → Int) (sqrtf : ℚ → ℚ) (delta : ℚ)
    (w : World) : World :=
  attackNearby S sqrtf delta
    (updatePositions S delta
      (updateVelocities S sqrtf delta
        (updateCellSupply S owner delta
          (updateChunkSupply S owner delta
            (updateTerritories S delta { w with worldTime := w.worldTime + delta })))))

/-- Function `World::step`. -/
def step (S : WorldSettings) (owner : Chunk → Int) (sqrtf : ℚ → ℚ) (birth0 : ℚ) (delta : ℚ)
    (rng : Nat → SpawnDraw) (w : World) : World :=
  spawnChildren S birth0 rng (beforeSpawn S owner sqrtf delta w)

/-- A sequence of calls of `step`, one per entry: the elapsed time of the call
and the draws its `spawnChildren` takes from the generator. -/
def steps (S : WorldSettings) (owner : Chunk → Int) (sqrtf : ℚ → ℚ) (birth0 : ℚ)
    (calls : List (ℚ × (Nat → SpawnDraw))) (w : World) : World :=
  calls.foldl (fun w call => step S owner sqrtf birth0 call.1 call.2 w) w

/-! ## The agents of the constructor -/

/-- The agent built in the constructor,
`Cell(teamId, seed, 1, 1, 1, velocity, prefferedVelocity, position)`, with the
position at `dist * (cos, sin)` from the spawn point of its team, where
`dist = sqrtf(distrib01(generator)) * settings.spawnRadius`. -/
def initialCell (birth0 : ℚ) (id teamId : Nat) (spawnRadius : ℚ) (spawn : Vec2f)
    (d : SpawnDraw) : Cell :=
  { id := id
    teamId := teamId
    seed := d.seed
    strength := 1
    health := 1
    supply := 1
    velocity := d.velocity
    preferredVelocity := ⟨d.cosAngle, d.sinAngle⟩
    position :=
      ⟨d.cosAngle * (d.root * spawnRadius) + spawn.x,
        d.sinAngle * (d.root * spawnRadius) + spawn.y⟩
    lastBirth := birth0 }

/-- The registry built by the two agent loops of the constructor: per team in
team order, `initialCellsPerTeam` agents in creation order. -/
def constructCells (birth0 : ℚ) (numTeams initialCellsPerTeam : Nat) (spawnRadius : ℚ)
    (teamSpawns : List Vec2f) (rng : Nat → SpawnDraw) : List Cell :=
  (List.range numTeams).flatMap fun teamId =>
    (List.range initialCellsPerTeam).map fun i =>
      initialCell birth0 (teamId * initialCellsPerTeam + i + 1) teamId spawnRadius
        (teamSpawns.getD teamId ⟨0, 0⟩) (rng (teamId * initialCellsPerTeam + i))

/-- The velocity components of the draw lie in `[-1, 1]`, the range of
`velocityDistrib`. -/
def VelocityInRange (d : SpawnDraw) : Prop :=
  (-1 ≤ d.velocity.x ∧ d.velocity.x ≤ 1) ∧ (-1 ≤ d.velocity.y ∧ d.velocity.y ≤ 1)

instance (d : SpawnDraw) : Decidable (VelocityInRange d) := by
  unfold VelocityInRange; infer_instance

/-- A world as left by the constructor for one team with one agent, in the grid
of `exchangeExampleSettings`: the agent built from `exampleDraw` around the spawn
point `(5, 5)` with spawn radius `3`, registered in the only chunk, which its team owns. -/
def constructedExampleWorld : World :=
  { cells := constructCells 0 1 1 3 [⟨5, 5⟩] (fun _ => exampleDraw),
    chunks := [{ cells := [[1]], teamOwnership := [1], supply := 3, supplyGeneration := 0,
                 isASpawn := false }],
    worldTime := 0 }

/-- A parent for the reproduction examples: supply exactly `2`, last birth `100`
time units before the clock of the example worlds. -/
def parentExampleCell : Cell :=
  { exampleCell 1 1 2 ⟨5, 5⟩ with lastBirth := -100 }

/-- The parent alone in the chunk of `exchangeExampleSettings`, which its team
owns. -/
def ownedParentExampleWorld : World :=
  { cells := [parentExampleCell], chunks := exchangeExampleChunks 3, worldTime := 0 }

/-- The parent alone in the chunk of `exchangeExampleSettings`, which no team
owns (ownership fraction `0`). -/
def unownedParentExampleWorld : World :=
  { cells := [parentExampleCell],
    chunks := [{ cells := [[1]], teamOwnership := [0], supply := 3, supplyGeneration := 0,
                 isASpawn := false }],
    worldTime := 0 }

/-! ## Grid dimensions of the constructor -/

/-- The first two statements of the constructor `World::World`:
`numChunks.x = (int) ceilf((float) width / (float) pixelsPerChunk)` and the same
for `y` with `height`, the conversions and the quotient rounded to `float`; the
other settings are kept. -/
def constructSettings (S : WorldSettings) : WorldSettings :=
  { S with
    numChunks :=
      ⟨truncToInt
          ((⌈toFloat (toFloat (S.width : ℚ) / toFloat S.pixelsPerChunk)⌉ : Int) : ℚ),
        truncToInt
          ((⌈toFloat (toFloat (S.height : ℚ) / toFloat S.pixelsPerChunk)⌉ : Int) : ℚ)⟩ }

/-- The position lies in `[0, width - 1e-4] x [0, height - 1e-4]`, with the exact
value of the margin. -/
def inClampRange (S : WorldSettings) (p : Vec2f) : Prop :=
  (0 ≤ p.x ∧ p.x ≤ (S.width : ℚ) - 1 / 10000) ∧ (0 ≤ p.y ∧ p.y ≤ (S.height : ℚ) - 1 / 10000)

instance (S : WorldSettings) (p : Vec2f) : Decidable (inClampRange S p) := by
  unfold inClampRange; infer_instance


/-! ## A world of width and height `2560` -/

/-- A world of `2560 x 2560` with chunks of size `1280`: a grid of `2 x 2` chunks,
one team, no combat. -/
def largeExampleSettings : WorldSettings :=
  { width := 2560, height := 2560, pixelsPerChunk := 1280, numTeams := 1, numChunks := ⟨2, 2⟩,
    cellAttackRange := 0 }

/-- The chunk vector of `largeExampleSettings` with agent `1` registered in the
chunk at linear index `k` and no other agent. -/
def largeExampleChunks (k : Nat) : List Chunk :=
  (List.range 4).map fun i =>
    { cells := [if i = k then [1] else []], teamOwnership := [0], supply := 0,
      supplyGeneration := 0, isASpawn := false }

/-- An agent at `(2550, 5)`, in the chunk at grid position `(1, 0)`, moving right
with velocity `(100, 0)`. -/
def wallExampleWorld : World :=
  { cells := [{ exampleCell 1 1 1 ⟨2550, 5⟩ with velocity := ⟨100, 0⟩ }],
    chunks := largeExampleChunks 1, worldTime := 0 }

/-- An agent at `(2550, 2550)`, in the chunk at grid position `(1, 1)`, moving
toward the corner with velocity `(100, 100)`. -/
def cornerExampleWorld : World :=
  { cells := [{ exampleCell 1 1 1 ⟨2550, 2550⟩ with velocity := ⟨100, 100⟩ }],
    chunks := largeExampleChunks 3, worldTime := 0 }

/-- A parent with supply `2`, last born long ago, at `(2559, 5)` in the chunk at
grid position `(1, 0)`. -/
def wallParentExampleWorld : World :=
  { cells := [{ exampleCell 1 1 2 ⟨2559, 5⟩ with lastBirth := -100 }],
    chunks := largeExampleChunks 1, worldTime := 0 }

/-- A draw with angle `0` and root `1/2`: the child is placed `1.5` to the right
of its parent before the clamp. -/
def wallExampleDraw : SpawnDraw :=
  { cosAngle := 1, sinAngle := 0, root := 1 / 2, velocity := ⟨0, 0⟩, strengthMul := 1, seed := 7 }

/-- Settings with width `2^24 + 1` and chunks of size `2^24`, before the
constructor fills in the grid dimensions. -/
def wideExampleSettings : WorldSettings :=
  { width := 16777217, height := 1, pixelsPerChunk := 16777216, numTeams := 1,
    numChunks := ⟨0, 0⟩, cellAttackRange := 0 }

/-! ## Assumptions on the owner function and examples for reproduction in `step` -/

/-- What the development assumes of the parameter `owner` where it follows a chunk
through the supply passes: the owner of a chunk does not depend on the supply of
the chunk ("the dominant team id, or -1 if unowned"). -/
def OwnerIgnoresSupply (owner : Chunk → Int) : Prop :=
  ∀ (c : Chunk) (s : ℚ), owner { c with supply := s } = owner c

/-- The fields of a chunk other than its supply. -/
def Chunk.withoutSupply (c : Chunk) : List (List Nat) × List ℚ × ℚ × Bool :=
  (c.cells, c.teamOwnership, c.supplyGeneration, c.isASpawn)

/-- The parent of the examples and a strong enemy at distance `1`, within the
attack range `3` of `combatExampleSettings`, in a chunk that no team owns. -/
def attackedParentExampleWorld : World :=
  { cells := [parentExampleCell,
              { exampleCell 2 1 1 ⟨6, 5⟩ with teamId := 1, strength := 1000 }],
    chunks := [{ cells := [[1], [2]], teamOwnership := [0, 0], supply := 3, supplyGeneration := 0,
                 isASpawn := false },
               { cells := [[], []], teamOwnership := [0, 0], supply := 0,
                 supplyGeneration := 0, isASpawn := false }],
    worldTime := 0 }

/-- Two parents with supply `2`, last born long ago, in the chunk of
`exchangeExampleSettings`, which no team owns. -/
def twoParentsExampleWorld : World :=
  { cells := [parentExampleCell, { exampleCell 2 1 2 ⟨6, 5⟩ with lastBirth := -100 }],
    chunks := [{ cells := [[1, 2]], teamOwnership := [0], supply := 3, supplyGeneration := 0,
                 isASpawn := false }],
    worldTime := 0 }


/-- The parent of the examples with health `0`, alone in the chunk of
`exchangeExampleSettings`, which no team owns. -/
def deadParentExampleWorld : World :=
  { unownedParentExampleWorld with cells := [{ parentExampleCell with health := 0 }] }
/-! ## Loops over the grid -/

/-- A loop that rewrites one entry per visited key touches the entry of an
unvisited index not at all. -/
theorem foldl_modify_of_not_mem {α β : Type} (idx : β → Nat) (G : β → α → α) (j : Nat) :
    ∀ (ps : List β) (l : List α), j ∉ ps.map idx →
      (ps.foldl (fun l p => l.modify (G p) (idx p)) l)[j]? = l[j]? := by
  intro ps
  induction ps with
  | nil => intro l _; rfl
  | cons p ps ih =>
    intro l hj
    simp only [List.map_cons, List.mem_cons, not_or] at hj
    rw [List.foldl_cons, ih _ hj.2, List.getElem?_modify]
    simp [Ne.symm hj.1]

/-- A loop that rewrites one entry per visited key, with distinct keys, applies
the rewrite of a visited key exactly once to the entry it found. -/
theorem foldl_modify_of_mem {α β : Type} (idx : β → Nat) (G : β → α → α) :
    ∀ (ps : List β) (l : List α), (ps.map idx).Nodup → ∀ p ∈ ps,
      (ps.foldl (fun l p => l.modify (G p) (idx p)) l)[idx p]? = (l[idx p]?).map (G p) := by
  intro ps
  induction ps with
  | nil => intro l _ p hp; simp at hp
  | cons q ps ih =>
    intro l hnd p hp
    rw [List.map_cons, List.nodup_cons] at hnd
    rw [List.foldl_cons]
    rcases List.mem_cons.1 hp with rfl | hp
    · rw [foldl_modify_of_not_mem idx G _ ps _ hnd.1, List.getElem?_modify]
      simp
    · have hne : idx q ≠ idx p := by
        intro h
        exact hnd.1 (h ▸ List.mem_map_of_mem idx hp)
      rw [ih _ hnd.2 p hp, List.getElem?_modify]
      simp [hne]

theorem foldl_modify_length {α β : Type} (idx : β → Nat) (G : β → α → α) :
    ∀ (ps : List β) (l : List α),
      (ps.foldl (fun l p => l.modify (G p) (idx p)) l).length = l.length := by
  intro ps
  induction ps with
  | nil => intro l; rfl
  | cons q ps ih => intro l; rw [List.foldl_cons, ih, List.length_modify]

theorem mem_gridPositions (S : WorldSettings) (p : Vec2i) :
    p ∈ gridPositions S ↔ (0 ≤ p.x ∧ p.x < S.numChunks.x) ∧ (0 ≤ p.y ∧ p.y < S.numChunks.y) := by
  unfold gridPositions
  simp only [List.mem_flatMap, List.mem_map, List.mem_range]
  constructor
  · rintro ⟨a, ha, b, hb, rfl⟩
    simp only
    omega
  · rintro ⟨⟨h1, h2⟩, h3, h4⟩
    refine ⟨p.x.toNat, by omega, p.y.toNat, by omega, ?_⟩
    cases p with
    | mk x y =>
      simp only at h1 h2 h3 h4 ⊢
      rw [Int.toNat_of_nonneg h1, Int.toNat_of_nonneg h3]

/-- Linear index of a grid position as a natural number. -/
theorem chunkIndex_of_mem (S : WorldSettings) (p : Vec2i) (hp : p ∈ gridPositions S) :
    0 ≤ chunkIndex S p ∧
      (chunkIndex S p).toNat < S.numChunks.x.toNat * S.numChunks.y.toNat := by
  rw [mem_gridPositions] at hp
  obtain ⟨⟨h1, h2⟩, h3, h4⟩ := hp
  unfold chunkIndex
  have hnn : 0 ≤ p.y * S.numChunks.x := mul_nonneg h3 (by omega)
  refine ⟨by omega, ?_⟩
  have hx : (S.numChunks.x.toNat : Int) = S.numChunks.x := Int.toNat_of_nonneg (by omega)
  have hy : (S.numChunks.y.toNat : Int) = S.numChunks.y := Int.toNat_of_nonneg (by omega)
  have : p.x + p.y * S.numChunks.x < S.numChunks.x * S.numChunks.y := by
    have : (p.y + 1) * S.numChunks.x ≤ S.numChunks.y * S.numChunks.x :=
      mul_le_mul_of_nonneg_right (by omega) (by omega)
    nlinarith
  zify
  rw [Int.toNat_of_nonneg (by omega), hx, hy]
  exact this

theorem chunkIndex_inj (S : WorldSettings) (p q : Vec2i) (hp : p ∈ gridPositions S)
    (hq : q ∈ gridPositions S) (h : chunkIndex S p = chunkIndex S q) : p = q := by
  rw [mem_gridPositions] at hp hq
  obtain ⟨⟨h1, h2⟩, h3, h4⟩ := hp
  obtain ⟨⟨k1, k2⟩, k3, k4⟩ := hq
  unfold chunkIndex at h
  have hy : p.y = q.y := by
    by_contra hne
    rcases lt_or_gt_of_ne hne with hlt | hlt
    · have : (p.y + 1) * S.numChunks.x ≤ q.y * S.numChunks.x :=
        mul_le_mul_of_nonneg_right (by omega) (by omega)
      nlinarith
    · have : (q.y + 1) * S.numChunks.x ≤ p.y * S.numChunks.x :=
        mul_le_mul_of_nonneg_right (by omega) (by omega)
      nlinarith
  have hx : p.x = q.x := by rw [hy] at h; omega
  cases p; cases q; simp_all

theorem gridPositions_nodup (S : WorldSettings) : (gridPositions S).Nodup := by
  unfold gridPositions
  rw [List.nodup_flatMap]
  constructor
  · intro x _
    refine (List.nodup_range _).map ?_
    intro a b h
    simpa using h
  · refine List.Nodup.pairwise_of_forall_ne (List.nodup_range _) ?_
    intro a _ b _ hab
    simp only [Function.onFun, List.Disjoint, List.mem_map, List.mem_range]
    rintro p ⟨y, _, rfl⟩ ⟨z, _, h⟩
    simp only [Vec2i.mk.injEq] at h
    omega

theorem gridIndex_nodup (S : WorldSettings) :
    ((gridPositions S).map fun p => (chunkIndex S p).toNat).Nodup := by
  refine List.Nodup.map_on ?_ (gridPositions_nodup S)
  intro p hp q hq h
  apply chunkIndex_inj S p q hp hq
  have := (chunkIndex_of_mem S p hp).1
  have := (chunkIndex_of_mem S q hq).1
  omega

/-- Every index of the chunk vector is the linear index of a grid position. -/
theorem exists_gridPosition (S : WorldSettings) (k : Nat)
    (hk : k < S.numChunks.x.toNat * S.numChunks.y.toNat) :
    ∃ p ∈ gridPositions S, (chunkIndex S p).toNat = k := by
  have hx0 : 0 < S.numChunks.x.toNat := by
    rcases Nat.eq_zero_or_pos S.numChunks.x.toNat with h | h
    · rw [h] at hk; simp at hk
    · exact h
  have h1 : k % S.numChunks.x.toNat < S.numChunks.x.toNat := Nat.mod_lt _ hx0
  have h2 : k / S.numChunks.x.toNat < S.numChunks.y.toNat := by
    rw [Nat.div_lt_iff_lt_mul hx0, Nat.mul_comm]; exact hk
  have h3 : k % S.numChunks.x.toNat + k / S.numChunks.x.toNat * S.numChunks.x.toNat = k :=
    Nat.mod_add_div' k _
  generalize k % S.numChunks.x.toNat = a at h1 h3
  generalize k / S.numChunks.x.toNat = b at h2 h3
  refine ⟨⟨(a : Int), (b : Int)⟩, ?_, ?_⟩
  · rw [mem_gridPositions]
    simp only
    omega
  · unfold chunkIndex
    simp only
    have hx : (S.numChunks.x.toNat : Int) = S.numChunks.x := Int.toNat_of_nonneg (by omega)
    rw [← hx, ← Int.natCast_mul, ← Int.natCast_add, Int.toNat_natCast, h3]

theorem foldl_congr_mem {α β : Type} (f g : α → β → α) :
    ∀ (ps : List β) (a : α), (∀ a, ∀ p ∈ ps, f a p = g a p) → ps.foldl f a = ps.foldl g a := by
  intro ps
  induction ps with
  | nil => intro a _; rfl
  | cons p ps ih =>
    intro a h
    rw [List.foldl_cons, List.foldl_cons, h a p (List.mem_cons_self _ _)]
    exact ih _ fun a q hq => h a q (List.mem_cons_of_mem _ hq)

/-- A pass over the whole grid that rewrites the entry at each visited linear
index rewrites every entry of the vector exactly once. -/
theorem grid_foldl_modify {α : Type} (S : WorldSettings) (H : Nat → α → α) (l : List α)
    (hlen : l.length = S.numChunks.x.toNat * S.numChunks.y.toNat) (k : Nat) :
    ((gridPositions S).foldl
        (fun l p => l.modify (H (chunkIndex S p).toNat) (chunkIndex S p).toNat) l)[k]? =
      (l[k]?).map (H k) := by
  by_cases hk : k < l.length
  · obtain ⟨p, hp, rfl⟩ := exists_gridPosition S k (hlen ▸ hk)
    exact foldl_modify_of_mem (fun p => (chunkIndex S p).toNat)
      (fun p => H (chunkIndex S p).toNat) (gridPositions S) l (gridIndex_nodup S) p hp
  · have h1 : l[k]? = none := List.getElem?_eq_none (by omega)
    rw [h1, Option.map_none']
    apply List.getElem?_eq_none
    rw [foldl_modify_length (fun p => (chunkIndex S p).toNat)
      (fun p => H (chunkIndex S p).toNat)]
    omega

theorem grid_foldl_modify_length {α : Type} (S : WorldSettings) (H : Nat → α → α) (l : List α) :
    ((gridPositions S).foldl
        (fun l p => l.modify (H (chunkIndex S p).toNat) (chunkIndex S p).toNat) l).length =
      l.length :=
  foldl_modify_length (fun p => (chunkIndex S p).toNat) (fun p => H (chunkIndex S p).toNat) _ l

/-- The same for writes through `getChunk`. -/
theorem grid_foldl_modifyChunk (S : WorldSettings) (H : Nat → Chunk → Chunk) (chunks : List Chunk) :
    (gridPositions S).foldl
        (fun chunks p => modifyChunk S chunks p (H (chunkIndex S p).toNat)) chunks =
      (gridPositions S).foldl
        (fun l p => l.modify (H (chunkIndex S p).toNat) (chunkIndex S p).toNat) chunks := by
  apply foldl_congr_mem
  intro a p hp
  simp [modifyChunk, (chunkIndex_of_mem S p hp).1]

/-- A grid pass applying the same rewrite `f` to every chunk is `map f`. -/
theorem grid_foldl_modifyChunk_const (S : WorldSettings) (f : Chunk → Chunk) (chunks : List Chunk)
    (h : GridShape S chunks) :
    (gridPositions S).foldl (fun chunks p => modifyChunk S chunks p f) chunks = chunks.map f := by
  rw [grid_foldl_modifyChunk S (fun _ => f)]
  apply List.ext_getElem?
  intro k
  rw [grid_foldl_modify S (fun _ => f) chunks h.2.2, List.getElem?_map]

theorem updateTerritories_chunks (S : WorldSettings) (delta : ℚ) (w : World)
    (h : GridShape S w.chunks) :
    (updateTerritories S delta w).chunks = w.chunks.map (updateTerritoriesChunk S.numTeams delta) :=
  grid_foldl_modifyChunk_const S _ _ h

/-! ## `updateTerritories`: claims C3 and C4 -/

theorem countCells_aux (chunk : Chunk) (m : Nat) (t0 : Nat) (buf : List Nat) :
    ((List.range m).foldl
        (fun (acc : Nat × List Nat) i =>
          if chunk.count i > 0 then (acc.1 + chunk.count i, acc.2.set i (chunk.count i))
          else (acc.1, acc.2.set i 0))
        (t0, buf)).1 = t0 + ((List.range m).map chunk.count).sum ∧
    ((List.range m).foldl
        (fun (acc : Nat × List Nat) i =>
          if chunk.count i > 0 then (acc.1 + chunk.count i, acc.2.set i (chunk.count i))
          else (acc.1, acc.2.set i 0))
        (t0, buf)).2.length = buf.length ∧
    ∀ i, i < m → i < buf.length →
      ((List.range m).foldl
        (fun (acc : Nat × List Nat) i =>
          if chunk.count i > 0 then (acc.1 + chunk.count i, acc.2.set i (chunk.count i))
          else (acc.1, acc.2.set i 0))
        (t0, buf)).2.getD i 0 = chunk.count i := by
  induction m with
  | zero => simp
  | succ m ih =>
    obtain ⟨ih1, ih2, ih3⟩ := ih
    rw [List.range_succ, List.foldl_append, List.foldl_cons, List.foldl_nil]
    generalize (List.range m).foldl _ (t0, buf) = acc at ih1 ih2 ih3
    have hsum : ((List.range m ++ [m]).map chunk.count).sum =
        ((List.range m).map chunk.count).sum + chunk.count m := by simp
    rw [hsum]
    by_cases hc : chunk.count m > 0
    · rw [if_pos hc]
      refine ⟨by simp only; omega, by simp [ih2], ?_⟩
      intro i hi hb
      simp only [List.getD_eq_getElem?_getD, List.getElem?_set]
      by_cases him : m = i
      · subst him; simp [ih2, hb]
      · rw [if_neg him, ← List.getD_eq_getElem?_getD]; exact ih3 i (by omega) hb
    · rw [if_neg hc]
      refine ⟨by simp only; omega, by simp [ih2], ?_⟩
      intro i hi hb
      simp only [List.getD_eq_getElem?_getD, List.getElem?_set]
      by_cases him : m = i
      · subst him; simp [ih2, hb]; omega
      · rw [if_neg him, ← List.getD_eq_getElem?_getD]; exact ih3 i (by omega) hb

theorem countCells_fst (numTeams : Nat) (chunk : Chunk) :
    (countCells numTeams chunk).1 = chunk.total numTeams := by
  have := (countCells_aux chunk numTeams 0 (List.replicate numTeams 0)).1
  simpa [countCells, Chunk.total] using this

theorem countCells_snd (numTeams : Nat) (chunk : Chunk) (i : Nat) (hi : i < numTeams) :
    (countCells numTeams chunk).2.getD i 0 = chunk.count i :=
  (countCells_aux chunk numTeams 0 (List.replicate numTeams 0)).2.2 i hi (by simpa using hi)

/-- New ownership fraction computed by the source for previous value `o` and
target `t`. -/
theorem moveOwnership_eq (delta : ℚ) (cellCounts : List Nat) (total : Nat) (own : List ℚ)
    (i : Nat) :
    moveOwnership delta cellCounts total own i =
      own.modify
        (fun o =>
          if o > (cellCounts.getD i 0 : ℚ) / (total : ℚ) then
            clamp (o - delta * claimSpeed) ((cellCounts.getD i 0 : ℚ) / (total : ℚ)) 1
          else clamp (o + delta * claimSpeed) 0 ((cellCounts.getD i 0 : ℚ) / (total : ℚ))) i := by
  unfold moveOwnership
  generalize ((cellCounts.getD i 0 : Nat) : ℚ) / (total : ℚ) = t
  apply List.ext_getElem?
  intro j
  rw [List.getElem?_modify]
  by_cases hij : i = j
  · subst hij
    simp only [↓reduceIte]
    by_cases hi : i < own.length
    · have hget : own.getD i 0 = own[i] := by
        rw [List.getD_eq_getElem?_getD, List.getElem?_eq_getElem hi]; rfl
      rw [hget, List.getElem?_eq_getElem hi]
      by_cases h1 : own[i] > t
      · simp [List.getElem?_set, hi, h1]
      · simp [List.getElem?_set, hi, h1]
    · have hnone : own[i]? = none := List.getElem?_eq_none (by omega)
      split_ifs <;> simp [List.getElem?_set, hi, hnone]
  · split_ifs <;> simp [List.getElem?_set, hij]

/-- Ownership of team `i` after the chunk body of `updateTerritories`, for a
populated chunk. -/
theorem updateTerritoriesChunk_ownership (numTeams : Nat) (delta : ℚ) (chunk : Chunk)
    (i : Nat) (hi : i < numTeams) (hlen : i < chunk.teamOwnership.length)
    (htot : chunk.total numTeams ≠ 0) :
    (updateTerritoriesChunk numTeams delta chunk).teamOwnership.getD i 0 =
      if chunk.teamOwnership.getD i 0 > (chunk.count i : ℚ) / (chunk.total numTeams : ℚ) then
        clamp (chunk.teamOwnership.getD i 0 - delta * claimSpeed)
          ((chunk.count i : ℚ) / (chunk.total numTeams : ℚ)) 1
      else
        clamp (chunk.teamOwnership.getD i 0 + delta * claimSpeed) 0
          ((chunk.count i : ℚ) / (chunk.total numTeams : ℚ)) := by
  unfold updateTerritoriesChunk
  rw [if_pos (by rw [countCells_fst]; exact htot)]
  simp only
  have hfun : moveOwnership delta (countCells numTeams chunk).2 (countCells numTeams chunk).1 =
      fun own i => own.modify
        (fun o =>
          if o > (((countCells numTeams chunk).2.getD i 0 : Nat) : ℚ) /
              (((countCells numTeams chunk).1 : Nat) : ℚ) then
            clamp (o - delta * claimSpeed)
              ((((countCells numTeams chunk).2.getD i 0 : Nat) : ℚ) /
                (((countCells numTeams chunk).1 : Nat) : ℚ)) 1
          else clamp (o + delta * claimSpeed) 0
              ((((countCells numTeams chunk).2.getD i 0 : Nat) : ℚ) /
                (((countCells numTeams chunk).1 : Nat) : ℚ))) i := by
    funext own i
    exact moveOwnership_eq _ _ _ _ _
  rw [hfun]
  have key := foldl_modify_of_mem (fun i : Nat => i)
    (fun i o =>
          if o > (((countCells numTeams chunk).2.getD i 0 : Nat) : ℚ) /
              (((countCells numTeams chunk).1 : Nat) : ℚ) then
            clamp (o - delta * claimSpeed)
              ((((countCells numTeams chunk).2.getD i 0 : Nat) : ℚ) /
                (((countCells numTeams chunk).1 : Nat) : ℚ)) 1
          else clamp (o + delta * claimSpeed) 0
              ((((countCells numTeams chunk).2.getD i 0 : Nat) : ℚ) /
                (((countCells numTeams chunk).1 : Nat) : ℚ)))
    (List.range numTeams) chunk.teamOwnership (by simpa using List.nodup_range numTeams) i
    (List.mem_range.2 hi)
  simp only at key
  rw [List.getD_eq_getElem?_getD, key, countCells_fst, countCells_snd _ _ _ hi,
    List.getD_eq_getElem?_getD, List.getElem?_eq_getElem hlen]
  simp

theorem updateTerritoriesChunk_empty (numTeams : Nat) (delta : ℚ) (chunk : Chunk)
    (htot : chunk.total numTeams = 0) :
    updateTerritoriesChunk numTeams delta chunk = chunk := by
  unfold updateTerritoriesChunk
  rw [if_neg (by rw [countCells_fst]; simpa using htot)]

theorem count_le_total (numTeams : Nat) (chunk : Chunk) (i : Nat) (hi : i < numTeams) :
    chunk.count i ≤ chunk.total numTeams :=
  List.le_sum_of_mem (List.mem_map_of_mem _ (List.mem_range.2 hi))

/-- The source's two-branch clamp is the three-case move of the specification. -/
theorem clamp_move_eq (o t e : ℚ) (he : 0 ≤ e) (h0 : 0 ≤ o) (h1 : o ≤ 1) (ht1 : t ≤ 1) :
    (if o > t then clamp (o - e * claimSpeed) t 1 else clamp (o + e * claimSpeed) 0 t) =
      if |o - t| ≤ e then t else if o > t + e then o - e else o + e := by
  unfold clamp claimSpeed
  rcases le_or_lt (|o - t|) e with h | h
  · rw [if_pos h]
    rw [abs_le] at h
    simp only [mul_one, min_def, max_def]
    split_ifs <;> linarith [h.1, h.2]
  · rw [if_neg (not_le.2 h)]
    rw [lt_abs] at h
    rcases h with h | h
    · rw [if_pos (by linarith)]
      simp only [mul_one, min_def, max_def]
      split_ifs <;> linarith
    · rw [if_neg (by linarith)]
      simp only [mul_one, min_def, max_def]
      split_ifs <;> linarith

/-- The three-case move stays between the previous value and the target. -/
theorem move_between (o t e : ℚ) (he : 0 ≤ e) :
    min o t ≤ (if |o - t| ≤ e then t else if o > t + e then o - e else o + e) ∧
      (if |o - t| ≤ e then t else if o > t + e then o - e else o + e) ≤ max o t := by
  rcases le_or_lt (|o - t|) e with h | h
  · rw [if_pos h]
    exact ⟨min_le_right _ _, le_max_right _ _⟩
  · rw [if_neg (not_le.2 h)]
    rw [lt_abs] at h
    rcases h with h | h
    · rw [if_pos (by linarith)]
      exact ⟨le_trans (min_le_right _ _) (by linarith), le_trans (by linarith) (le_max_left _ _)⟩
    · rw [if_neg (by linarith)]
      exact ⟨le_trans (min_le_left _ _) (by linarith), le_trans (by linarith) (le_max_right _ _)⟩

theorem updateTerritories_ownershipAt (S : WorldSettings) (delta : ℚ) (w : World)
    (hgrid : GridShape S w.chunks) (k : Nat) (hk : k < w.chunks.length) (i : Nat)
    (hi : i < S.numTeams) (hown : i < (w.chunks.getD k default).teamOwnership.length)
    (htot : totalAt S w k ≠ 0) :
    ownershipAt (updateTerritories S delta w) k i =
      if ownershipAt w k i > targetAt S w k i then
        clamp (ownershipAt w k i - delta * claimSpeed) (targetAt S w k i) 1
      else clamp (ownershipAt w k i + delta * claimSpeed) 0 (targetAt S w k i) := by
  unfold ownershipAt targetAt countAt totalAt
  rw [updateTerritories_chunks S delta w hgrid]
  have hmap : (w.chunks.map (updateTerritoriesChunk S.numTeams delta)).getD k default =
      updateTerritoriesChunk S.numTeams delta (w.chunks.getD k default) := by
    simp [List.getD_eq_getElem?_getD, List.getElem?_eq_getElem hk]
  rw [hmap]
  exact updateTerritoriesChunk_ownership S.numTeams delta _ i hi hown htot

theorem updateTerritories_ownershipAt_empty (S : WorldSettings) (delta : ℚ) (w : World)
    (hgrid : GridShape S w.chunks) (k : Nat) (hk : k < w.chunks.length) (i : Nat)
    (htot : totalAt S w k = 0) :
    ownershipAt (updateTerritories S delta w) k i = ownershipAt w k i := by
  unfold ownershipAt totalAt at *
  rw [updateTerritories_chunks S delta w hgrid]
  have hmap : (w.chunks.map (updateTerritoriesChunk S.numTeams delta)).getD k default =
      updateTerritoriesChunk S.numTeams delta (w.chunks.getD k default) := by
    simp [List.getD_eq_getElem?_getD, List.getElem?_eq_getElem hk]
  rw [hmap, updateTerritoriesChunk_empty _ _ _ htot]

theorem targetAt_nonneg (S : WorldSettings) (w : World) (k i : Nat) : 0 ≤ targetAt S w k i := by
  unfold targetAt; positivity

theorem targetAt_le_one (S : WorldSettings) (w : World) (k i : Nat) (hi : i < S.numTeams) :
    targetAt S w k i ≤ 1 := by
  unfold targetAt
  apply div_le_one_of_le₀ _ (by positivity)
  exact_mod_cast count_le_total S.numTeams _ i hi

/-- C3: `updateTerritories` agrees with the reference definition `ownershipSpec`:
for every chunk `k` of the grid, every team `i`, every `elapsed ≥ 0` and every
previous ownership `o` in `[0, 1]`, the new ownership is `o` in an empty chunk
and otherwise `count/total` when within `elapsed` of it, else `o ∓ elapsed`;
for a populated chunk the new value lies between `o` and the target, and it
always stays in `[0, 1]`. -/
theorem updateTerritories_refines_ownershipSpec (S : WorldSettings) (elapsed : ℚ) (w : World)
    (hgrid : GridShape S w.chunks) (helapsed : 0 ≤ elapsed)
    (k : Nat) (hk : k < w.chunks.length) (i : Nat) (hi : i < S.numTeams)
    (hown : i < (w.chunks.getD k default).teamOwnership.length)
    (h0 : 0 ≤ ownershipAt w k i) (h1 : ownershipAt w k i ≤ 1) :
    ownershipAt (updateTerritories S elapsed w) k i =
        ownershipSpec (countAt w k i) (totalAt S w k) elapsed (ownershipAt w k i) ∧
      (totalAt S w k ≠ 0 →
        min (ownershipAt w k i) (targetAt S w k i) ≤ ownershipAt (updateTerritories S elapsed w) k i ∧
        ownershipAt (updateTerritories S elapsed w) k i ≤
          max (ownershipAt w k i) (targetAt S w k i)) ∧
      0 ≤ ownershipAt (updateTerritories S elapsed w) k i ∧
      ownershipAt (updateTerritories S elapsed w) k i ≤ 1 := by
  by_cases htot : totalAt S w k = 0
  · rw [updateTerritories_ownershipAt_empty S elapsed w hgrid k hk i htot]
    exact ⟨by simp [ownershipSpec, htot], fun h => absurd htot h, h0, h1⟩
  · have ht0 := targetAt_nonneg S w k i
    have ht1 := targetAt_le_one S w k i hi
    have hval := updateTerritories_ownershipAt S elapsed w hgrid k hk i hi hown htot
    rw [clamp_move_eq _ _ _ helapsed h0 h1 ht1] at hval
    have hspec : ownershipSpec (countAt w k i) (totalAt S w k) elapsed (ownershipAt w k i) =
        if |ownershipAt w k i - targetAt S w k i| ≤ elapsed then targetAt S w k i
        else if ownershipAt w k i > targetAt S w k i + elapsed then ownershipAt w k i - elapsed
        else ownershipAt w k i + elapsed := by
      simp [ownershipSpec, htot, targetAt]
    rw [hspec, hval]
    have hbet := move_between (ownershipAt w k i) (targetAt S w k i) elapsed helapsed
    refine ⟨rfl, fun _ => hbet, ?_, ?_⟩
    · exact le_trans (le_min h0 ht0) hbet.1
    · exact le_trans hbet.2 (max_le h1 ht1)

theorem updateTerritories_refines_ownershipSpec_witness :
    GridShape territoryExampleSettings territoryExampleWorld.chunks ∧
      (0 : ℚ) ≤ 1 / 4 ∧
      ownershipAt (updateTerritories territoryExampleSettings (1 / 4) territoryExampleWorld) 0 0 =
        ownershipSpec (countAt territoryExampleWorld 0 0)
          (totalAt territoryExampleSettings territoryExampleWorld 0) (1 / 4)
          (ownershipAt territoryExampleWorld 0 0) :=
  ⟨by unfold GridShape; decide, by norm_num,
    (updateTerritories_refines_ownershipSpec territoryExampleSettings (1 / 4)
      territoryExampleWorld (by unfold GridShape; decide) (by norm_num) 0 (by decide) 0
      (by decide) (by decide) (by norm_num [ownershipAt, territoryExampleWorld])
      (by norm_num [ownershipAt, territoryExampleWorld])).1⟩

/-- The source's two-branch clamp moves a value that is off the target strictly
toward it, leaves a value on the target there, and never crosses the target. -/
theorem clamp_move_toward (o t e : ℚ) (he : 0 < e) (ht0 : 0 ≤ t) (ht1 : t ≤ 1) :
    (o ≠ t →
        |(if o > t then clamp (o - e * claimSpeed) t 1 else clamp (o + e * claimSpeed) 0 t) - t| <
          |o - t|) ∧
      (o = t →
        (if o > t then clamp (o - e * claimSpeed) t 1 else clamp (o + e * claimSpeed) 0 t) = t) ∧
      (o ≤ t →
        (if o > t then clamp (o - e * claimSpeed) t 1 else clamp (o + e * claimSpeed) 0 t) ≤ t) ∧
      (t ≤ o →
        t ≤ (if o > t then clamp (o - e * claimSpeed) t 1 else clamp (o + e * claimSpeed) 0 t)) := by
  unfold clamp claimSpeed
  simp only [mul_one]
  rcases lt_trichotomy o t with h | h | h
  · rw [if_neg (not_lt.2 h.le)]
    have hle : min (max (o + e) 0) t ≤ t := min_le_right _ _
    have hgt : o < min (max (o + e) 0) t := lt_min (lt_of_lt_of_le (by linarith) (le_max_left _ _)) h
    refine ⟨fun _ => ?_, fun h' => absurd h' h.ne, fun _ => hle, fun h' => absurd h' (not_le.2 h)⟩
    rw [abs_of_nonpos (by linarith), abs_of_neg (by linarith)]
    linarith
  · subst h
    rw [if_neg (lt_irrefl _)]
    have hval : min (max (o + e) 0) o = o :=
      min_eq_right (le_trans (by linarith) (le_max_left _ _))
    rw [hval]
    exact ⟨fun h' => absurd rfl h', fun _ => rfl, fun _ => le_refl _, fun _ => le_refl _⟩
  · rw [if_pos h]
    have hge : t ≤ min (max (o - e) t) 1 := le_min (le_max_right _ _) ht1
    have hlt : min (max (o - e) t) 1 < o :=
      lt_of_le_of_lt (min_le_left _ _) (max_lt (by linarith) h)
    refine ⟨fun _ => ?_, fun h' => absurd h' h.ne', fun h' => absurd h' (not_le.2 h), fun _ => hge⟩
    rw [abs_of_nonneg (by linarith), abs_of_pos (by linarith)]
    linarith

/-- C4, as stated, fails: in `settledExampleWorld` the chunk holds agents, the
elapsed time `1/2` is positive, and team 0, whose ownership `1/2` already
equals `count/total`, is not strictly closer to it after the pass. -/
theorem updateTerritories_strictly_closer_counterexample :
    0 < totalAt territoryExampleSettings settledExampleWorld 0 ∧ (0 : ℚ) < 1 / 2 ∧
      ¬ (|ownershipAt (updateTerritories territoryExampleSettings (1 / 2) settledExampleWorld) 0 0
            - targetAt territoryExampleSettings settledExampleWorld 0 0| <
          |ownershipAt settledExampleWorld 0 0
            - targetAt territoryExampleSettings settledExampleWorld 0 0|) := by
  have h1 : ownershipAt (updateTerritories territoryExampleSettings (1 / 2) settledExampleWorld) 0 0
      = 1 / 2 := by
    norm_num [ownershipAt, updateTerritories, gridPositions, modifyChunk, chunkIndex,
      updateTerritoriesChunk, countCells, moveOwnership, clamp, claimSpeed, Chunk.count,
      territoryExampleSettings, settledExampleWorld, List.range_succ, List.modify]
  have h2 : targetAt territoryExampleSettings settledExampleWorld 0 0 = 1 / 2 := by
    norm_num [targetAt, countAt, totalAt, Chunk.count, Chunk.total, territoryExampleSettings,
      settledExampleWorld, List.range_succ]
  have h3 : ownershipAt settledExampleWorld 0 0 = 1 / 2 := by
    norm_num [ownershipAt, settledExampleWorld]
  have h4 : totalAt territoryExampleSettings settledExampleWorld 0 = 2 := by
    norm_num [totalAt, Chunk.count, Chunk.total, territoryExampleSettings,
      settledExampleWorld, List.range_succ]
  rw [h1, h2, h3, h4]
  norm_num

/-- C4, amended: for every chunk with agents, every team and every `elapsed > 0`,
one `updateTerritories` pass moves an ownership fraction that differs from
`count/total` strictly closer to it, leaves a fraction equal to `count/total`
unchanged, and never moves a fraction past `count/total`. -/
theorem updateTerritories_moves_toward_target (S : WorldSettings) (elapsed : ℚ) (w : World)
    (hgrid : GridShape S w.chunks) (helapsed : 0 < elapsed)
    (k : Nat) (hk : k < w.chunks.length) (i : Nat) (hi : i < S.numTeams)
    (hown : i < (w.chunks.getD k default).teamOwnership.length)
    (htot : 0 < totalAt S w k) :
    (ownershipAt w k i ≠ targetAt S w k i →
        |ownershipAt (updateTerritories S elapsed w) k i - targetAt S w k i| <
          |ownershipAt w k i - targetAt S w k i|) ∧
      (ownershipAt w k i = targetAt S w k i →
        ownershipAt (updateTerritories S elapsed w) k i = targetAt S w k i) ∧
      (ownershipAt w k i ≤ targetAt S w k i →
        ownershipAt (updateTerritories S elapsed w) k i ≤ targetAt S w k i) ∧
      (targetAt S w k i ≤ ownershipAt w k i →
        targetAt S w k i ≤ ownershipAt (updateTerritories S elapsed w) k i) := by
  rw [updateTerritories_ownershipAt S elapsed w hgrid k hk i hi hown (by omega)]
  exact clamp_move_toward _ _ _ helapsed (targetAt_nonneg S w k i) (targetAt_le_one S w k i hi)

theorem updateTerritories_moves_toward_target_witness :
    GridShape territoryExampleSettings territoryExampleWorld.chunks ∧ (0 : ℚ) < 1 / 4 ∧
      0 < totalAt territoryExampleSettings territoryExampleWorld 0 ∧
      (ownershipAt territoryExampleWorld 0 0 ≠ targetAt territoryExampleSettings territoryExampleWorld 0 0 →
        |ownershipAt (updateTerritories territoryExampleSettings (1 / 4) territoryExampleWorld) 0 0
            - targetAt territoryExampleSettings territoryExampleWorld 0 0| <
          |ownershipAt territoryExampleWorld 0 0
            - targetAt territoryExampleSettings territoryExampleWorld 0 0|) :=
  ⟨by unfold GridShape; decide, by norm_num, by decide,
    (updateTerritories_moves_toward_target territoryExampleSettings (1 / 4)
      territoryExampleWorld (by unfold GridShape; decide) (by norm_num) 0 (by decide) 0
      (by decide) (by decide) (by decide)).1⟩

/-! ## `updateChunkSupply`: claims C5, C6 and C7 -/

theorem inGrid_iff_mem (S : WorldSettings) (p : Vec2i) : inGrid S p ↔ p ∈ gridPositions S :=
  (mem_gridPositions S p).symm

/-- A pass over any ordering of the grid that rewrites the entry at each visited
linear index rewrites the entry of every grid position exactly once. -/
theorem order_foldl_modify {α : Type} (S : WorldSettings) (order : List Vec2i)
    (horder : order.Perm (gridPositions S)) (G : Vec2i → α → α) (l : List α)
    (p : Vec2i) (hp : inGrid S p) :
    (order.foldl (fun l q => l.modify (G q) (chunkIndex S q).toNat) l)[(chunkIndex S p).toNat]? =
      (l[(chunkIndex S p).toNat]?).map (G p) := by
  have hnd : (order.map fun q => (chunkIndex S q).toNat).Nodup :=
    (List.Perm.nodup_iff (horder.map _)).2 (gridIndex_nodup S)
  exact foldl_modify_of_mem (fun q => (chunkIndex S q).toNat) G order l hnd p
    (horder.mem_iff.2 ((inGrid_iff_mem S p).1 hp))

theorem order_foldl_set {α : Type} (S : WorldSettings) (order : List Vec2i)
    (horder : order.Perm (gridPositions S)) (v : Vec2i → α) (l : List α) (d : α)
    (hlen : l.length = S.numChunks.x.toNat * S.numChunks.y.toNat)
    (p : Vec2i) (hp : inGrid S p) :
    (order.foldl (fun l q => l.set (chunkIndex S q).toNat (v q)) l).getD (chunkIndex S p).toNat d =
      v p := by
  have hfun : (fun (l : List α) q => l.set (chunkIndex S q).toNat (v q)) =
      fun l q => l.modify (fun _ => v q) (chunkIndex S q).toNat := by
    funext l q
    exact List.set_eq_modify _ _ _
  rw [hfun, List.getD_eq_getElem?_getD, order_foldl_modify S order horder (fun q _ => v q) l p hp]
  have hlt : (chunkIndex S p).toNat < l.length := by
    rw [hlen]; exact (chunkIndex_of_mem S p ((inGrid_iff_mem S p).1 hp)).2
  rw [List.getElem?_eq_getElem hlt]
  rfl

theorem ownerPass_getD (S : WorldSettings) (owner : Chunk → Int) (order : List Vec2i)
    (horder : order.Perm (gridPositions S)) (chunks : List Chunk) (p : Vec2i) (hp : inGrid S p) :
    (ownerPass S owner order chunks).getD (chunkIndex S p).toNat 0 =
      owner (getChunk S chunks p) :=
  order_foldl_set S order horder (fun q => owner (getChunk S chunks q)) _ 0
    (List.length_replicate _ _) p hp

theorem transferPass_getD (S : WorldSettings) (delta : ℚ) (ownerBuffer : List Int)
    (order : List Vec2i) (horder : order.Perm (gridPositions S)) (chunks : List Chunk)
    (p : Vec2i) (hp : inGrid S p) :
    (transferPass S delta ownerBuffer order chunks).getD (chunkIndex S p).toNat 0 =
      supplyTransfer S delta ownerBuffer chunks p :=
  order_foldl_set S order horder (fun q => supplyTransfer S delta ownerBuffer chunks q) _ 0
    (List.length_replicate _ _) p hp

theorem getChunk_of_inGrid (S : WorldSettings) (chunks : List Chunk) (p : Vec2i)
    (hp : inGrid S p) :
    getChunk S chunks p = (chunks[(chunkIndex S p).toNat]?).getD default := by
  unfold getChunk getChunk?
  rw [if_pos (chunkIndex_of_mem S p ((inGrid_iff_mem S p).1 hp)).1]

theorem applyPass_getChunk (S : WorldSettings) (delta : ℚ) (transferBuffer : List ℚ)
    (order : List Vec2i) (horder : order.Perm (gridPositions S)) (chunks : List Chunk)
    (hgrid : GridShape S chunks) (p : Vec2i) (hp : inGrid S p) :
    getChunk S (applyPass S delta transferBuffer order chunks) p =
      { getChunk S chunks p with
        supply := (getChunk S chunks p).supply +
          transferBuffer.getD (chunkIndex S p).toNat 0 * delta } := by
  have hfun : ∀ (a : List Chunk), ∀ q ∈ order,
      (fun chunks q => modifyChunk S chunks q fun c =>
        { c with supply := c.supply + transferBuffer.getD (chunkIndex S q).toNat 0 * delta }) a q =
      (fun (l : List Chunk) q => l.modify (fun c =>
        { c with supply := c.supply + transferBuffer.getD (chunkIndex S q).toNat 0 * delta })
          (chunkIndex S q).toNat) a q := by
    intro a q hq
    simp [modifyChunk, (chunkIndex_of_mem S q (horder.mem_iff.1 hq)).1]
  unfold applyPass
  rw [foldl_congr_mem _ _ order chunks hfun, getChunk_of_inGrid S _ p hp,
    getChunk_of_inGrid S _ p hp,
    order_foldl_modify S order horder (fun q (c : Chunk) =>
        { c with supply := c.supply + transferBuffer.getD (chunkIndex S q).toNat 0 * delta })
      chunks p hp]
  have hlt : (chunkIndex S p).toNat < chunks.length := by
    rw [hgrid.2.2]; exact (chunkIndex_of_mem S p ((inGrid_iff_mem S p).1 hp)).2
  rw [List.getElem?_eq_getElem hlt]
  rfl

/-- With the owner buffer of pass 1, the transfer computed by pass 2 is the
transfer of the specification. -/
theorem supplyTransfer_eq_spec (S : WorldSettings) (owner : Chunk → Int) (delta : ℚ)
    (order : List Vec2i) (horder : order.Perm (gridPositions S)) (w : World)
    (p : Vec2i) (hp : inGrid S p) :
    supplyTransfer S delta (ownerPass S owner order w.chunks) w.chunks p =
      supplyTransferSpec S owner delta w p := by
  have hE : (p.x + 1 < S.numChunks.x ∧
        (ownerPass S owner order w.chunks).getD (chunkIndex S ⟨p.x + 1, p.y⟩).toNat 0 =
          owner (getChunk S w.chunks p)) ↔
      (inGrid S ⟨p.x + 1, p.y⟩ ∧ owner (getChunk S w.chunks ⟨p.x + 1, p.y⟩) =
          owner (getChunk S w.chunks p)) := by
    constructor
    · rintro ⟨h1, h2⟩
      have hin : inGrid S ⟨p.x + 1, p.y⟩ := ⟨⟨by have := hp.1.1; simp only; omega, h1⟩, hp.2⟩
      rw [ownerPass_getD S owner order horder _ _ hin] at h2
      exact ⟨hin, h2⟩
    · rintro ⟨hin, h2⟩
      rw [ownerPass_getD S owner order horder _ _ hin]
      exact ⟨hin.1.2, h2⟩
  have hW : (p.x - 1 ≥ 0 ∧
        (ownerPass S owner order w.chunks).getD (chunkIndex S ⟨p.x - 1, p.y⟩).toNat 0 =
          owner (getChunk S w.chunks p)) ↔
      (inGrid S ⟨p.x - 1, p.y⟩ ∧ owner (getChunk S w.chunks ⟨p.x - 1, p.y⟩) =
          owner (getChunk S w.chunks p)) := by
    constructor
    · rintro ⟨h1, h2⟩
      have hin : inGrid S ⟨p.x - 1, p.y⟩ := ⟨⟨h1, by have := hp.1.2; simp only; omega⟩, hp.2⟩
      rw [ownerPass_getD S owner order horder _ _ hin] at h2
      exact ⟨hin, h2⟩
    · rintro ⟨hin, h2⟩
      rw [ownerPass_getD S owner order horder _ _ hin]
      exact ⟨hin.1.1, h2⟩
  have hS : (p.y + 1 < S.numChunks.y ∧
        (ownerPass S owner order w.chunks).getD (chunkIndex S ⟨p.x, p.y + 1⟩).toNat 0 =
          owner (getChunk S w.chunks p)) ↔
      (inGrid S ⟨p.x, p.y + 1⟩ ∧ owner (getChunk S w.chunks ⟨p.x, p.y + 1⟩) =
          owner (getChunk S w.chunks p)) := by
    constructor
    · rintro ⟨h1, h2⟩
      have hin : inGrid S ⟨p.x, p.y + 1⟩ := ⟨hp.1, ⟨by have := hp.2.1; simp only; omega, h1⟩⟩
      rw [ownerPass_getD S owner order horder _ _ hin] at h2
      exact ⟨hin, h2⟩
    · rintro ⟨hin, h2⟩
      rw [ownerPass_getD S owner order horder _ _ hin]
      exact ⟨hin.2.2, h2⟩
  have hN : (p.y - 1 ≥ 0 ∧
        (ownerPass S owner order w.chunks).getD (chunkIndex S ⟨p.x, p.y - 1⟩).toNat 0 =
          owner (getChunk S w.chunks p)) ↔
      (inGrid S ⟨p.x, p.y - 1⟩ ∧ owner (getChunk S w.chunks ⟨p.x, p.y - 1⟩) =
          owner (getChunk S w.chunks p)) := by
    constructor
    · rintro ⟨h1, h2⟩
      have hin : inGrid S ⟨p.x, p.y - 1⟩ := ⟨hp.1, ⟨h1, by have := hp.2.2; simp only; omega⟩⟩
      rw [ownerPass_getD S owner order horder _ _ hin] at h2
      exact ⟨hin, h2⟩
    · rintro ⟨hin, h2⟩
      rw [ownerPass_getD S owner order horder _ _ hin]
      exact ⟨hin.2.1, h2⟩
  unfold supplyTransfer supplyTransferSpec neighbourSupplySpec ownerAt supplyAt
  rw [ownerPass_getD S owner order horder _ _ hp]
  by_cases hown : owner (getChunk S w.chunks p) = -1
  · rw [if_pos hown, if_pos hown]
  · rw [if_neg hown, if_neg hown]
    simp only [hE, hW, hS, hN]
    ring

/-- Closed form of one `updateChunkSupply` pass, for any visiting orders. -/
theorem updateChunkSupplyIn_supplyAt (S : WorldSettings) (owner : Chunk → Int) (delta : ℚ)
    (o1 o2 o3 : List Vec2i) (h1 : o1.Perm (gridPositions S)) (h2 : o2.Perm (gridPositions S))
    (h3 : o3.Perm (gridPositions S)) (w : World) (hgrid : GridShape S w.chunks)
    (p : Vec2i) (hp : inGrid S p) :
    supplyAt S (updateChunkSupplyIn S owner delta o1 o2 o3 w) p =
      supplyAt S w p + delta * supplyTransferSpec S owner delta w p := by
  unfold supplyAt updateChunkSupplyIn
  simp only
  rw [applyPass_getChunk S delta _ o3 h3 w.chunks hgrid p hp,
    transferPass_getD S delta _ o2 h2 w.chunks p hp,
    supplyTransfer_eq_spec S owner delta o1 h1 w p hp]
  simp only
  ring

theorem updateChunkSupply_supplyAt (S : WorldSettings) (owner : Chunk → Int) (delta : ℚ)
    (w : World) (hgrid : GridShape S w.chunks) (p : Vec2i) (hp : inGrid S p) :
    supplyAt S (updateChunkSupply S owner delta w) p =
      supplyAt S w p + delta * supplyTransferSpec S owner delta w p :=
  updateChunkSupplyIn_supplyAt S owner delta _ _ _ (List.Perm.refl _) (List.Perm.refl _)
    (List.Perm.refl _) w hgrid p hp

/-- C5: `updateChunkSupply` is a double-buffered update. For every grid, owner
assignment and elapsed time, and for every order in which each of the three
passes visits the chunks, the new supply of each chunk is `s + elapsed * T`
with `T` the transfer of the specification, computed from the supplies and
owners before the pass; the loop order of the source is one such order. -/
theorem updateChunkSupply_double_buffered (S : WorldSettings) (owner : Chunk → Int)
    (elapsed : ℚ) (w : World) (hgrid : GridShape S w.chunks)
    (o1 o2 o3 : List Vec2i) (h1 : o1.Perm (gridPositions S)) (h2 : o2.Perm (gridPositions S))
    (h3 : o3.Perm (gridPositions S)) (p : Vec2i) (hp : inGrid S p) :
    supplyAt S (updateChunkSupplyIn S owner elapsed o1 o2 o3 w) p =
        supplyAt S w p + elapsed * supplyTransferSpec S owner elapsed w p ∧
      supplyAt S (updateChunkSupply S owner elapsed w) p =
        supplyAt S w p + elapsed * supplyTransferSpec S owner elapsed w p :=
  ⟨updateChunkSupplyIn_supplyAt S owner elapsed o1 o2 o3 h1 h2 h3 w hgrid p hp,
    updateChunkSupply_supplyAt S owner elapsed w hgrid p hp⟩

theorem updateChunkSupply_double_buffered_witness :
    GridShape supplyExampleSettings supplyExampleWorld.chunks ∧
      inGrid supplyExampleSettings ⟨1, 0⟩ ∧
      supplyAt supplyExampleSettings
          (updateChunkSupplyIn supplyExampleSettings getCurrentOwner (1 / 2)
            [⟨1, 0⟩, ⟨0, 0⟩] [⟨0, 0⟩, ⟨1, 0⟩] [⟨1, 0⟩, ⟨0, 0⟩] supplyExampleWorld) ⟨1, 0⟩ =
        supplyAt supplyExampleSettings supplyExampleWorld ⟨1, 0⟩ +
          1 / 2 * supplyTransferSpec supplyExampleSettings getCurrentOwner (1 / 2)
            supplyExampleWorld ⟨1, 0⟩ :=
  ⟨by unfold GridShape; decide, by decide,
    (updateChunkSupply_double_buffered supplyExampleSettings getCurrentOwner (1 / 2)
      supplyExampleWorld (by unfold GridShape; decide) [⟨1, 0⟩, ⟨0, 0⟩] [⟨0, 0⟩, ⟨1, 0⟩]
      [⟨1, 0⟩, ⟨0, 0⟩] (by decide) (by decide) (by decide) ⟨1, 0⟩ (by decide)).1⟩

theorem getChunk_mem (S : WorldSettings) (chunks : List Chunk) (hgrid : GridShape S chunks)
    (p : Vec2i) (hp : inGrid S p) : getChunk S chunks p ∈ chunks := by
  rw [getChunk_of_inGrid S chunks p hp]
  have hlt : (chunkIndex S p).toNat < chunks.length := by
    rw [hgrid.2.2]; exact (chunkIndex_of_mem S p ((inGrid_iff_mem S p).1 hp)).2
  rw [List.getElem?_eq_getElem hlt]
  exact List.getElem_mem hlt

/-- C6: on a uniform field (every chunk with the same supply `s` and the same
owner `team`, an actual team) one `updateChunkSupply` pass changes the supply of
every chunk of the grid by exactly `elapsed * supplyGeneration` of that chunk,
for every elapsed time, chunks at the grid edges included. -/
theorem updateChunkSupply_uniform_field (S : WorldSettings) (owner : Chunk → Int)
    (elapsed : ℚ) (w : World) (hgrid : GridShape S w.chunks) (s : ℚ) (team : Int)
    (hteam : team ≠ -1) (huniform : ∀ c ∈ w.chunks, c.supply = s ∧ owner c = team)
    (p : Vec2i) (hp : inGrid S p) :
    supplyAt S (updateChunkSupply S owner elapsed w) p - supplyAt S w p =
      elapsed * (getChunk S w.chunks p).supplyGeneration := by
  rw [updateChunkSupply_supplyAt S owner elapsed w hgrid p hp]
  have hs : ∀ q, inGrid S q → supplyAt S w q = s := fun q hq =>
    (huniform _ (getChunk_mem S w.chunks hgrid q hq)).1
  have hn : ∀ q, neighbourSupplySpec S owner w p q = s := by
    intro q
    unfold neighbourSupplySpec
    split_ifs with h
    · exact hs q h.1
    · exact hs p hp
  have ho : ownerAt S owner w p ≠ -1 := by
    unfold ownerAt
    rw [(huniform _ (getChunk_mem S w.chunks hgrid p hp)).2]
    exact hteam
  unfold supplyTransferSpec
  rw [if_neg ho, hn, hn, hn, hn, hs p hp]
  ring

theorem updateChunkSupply_uniform_field_witness :
    GridShape supplyExampleSettings uniformExampleWorld.chunks ∧
      (∀ c ∈ uniformExampleWorld.chunks, c.supply = 4 ∧ getCurrentOwner c = 0) ∧
      supplyAt supplyExampleSettings
          (updateChunkSupply supplyExampleSettings getCurrentOwner (1 / 2) uniformExampleWorld)
          ⟨1, 0⟩ - supplyAt supplyExampleSettings uniformExampleWorld ⟨1, 0⟩ =
        1 / 2 * (getChunk supplyExampleSettings uniformExampleWorld.chunks ⟨1, 0⟩).supplyGeneration :=
  ⟨by unfold GridShape; decide,
    by decide!,
    updateChunkSupply_uniform_field supplyExampleSettings getCurrentOwner (1 / 2)
      uniformExampleWorld (by unfold GridShape; decide) 4 0 (by decide)
      (by decide!)
      ⟨1, 0⟩ (by decide)⟩

/-- C7, as stated, fails: the left chunk of `supplyExampleWorld` is unowned and
`elapsed = 1/2 > 0`, yet its supply after one `updateChunkSupply` pass is
`3 - 1/4`, not `3 - 1/2`. -/
theorem updateChunkSupply_unowned_counterexample :
    ownerAt supplyExampleSettings getCurrentOwner supplyExampleWorld ⟨0, 0⟩ = -1 ∧
      (0 : ℚ) < 1 / 2 ∧
      supplyAt supplyExampleSettings supplyExampleWorld ⟨0, 0⟩ = 3 ∧
      supplyAt supplyExampleSettings
          (updateChunkSupply supplyExampleSettings getCurrentOwner (1 / 2) supplyExampleWorld)
          ⟨0, 0⟩ = 11 / 4 ∧
      supplyAt supplyExampleSettings
          (updateChunkSupply supplyExampleSettings getCurrentOwner (1 / 2) supplyExampleWorld)
          ⟨0, 0⟩ ≠ supplyAt supplyExampleSettings supplyExampleWorld ⟨0, 0⟩ - 1 / 2 := by
  have h0 : ownerAt supplyExampleSettings getCurrentOwner supplyExampleWorld ⟨0, 0⟩ = -1 := by
    decide!
  have h1 : supplyAt supplyExampleSettings supplyExampleWorld ⟨0, 0⟩ = 3 := by decide!
  have h2 : supplyAt supplyExampleSettings
      (updateChunkSupply supplyExampleSettings getCurrentOwner (1 / 2) supplyExampleWorld)
      ⟨0, 0⟩ = 11 / 4 := by decide!
  refine ⟨h0, by norm_num, h1, h2, ?_⟩
  rw [h1, h2]
  norm_num

/-- C7, amended: for every unowned chunk of the grid (owner `-1`) and every
`elapsed > 0`, one `updateChunkSupply` pass strictly decreases the supply of the
chunk, by `elapsed * elapsed`: the stored transfer `-elapsed` is scaled by
`elapsed` once more when it is applied. -/
theorem updateChunkSupply_unowned_decay (S : WorldSettings) (owner : Chunk → Int)
    (elapsed : ℚ) (w : World) (hgrid : GridShape S w.chunks) (helapsed : 0 < elapsed)
    (p : Vec2i) (hp : inGrid S p) (hunowned : ownerAt S owner w p = -1) :
    supplyAt S (updateChunkSupply S owner elapsed w) p =
        supplyAt S w p - elapsed * elapsed ∧
      supplyAt S (updateChunkSupply S owner elapsed w) p < supplyAt S w p := by
  rw [updateChunkSupply_supplyAt S owner elapsed w hgrid p hp]
  unfold supplyTransferSpec
  rw [if_pos hunowned]
  have : 0 < elapsed * elapsed := mul_pos helapsed helapsed
  constructor
  · ring
  · linarith

theorem updateChunkSupply_unowned_decay_witness :
    GridShape supplyExampleSettings supplyExampleWorld.chunks ∧ (0 : ℚ) < 1 / 2 ∧
      ownerAt supplyExampleSettings getCurrentOwner supplyExampleWorld ⟨0, 0⟩ = -1 ∧
      supplyAt supplyExampleSettings
          (updateChunkSupply supplyExampleSettings getCurrentOwner (1 / 2) supplyExampleWorld)
          ⟨0, 0⟩ = supplyAt supplyExampleSettings supplyExampleWorld ⟨0, 0⟩ - 1 / 2 * (1 / 2) :=
  ⟨by unfold GridShape; decide, by norm_num,
    by decide!,
    (updateChunkSupply_unowned_decay supplyExampleSettings getCurrentOwner (1 / 2)
      supplyExampleWorld (by unfold GridShape; decide) (by norm_num) ⟨0, 0⟩ (by decide)
      (by decide!)).1⟩

/-! ## `updateCellSupply`: claims C8, C9 and C10 -/

theorem modifyChunk_length (S : WorldSettings) (chunks : List Chunk) (p : Vec2i)
    (f : Chunk → Chunk) : (modifyChunk S chunks p f).length = chunks.length := by
  unfold modifyChunk
  split_ifs
  · exact List.length_modify _ _ _
  · rfl

/-- Entry `k` of the chunk vector after a write through `getChunk(p)`. -/
theorem modifyChunk_getD (S : WorldSettings) (chunks : List Chunk) (p : Vec2i)
    (f : Chunk → Chunk) (k : Nat) :
    (modifyChunk S chunks p f).getD k default =
      if 0 ≤ chunkIndex S p ∧ k = (chunkIndex S p).toNat ∧ k < chunks.length then
        f (chunks.getD k default)
      else chunks.getD k default := by
  unfold modifyChunk
  by_cases h0 : 0 ≤ chunkIndex S p
  · rw [if_pos h0]
    simp only [List.getD_eq_getElem?_getD, List.getElem?_modify]
    by_cases hk : k < chunks.length
    · rw [List.getElem?_eq_getElem hk]
      by_cases he : (chunkIndex S p).toNat = k
      · simp [he, h0, hk]
      · have he' : ¬ k = (chunkIndex S p).toNat := fun h => he h.symm
        simp [he, he', h0, hk]
    · have hnone : chunks[k]? = none := List.getElem?_eq_none (by omega)
      simp [hnone, hk]
  · rw [if_neg h0]
    simp [h0]

theorem getChunk_eq_getD (S : WorldSettings) (chunks : List Chunk) (p : Vec2i)
    (h0 : 0 ≤ chunkIndex S p) :
    getChunk S chunks p = chunks.getD (chunkIndex S p).toNat default := by
  unfold getChunk getChunk?
  rw [if_pos h0, List.getD_eq_getElem?_getD]

theorem getChunk_modifyChunk_self (S : WorldSettings) (chunks : List Chunk)
    (hgrid : GridShape S chunks) (p : Vec2i) (hp : inGrid S p) (f : Chunk → Chunk) :
    getChunk S (modifyChunk S chunks p f) p = f (getChunk S chunks p) := by
  have h0 := (chunkIndex_of_mem S p ((inGrid_iff_mem S p).1 hp)).1
  have hlt : (chunkIndex S p).toNat < chunks.length := by
    rw [hgrid.2.2]; exact (chunkIndex_of_mem S p ((inGrid_iff_mem S p).1 hp)).2
  rw [getChunk_eq_getD S _ p h0, getChunk_eq_getD S _ p h0, modifyChunk_getD,
    if_pos ⟨h0, rfl, hlt⟩]

theorem supplyExchange_eq_spec (elapsed s c : ℚ) :
    supplyExchange elapsed s c = exchangeSpec elapsed s c := by
  unfold supplyExchange exchangeSpec
  rw [min_assoc, mul_one_div]

/-- C8: for an agent whose chunk is owned by the agent's own team, the body of
`updateCellSupply` moves `t = min(elapsed/(0.3*supply+1), chunk supply, 2 - supply)`
from the chunk to the agent and charges the passive loss: the agent's supply
becomes `supply + t - 0.2*elapsed`, the chunk's supply becomes `chunk supply - t`,
a negative new supply is added to the health and left in place, a non-negative
one leaves the health unchanged, and no other field of the agent changes. -/
theorem updateCellSupply_exchange (S : WorldSettings) (owner : Chunk → Int) (elapsed : ℚ)
    (cell : Cell) (chunks : List Chunk) (hgrid : GridShape S chunks)
    (hp : inGrid S (worldToChunkPos S cell.position))
    (hown : owner (getChunk S chunks (worldToChunkPos S cell.position)) = (cell.teamId : Int)) :
    (updateCellSupplyCell S owner elapsed cell chunks).1.supply =
        cell.supply
          + exchangeSpec elapsed cell.supply
              (getChunk S chunks (worldToChunkPos S cell.position)).supply
          - 2 / 10 * elapsed ∧
      (getChunk S (updateCellSupplyCell S owner elapsed cell chunks).2
          (worldToChunkPos S cell.position)).supply =
        (getChunk S chunks (worldToChunkPos S cell.position)).supply
          - exchangeSpec elapsed cell.supply
              (getChunk S chunks (worldToChunkPos S cell.position)).supply ∧
      ((updateCellSupplyCell S owner elapsed cell chunks).1.supply < 0 →
        (updateCellSupplyCell S owner elapsed cell chunks).1.health =
          cell.health + (updateCellSupplyCell S owner elapsed cell chunks).1.supply) ∧
      (0 ≤ (updateCellSupplyCell S owner elapsed cell chunks).1.supply →
        (updateCellSupplyCell S owner elapsed cell chunks).1.health = cell.health) ∧
      (updateCellSupplyCell S owner elapsed cell chunks).1 =
        { cell with
          supply := (updateCellSupplyCell S owner elapsed cell chunks).1.supply
          health := (updateCellSupplyCell S owner elapsed cell chunks).1.health } := by
  unfold updateCellSupplyCell
  rw [if_neg (not_not.2 hown)]
  simp only [supplyExchange_eq_spec]
  refine ⟨by ring, ?_, ?_, ?_, trivial⟩
  · rw [getChunk_modifyChunk_self S chunks hgrid _ hp]
  · intro h
    rw [if_pos (by linarith)]
  · intro h
    rw [if_neg (by linarith)]

theorem updateCellSupply_exchange_witness :
    GridShape exchangeExampleSettings (exchangeExampleChunks 3) ∧
      inGrid exchangeExampleSettings
        (worldToChunkPos exchangeExampleSettings exchangeExampleCell.position) ∧
      getCurrentOwner (getChunk exchangeExampleSettings (exchangeExampleChunks 3)
          (worldToChunkPos exchangeExampleSettings exchangeExampleCell.position)) =
        (exchangeExampleCell.teamId : Int) ∧
      (updateCellSupplyCell exchangeExampleSettings getCurrentOwner (1 / 2) exchangeExampleCell
          (exchangeExampleChunks 3)).1.supply =
        exchangeExampleCell.supply
          + exchangeSpec (1 / 2) exchangeExampleCell.supply
              (getChunk exchangeExampleSettings (exchangeExampleChunks 3)
                (worldToChunkPos exchangeExampleSettings exchangeExampleCell.position)).supply
          - 2 / 10 * (1 / 2) :=
  ⟨by unfold GridShape; decide!, by decide!, by decide!,
    (updateCellSupply_exchange exchangeExampleSettings getCurrentOwner (1 / 2)
      exchangeExampleCell (exchangeExampleChunks 3) (by unfold GridShape; decide!) (by decide!)
      (by decide!)).1⟩

theorem deleteCell_cells_sublist (S : WorldSettings) (w : World) (it : Nat) :
    (deleteCell S w it).cells.Sublist w.cells := by
  unfold deleteCell
  cases w.cells[it]? with
  | none => exact List.Sublist.refl _
  | some elem => exact List.eraseIdx_sublist _ _

theorem eraseFromBucket_supply (S : WorldSettings) (chunks : List Chunk) (p : Vec2i)
    (team id : Nat) (k : Nat) :
    ((eraseFromBucket S chunks p team id).getD k default).supply =
      (chunks.getD k default).supply := by
  unfold eraseFromBucket
  rw [modifyChunk_getD]
  split_ifs <;> rfl

theorem deleteCell_supplyAtIndex (S : WorldSettings) (w : World) (it : Nat) (k : Nat) :
    supplyAtIndex (deleteCell S w it) k = supplyAtIndex w k := by
  unfold deleteCell supplyAtIndex
  cases w.cells[it]? with
  | none => rfl
  | some elem => exact eraseFromBucket_supply S w.chunks _ _ _ k

theorem deleteDeadCellsFrom_cells_sublist (S : WorldSettings) (fuel : Nat) :
    ∀ (it : Nat) (w : World), (deleteDeadCellsFrom S fuel it w).cells.Sublist w.cells := by
  induction fuel with
  | zero => intro it w; exact List.Sublist.refl _
  | succ fuel ih =>
    intro it w
    unfold deleteDeadCellsFrom
    cases w.cells[it]? with
    | none => exact List.Sublist.refl _
    | some c =>
      simp only
      split_ifs
      · exact (ih it _).trans (deleteCell_cells_sublist S w it)
      · exact ih (it + 1) w

theorem deleteDeadCellsFrom_supplyAtIndex (S : WorldSettings) (fuel : Nat) :
    ∀ (it : Nat) (w : World) (k : Nat),
      supplyAtIndex (deleteDeadCellsFrom S fuel it w) k = supplyAtIndex w k := by
  induction fuel with
  | zero => intro it w k; rfl
  | succ fuel ih =>
    intro it w k
    unfold deleteDeadCellsFrom
    cases w.cells[it]? with
    | none => rfl
    | some c =>
      simp only
      split_ifs
      · rw [ih it _ k, deleteCell_supplyAtIndex]
      · exact ih (it + 1) w k

/-- The purge keeps registry entries in their order and drops some. -/
theorem deleteDeadCells_cells_sublist (S : WorldSettings) (w : World) :
    (deleteDeadCells S w).cells.Sublist w.cells :=
  deleteDeadCellsFrom_cells_sublist S _ 0 w

/-- The purge does not touch the supply of any chunk. -/
theorem deleteDeadCells_supplyAtIndex (S : WorldSettings) (w : World) (k : Nat) :
    supplyAtIndex (deleteDeadCells S w) k = supplyAtIndex w k :=
  deleteDeadCellsFrom_supplyAtIndex S _ 0 w k

/-- The exchanged amount never exceeds the agent's headroom, so the agent's
supply after the body of `updateCellSupply` is at most `2`. -/
theorem updateCellSupplyCell_supply_le (S : WorldSettings) (owner : Chunk → Int) (delta : ℚ)
    (hdelta : 0 ≤ delta) (cell : Cell) (chunks : List Chunk) (hcell : cell.supply ≤ 2) :
    (updateCellSupplyCell S owner delta cell chunks).1.supply ≤ 2 := by
  unfold updateCellSupplyCell
  by_cases h : owner (getChunk S chunks (worldToChunkPos S cell.position)) ≠ (cell.teamId : Int)
  · rw [if_pos h]; exact hcell
  · rw [if_neg h]
    dsimp only
    have ht : supplyExchange delta cell.supply
        (getChunk S chunks (worldToChunkPos S cell.position)).supply ≤ 2 - cell.supply :=
      min_le_right _ _
    linarith

theorem updateCellSupplyLoop_supply_le (S : WorldSettings) (owner : Chunk → Int) (delta : ℚ)
    (hdelta : 0 ≤ delta) :
    ∀ (cells : List Cell) (chunks : List Chunk), (∀ a ∈ cells, a.supply ≤ 2) →
      ∀ a ∈ (updateCellSupplyLoop S owner delta cells chunks).1, a.supply ≤ 2 := by
  intro cells
  induction cells with
  | nil => intro chunks _ a ha; simp [updateCellSupplyLoop] at ha
  | cons c rest ih =>
    intro chunks h a ha
    unfold updateCellSupplyLoop at ha
    rcases List.mem_cons.1 ha with rfl | ha
    · exact updateCellSupplyCell_supply_le S owner delta hdelta c chunks
        (h c (List.mem_cons_self _ _))
    · exact ih _ (fun b hb => h b (List.mem_cons_of_mem _ hb)) a ha

/-- C10: after `updateCellSupply` no agent's supply exceeds `2`, for every
`elapsed ≥ 0` and every state in which each agent's supply is at most `2`. -/
theorem updateCellSupply_supply_le_two (S : WorldSettings) (owner : Chunk → Int) (elapsed : ℚ)
    (w : World) (helapsed : 0 ≤ elapsed) (hcells : ∀ a ∈ w.cells, a.supply ≤ 2) :
    ∀ a ∈ (updateCellSupply S owner elapsed w).cells, a.supply ≤ 2 := by
  intro a ha
  have hsub := (deleteDeadCells_cells_sublist S
    { w with
      cells := (updateCellSupplyLoop S owner elapsed w.cells w.chunks).1
      chunks := (updateCellSupplyLoop S owner elapsed w.cells w.chunks).2 }).subset ha
  exact updateCellSupplyLoop_supply_le S owner elapsed helapsed w.cells w.chunks hcells a hsub

theorem updateCellSupply_supply_le_two_witness :
    (0 : ℚ) ≤ 1 / 2 ∧ (∀ a ∈ (exchangeExampleWorld 3).cells, a.supply ≤ 2) ∧
      ∀ a ∈ (updateCellSupply exchangeExampleSettings getCurrentOwner (1 / 2)
          (exchangeExampleWorld 3)).cells, a.supply ≤ 2 :=
  ⟨by norm_num, by decide!,
    updateCellSupply_supply_le_two exchangeExampleSettings getCurrentOwner (1 / 2)
      (exchangeExampleWorld 3) (by norm_num) (by decide!)⟩

/-- With a non-negative chunk supply, an agent supply in `(-10/3, 2]` and
`delta ≥ 0`, the exchanged amount is non-negative. -/
theorem supplyExchange_nonneg (delta s c : ℚ) (hdelta : 0 ≤ delta) (hs : -10 / 3 < s)
    (hs2 : s ≤ 2) (hc : 0 ≤ c) : 0 ≤ supplyExchange delta s c := by
  unfold supplyExchange
  have hden : 0 < 3 / 10 * s + 1 := by linarith
  have h1 : 0 ≤ delta * (1 / (3 / 10 * s + 1)) :=
    mul_nonneg hdelta (div_nonneg zero_le_one hden.le)
  exact le_min (le_min h1 hc) (by linarith)

theorem supplyExchange_le_chunk (delta s c : ℚ) : supplyExchange delta s c ≤ c :=
  le_trans (min_le_left _ _) (min_le_right _ _)

theorem getChunk_supply_nonneg (S : WorldSettings) (chunks : List Chunk)
    (h : ∀ k, 0 ≤ (chunks.getD k default).supply) (p : Vec2i) :
    0 ≤ (getChunk S chunks p).supply := by
  unfold getChunk getChunk?
  split_ifs with h0
  · have := h (chunkIndex S p).toNat
    rwa [List.getD_eq_getElem?_getD] at this
  · exact le_refl _

/-- One agent's exchange leaves every chunk supply non-negative and does not
raise any of them. -/
theorem updateCellSupplyCell_chunks (S : WorldSettings) (owner : Chunk → Int) (delta : ℚ)
    (hdelta : 0 ≤ delta) (cell : Cell) (chunks : List Chunk)
    (hcell : -10 / 3 < cell.supply ∧ cell.supply ≤ 2)
    (hchunks : ∀ k, 0 ≤ (chunks.getD k default).supply) (k : Nat) :
    0 ≤ ((updateCellSupplyCell S owner delta cell chunks).2.getD k default).supply ∧
      ((updateCellSupplyCell S owner delta cell chunks).2.getD k default).supply ≤
        (chunks.getD k default).supply := by
  unfold updateCellSupplyCell
  by_cases h : owner (getChunk S chunks (worldToChunkPos S cell.position)) ≠ (cell.teamId : Int)
  · rw [if_pos h]; exact ⟨hchunks k, le_refl _⟩
  · rw [if_neg h]
    dsimp only
    rw [modifyChunk_getD]
    have hnn := supplyExchange_nonneg delta cell.supply
      (getChunk S chunks (worldToChunkPos S cell.position)).supply hdelta hcell.1 hcell.2
      (getChunk_supply_nonneg S chunks hchunks _)
    have hle := supplyExchange_le_chunk delta cell.supply
      (getChunk S chunks (worldToChunkPos S cell.position)).supply
    by_cases hk : 0 ≤ chunkIndex S (worldToChunkPos S cell.position) ∧
        k = (chunkIndex S (worldToChunkPos S cell.position)).toNat ∧ k < chunks.length
    · rw [if_pos hk]
      dsimp only
      have hget : (getChunk S chunks (worldToChunkPos S cell.position)).supply =
          (chunks.getD k default).supply := by
        rw [getChunk_eq_getD S chunks _ hk.1, ← hk.2.1]
      rw [hget] at hnn hle ⊢
      constructor <;> linarith
    · rw [if_neg hk]; exact ⟨hchunks k, le_refl _⟩

theorem updateCellSupplyLoop_chunks (S : WorldSettings) (owner : Chunk → Int) (delta : ℚ)
    (hdelta : 0 ≤ delta) :
    ∀ (cells : List Cell) (chunks : List Chunk),
      (∀ a ∈ cells, -10 / 3 < a.supply ∧ a.supply ≤ 2) →
      (∀ k, 0 ≤ (chunks.getD k default).supply) →
      ∀ k, ((updateCellSupplyLoop S owner delta cells chunks).2.getD k default).supply ≤
        (chunks.getD k default).supply := by
  intro cells
  induction cells with
  | nil => intro chunks _ _ k; exact le_refl _
  | cons c rest ih =>
    intro chunks hcells hchunks k
    unfold updateCellSupplyLoop
    dsimp only
    have hstep := updateCellSupplyCell_chunks S owner delta hdelta c chunks
      (hcells c (List.mem_cons_self _ _)) hchunks
    exact le_trans
      (ih _ (fun a ha => hcells a (List.mem_cons_of_mem _ ha)) (fun j => (hstep j).1) k)
      (hstep k).2

/-- C9, as stated, fails: in `exchangeExampleWorld (-1)` the chunk, owned by the
agent's team, has supply `-1`; with `elapsed = 1/10 ≥ 0` the transfer is `-1` and
the chunk's supply after `updateCellSupply` is `0`, larger than before. -/
theorem updateCellSupply_refill_counterexample :
    (0 : ℚ) ≤ 1 / 10 ∧ supplyAtIndex (exchangeExampleWorld (-1)) 0 = -1 ∧
      supplyExchange (1 / 10) exchangeExampleCell.supply (-1) = -1 ∧
      supplyAtIndex
          (updateCellSupply exchangeExampleSettings getCurrentOwner (1 / 10)
            (exchangeExampleWorld (-1))) 0 = 0 ∧
      ¬ (supplyAtIndex
          (updateCellSupply exchangeExampleSettings getCurrentOwner (1 / 10)
            (exchangeExampleWorld (-1))) 0 ≤ supplyAtIndex (exchangeExampleWorld (-1)) 0) := by
  refine ⟨by norm_num, by decide!, by decide!, by decide!, by decide!⟩

/-- C9, amended: for every `elapsed ≥ 0` and every state in which no chunk supply
is negative and every agent's supply lies in `(-10/3, 2]`, `updateCellSupply`
never increases a chunk's supply, and the amount an agent draws from a chunk
with non-negative supply is never negative. -/
theorem updateCellSupply_never_refills (S : WorldSettings) (owner : Chunk → Int) (elapsed : ℚ)
    (w : World) (helapsed : 0 ≤ elapsed) (hchunks : ∀ c ∈ w.chunks, 0 ≤ c.supply)
    (hcells : ∀ a ∈ w.cells, -10 / 3 < a.supply ∧ a.supply ≤ 2) :
    (∀ k, supplyAtIndex (updateCellSupply S owner elapsed w) k ≤ supplyAtIndex w k) ∧
      ∀ a ∈ w.cells, ∀ c : ℚ, 0 ≤ c → 0 ≤ supplyExchange elapsed a.supply c := by
  constructor
  · intro k
    unfold updateCellSupply
    rw [deleteDeadCells_supplyAtIndex]
    have hget : ∀ j, 0 ≤ (w.chunks.getD j default).supply := by
      intro j
      rw [List.getD_eq_getElem?_getD]
      by_cases hj : j < w.chunks.length
      · rw [List.getElem?_eq_getElem hj]
        exact hchunks _ (List.getElem_mem hj)
      · rw [List.getElem?_eq_none (by omega)]
        exact le_refl _
    exact updateCellSupplyLoop_chunks S owner elapsed helapsed w.cells w.chunks hcells hget k
  · intro a ha c hc
    exact supplyExchange_nonneg elapsed a.supply c helapsed (hcells a ha).1 (hcells a ha).2 hc

theorem updateCellSupply_never_refills_witness :
    (0 : ℚ) ≤ 1 / 2 ∧ (∀ c ∈ (exchangeExampleWorld 3).chunks, 0 ≤ c.supply) ∧
      (∀ a ∈ (exchangeExampleWorld 3).cells, -10 / 3 < a.supply ∧ a.supply ≤ 2) ∧
      ∀ k, supplyAtIndex
          (updateCellSupply exchangeExampleSettings getCurrentOwner (1 / 2)
            (exchangeExampleWorld 3)) k ≤ supplyAtIndex (exchangeExampleWorld 3) k :=
  ⟨by norm_num, by decide!, by decide!,
    (updateCellSupply_never_refills exchangeExampleSettings getCurrentOwner (1 / 2)
      (exchangeExampleWorld 3) (by norm_num) (by decide!) (by decide!)).1⟩

/-! ## `deleteDeadCells`: claim C2 -/

theorem erase_eq_filter_of_count_le_one (l : List Nat) (a : Nat) (h : l.count a ≤ 1) :
    l.erase a = l.filter fun j => decide (j ≠ a) := by
  induction l with
  | nil => rfl
  | cons b l ih =>
    by_cases hb : b = a
    · subst hb
      have hc : l.count b = 0 := by
        rw [List.count_cons_self] at h; omega
      have hnot : b ∉ l := List.count_eq_zero.1 hc
      rw [List.erase_cons_head, List.filter_cons_of_neg (by simp)]
      symm
      rw [List.filter_eq_self]
      intro j hj
      simp only [ne_eq, decide_not, Bool.not_eq_eq_eq_not, Bool.not_true, decide_eq_false_iff_not]
      intro hjb
      exact hnot (hjb ▸ hj)
    · have hc : l.count a ≤ 1 := by
        rw [List.count_cons_of_ne (Ne.symm hb)] at h; exact h
      rw [List.erase_cons_tail (by simpa using hb), List.filter_cons_of_pos (by simpa using hb),
        ih hc]

theorem filter_ne_eq_self_of_count_eq_zero (l : List Nat) (a : Nat) (h : l.count a = 0) :
    (l.filter fun j => decide (j ≠ a)) = l := by
  rw [List.filter_eq_self]
  intro j hj
  have hnot : a ∉ l := List.count_eq_zero.1 h
  simp only [ne_eq, decide_not, Bool.not_eq_eq_eq_not, Bool.not_true, decide_eq_false_iff_not]
  intro hja
  exact hnot (hja ▸ hj)

theorem list_ext_getD {α : Type} (d : α) (l1 l2 : List α) (hlen : l1.length = l2.length)
    (h : ∀ k, k < l1.length → l1.getD k d = l2.getD k d) : l1 = l2 := by
  apply List.ext_getElem hlen
  intro k h1 h2
  have := h k h1
  rwa [List.getD_eq_getElem _ _ h1, List.getD_eq_getElem _ _ h2] at this

theorem purgeIds_length (ids : List Nat) (chunks : List Chunk) :
    (purgeIds ids chunks).length = chunks.length := by
  unfold purgeIds; exact List.length_map _ _

theorem purgeIds_getD (ids : List Nat) (chunks : List Chunk) (k : Nat) :
    (purgeIds ids chunks).getD k default =
      { chunks.getD k default with
        cells := (chunks.getD k default).cells.map fun b =>
          b.filter fun i => decide (i ∉ ids) } := by
  unfold purgeIds
  simp only [List.getD_eq_getElem?_getD, List.getElem?_map]
  cases chunks[k]? with
  | none => rfl
  | some ch => rfl

/-- Erasing the single reference to an agent from its bucket removes every
reference to it from every bucket. -/
theorem eraseFromBucket_eq_purgeIds (S : WorldSettings) (chunks : List Chunk) (c : Cell)
    (h : HomeCount S chunks c) :
    eraseFromBucket S chunks (worldToChunkPos S c.position) c.teamId c.id =
      purgeIds [c.id] chunks := by
  have hfilter : ∀ b : List Nat,
      (b.filter fun i => decide (i ∉ [c.id])) = b.filter fun j => decide (j ≠ c.id) := by
    intro b
    apply List.filter_congr
    intro x _
    simp
  apply list_ext_getD default
  · unfold eraseFromBucket
    rw [modifyChunk_length, purgeIds_length]
  · intro k hk
    have hk' : k < chunks.length := by
      unfold eraseFromBucket at hk
      rwa [modifyChunk_length] at hk
    unfold eraseFromBucket
    rw [modifyChunk_getD, purgeIds_getD]
    have hcount : ∀ t, t < (chunks.getD k default).cells.length →
        ((chunks.getD k default).cells[t]?.getD []).count c.id =
          if (k : Int) = homeIndex S c ∧ k < chunks.length ∧ t = c.teamId then 1 else 0 := by
      intro t ht
      have := h k t
      unfold bucketAt at this
      rwa [List.getD_eq_getElem?_getD] at this
    by_cases hhome : 0 ≤ chunkIndex S (worldToChunkPos S c.position) ∧
        k = (chunkIndex S (worldToChunkPos S c.position)).toNat ∧ k < chunks.length
    · rw [if_pos hhome]
      congr 1
      apply List.ext_getElem?
      intro t
      rw [List.getElem?_modify, List.getElem?_map]
      by_cases ht : t < (chunks.getD k default).cells.length
      · have hc := hcount t ht
        rw [List.getElem?_eq_getElem ht] at hc ⊢
        simp only [Option.getD_some] at hc
        simp only [Option.map_eq_map, Option.map_some', Option.some.injEq]
        rw [hfilter]
        by_cases hteam : c.teamId = t
        · rw [if_pos hteam]
          exact erase_eq_filter_of_count_le_one _ _ (by rw [hc]; split_ifs <;> omega)
        · rw [if_neg hteam]
          symm
          apply filter_ne_eq_self_of_count_eq_zero
          rw [hc, if_neg]
          rintro ⟨_, _, h3⟩
          exact hteam h3.symm
      · rw [List.getElem?_eq_none (by omega)]
        rfl
    · rw [if_neg hhome]
      have hcells : ((chunks.getD k default).cells.map fun b =>
          b.filter fun i => decide (i ∉ [c.id])) = (chunks.getD k default).cells := by
        apply List.ext_getElem?
        intro t
        rw [List.getElem?_map]
        by_cases ht : t < (chunks.getD k default).cells.length
        · have hc := hcount t ht
          rw [List.getElem?_eq_getElem ht] at hc ⊢
          simp only [Option.getD_some] at hc
          simp only [Option.map_some', Option.some.injEq]
          rw [hfilter]
          apply filter_ne_eq_self_of_count_eq_zero
          rw [hc, if_neg]
          rintro ⟨h1, h2, _⟩
          apply hhome
          unfold homeIndex at h1
          refine ⟨by omega, by omega, h2⟩
        · rw [List.getElem?_eq_none (by omega)]
          rfl
      rw [hcells]

theorem purgeIds_nil (chunks : List Chunk) : purgeIds [] chunks = chunks := by
  unfold purgeIds
  conv_rhs => rw [← List.map_id chunks]
  apply List.map_congr_left
  intro ch _
  have : (ch.cells.map fun b => b.filter fun i => decide (i ∉ ([] : List Nat))) = ch.cells := by
    conv_rhs => rw [← List.map_id ch.cells]
    apply List.map_congr_left
    intro b _
    simp
  rw [this]
  rfl

theorem purgeIds_cons (i : Nat) (ids : List Nat) (chunks : List Chunk) :
    purgeIds ids (purgeIds [i] chunks) = purgeIds (i :: ids) chunks := by
  unfold purgeIds
  rw [List.map_map]
  apply List.map_congr_left
  intro ch _
  simp only [Function.comp, List.map_map, List.filter_filter]
  congr 1
  apply List.map_congr_left
  intro b _
  simp only [Function.comp, List.filter_filter]
  apply List.filter_congr
  intro x _
  by_cases h1 : x = i <;> by_cases h2 : x ∈ ids <;> simp [h1, h2]

theorem bucketAt_purgeIds (ids : List Nat) (chunks : List Chunk) (k t : Nat) :
    bucketAt (purgeIds ids chunks) k t =
      (bucketAt chunks k t).filter fun i => decide (i ∉ ids) := by
  unfold bucketAt
  rw [purgeIds_getD]
  simp only [List.getD_eq_getElem?_getD, List.getElem?_map]
  cases (chunks[k]?.getD default).cells[t]? with
  | none => rfl
  | some b => rfl

theorem HomeCount_purgeIds (S : WorldSettings) (chunks : List Chunk) (d : Cell)
    (ids : List Nat) (h : HomeCount S chunks d) (hd : d.id ∉ ids) :
    HomeCount S (purgeIds ids chunks) d := by
  intro k t
  rw [bucketAt_purgeIds, purgeIds_length, List.count_filter (by simpa using hd)]
  exact h k t

theorem deleteCell_append (S : WorldSettings) (pre : List Cell) (c : Cell) (rest : List Cell)
    (chunks : List Chunk) (time : ℚ) :
    deleteCell S ⟨pre ++ c :: rest, chunks, time⟩ pre.length =
      ⟨pre ++ rest,
        eraseFromBucket S chunks (worldToChunkPos S c.position) c.teamId c.id, time⟩ := by
  unfold deleteCell
  simp only [List.getElem?_append_right (le_refl _), Nat.sub_self, List.getElem?_cons_zero]
  congr 1
  rw [List.eraseIdx_append_of_length_le (le_refl _), Nat.sub_self]
  rfl

/-- The loop of `deleteDeadCells` from an iterator that has `pre` behind it and
`rest` ahead: the agents of `rest` with `health ≤ 0` leave the registry and all
references to them leave the buckets. -/
theorem deleteDeadCellsFrom_spec (S : WorldSettings) :
    ∀ (rest : List Cell) (fuel : Nat) (pre : List Cell) (chunks : List Chunk) (time : ℚ),
      rest.length ≤ fuel → (rest.map Cell.id).Nodup → (∀ c ∈ rest, HomeCount S chunks c) →
      deleteDeadCellsFrom S fuel pre.length ⟨pre ++ rest, chunks, time⟩ =
        ⟨pre ++ rest.filter (fun c => decide (0 < c.health)),
          purgeIds ((rest.filter fun c => decide (c.health ≤ 0)).map Cell.id) chunks, time⟩ := by
  intro rest
  induction rest with
  | nil =>
    intro fuel pre chunks time _ _ _
    simp only [List.filter_nil, List.map_nil, purgeIds_nil, List.append_nil]
    cases fuel with
    | zero => rfl
    | succ fuel =>
      unfold deleteDeadCellsFrom
      simp
  | cons c rest ih =>
    intro fuel pre chunks time hfuel hnd hhome
    cases fuel with
    | zero => simp at hfuel
    | succ fuel =>
      have hfuel' : rest.length ≤ fuel := by simpa using hfuel
      rw [List.map_cons, List.nodup_cons] at hnd
      unfold deleteDeadCellsFrom
      simp only [List.getElem?_append_right (le_refl _), Nat.sub_self, List.getElem?_cons_zero]
      by_cases hdead : c.health ≤ 0
      · rw [if_pos hdead, deleteCell_append,
          eraseFromBucket_eq_purgeIds S chunks c (hhome c (List.mem_cons_self _ _))]
        have hrest : ∀ d ∈ rest, HomeCount S (purgeIds [c.id] chunks) d := by
          intro d hd
          apply HomeCount_purgeIds S chunks d [c.id] (hhome d (List.mem_cons_of_mem _ hd))
          intro hmem
          rw [List.mem_singleton] at hmem
          exact hnd.1 (hmem ▸ List.mem_map_of_mem _ hd)
        rw [ih fuel pre _ time hfuel' hnd.2 hrest, purgeIds_cons,
          List.filter_cons_of_neg (by simpa using hdead),
          List.filter_cons_of_pos (by simpa using hdead), List.map_cons]
      · rw [if_neg hdead]
        have happ : pre ++ c :: rest = (pre ++ [c]) ++ rest := by simp
        have hlen : pre.length + 1 = (pre ++ [c]).length := by simp
        rw [happ, hlen, ih fuel (pre ++ [c]) chunks time hfuel' hnd.2
            (fun d hd => hhome d (List.mem_cons_of_mem _ hd)),
          List.filter_cons_of_pos (by simpa using hdead),
          List.filter_cons_of_neg (by simpa using hdead)]
        simp

theorem bucketAt_of_length_le (chunks : List Chunk) (k t : Nat) (hk : chunks.length ≤ k) :
    bucketAt chunks k t = [] := by
  unfold bucketAt
  rw [List.getD_eq_default _ _ hk]
  rfl

theorem bucketAt_of_teams_le (S : WorldSettings) (w : World) (hshape : WorldShape S w)
    (k t : Nat) (hk : k < w.chunks.length) (ht : S.numTeams ≤ t) :
    bucketAt w.chunks k t = [] := by
  unfold bucketAt
  have hmem : w.chunks.getD k default ∈ w.chunks := by
    rw [List.getD_eq_getElem _ _ hk]; exact List.getElem_mem hk
  rw [List.getD_eq_default _ _ (by rw [hshape.2.2.2.2 _ hmem]; exact ht)]

/-- In a consistent world the bucket counts of every agent hold over all indices. -/
theorem Consistent.homeCount {S : WorldSettings} {w : World} (h : Consistent S w) (c : Cell)
    (hc : c ∈ w.cells) : HomeCount S w.chunks c := by
  obtain ⟨h0, hlt, hteam, hcount⟩ := (h.2.2.1 c hc).2
  intro k t
  by_cases hk : k < w.chunks.length
  · by_cases ht : t < S.numTeams
    · rw [hcount k hk t ht]
      have hiff : (k = (homeIndex S c).toNat ∧ t = c.teamId) ↔
          ((k : Int) = homeIndex S c ∧ k < w.chunks.length ∧ t = c.teamId) := by
        constructor
        · rintro ⟨h1, h2⟩; exact ⟨by omega, hk, h2⟩
        · rintro ⟨h1, _, h2⟩; exact ⟨by omega, h2⟩
      simp only [hiff]
    · rw [bucketAt_of_teams_le S w h.1 k t hk (by omega), List.count_nil, if_neg]
      rintro ⟨_, _, h3⟩
      omega
  · rw [bucketAt_of_length_le _ k t (by omega), List.count_nil, if_neg]
    rintro ⟨_, h2, _⟩
    exact hk h2

/-- In a consistent world every bucket entry, at any index, is an agent of the
registry. -/
theorem Consistent.registered {S : WorldSettings} {w : World} (h : Consistent S w) (k t i : Nat)
    (hi : i ∈ bucketAt w.chunks k t) : ∃ c ∈ w.cells, c.id = i := by
  by_cases hk : k < w.chunks.length
  · by_cases ht : t < S.numTeams
    · exact h.2.2.2 k hk t ht i hi
    · rw [bucketAt_of_teams_le S w h.1 k t hk (by omega)] at hi
      simp at hi
  · rw [bucketAt_of_length_le _ k t (by omega)] at hi
    simp at hi

theorem deleteDeadCells_eq (S : WorldSettings) (w : World) (h : Consistent S w) :
    deleteDeadCells S w =
      ⟨w.cells.filter (fun c => decide (0 < c.health)), purgeIds (deadIds w) w.chunks,
        w.worldTime⟩ := by
  have := deleteDeadCellsFrom_spec S w.cells w.cells.length [] w.chunks w.worldTime (le_refl _)
    h.2.1 (fun c hc => h.homeCount c hc)
  simpa [deleteDeadCells, deadIds] using this

/-- C2: in a consistent world, after `deleteDeadCells` the registry holds exactly
the agents that had `health > 0`, in their original order; the chunks are the old
ones with every reference to a removed agent dropped from the buckets and nothing
else changed; no agent with `health ≤ 0` remains in the registry, and every
remaining bucket entry is a surviving agent. -/
theorem deleteDeadCells_spec (S : WorldSettings) (w : World) (h : Consistent S w) :
    (deleteDeadCells S w).cells = w.cells.filter (fun c => decide (0 < c.health)) ∧
      (deleteDeadCells S w).chunks = purgeIds (deadIds w) w.chunks ∧
      (∀ k t, bucketAt (deleteDeadCells S w).chunks k t =
        (bucketAt w.chunks k t).filter fun i => decide (i ∉ deadIds w)) ∧
      (∀ c ∈ (deleteDeadCells S w).cells, 0 < c.health) ∧
      ∀ k t, ∀ i ∈ bucketAt (deleteDeadCells S w).chunks k t,
        ∃ c ∈ (deleteDeadCells S w).cells, c.id = i ∧ 0 < c.health := by
  rw [deleteDeadCells_eq S w h]
  refine ⟨rfl, rfl, fun k t => bucketAt_purgeIds _ _ k t, ?_, ?_⟩
  · intro c hc
    simpa using (List.mem_filter.1 hc).2
  · intro k t i hi
    dsimp only at hi ⊢
    rw [bucketAt_purgeIds, List.mem_filter] at hi
    obtain ⟨c, hc, rfl⟩ := h.registered k t i hi.1
    have halive : 0 < c.health := by
      by_contra hdead
      have : c.id ∈ deadIds w :=
        List.mem_map_of_mem _ (List.mem_filter.2 ⟨hc, by simpa using hdead⟩)
      simpa [this] using hi.2
    exact ⟨c, List.mem_filter.2 ⟨hc, by simpa using halive⟩, rfl, halive⟩

theorem deleteDeadCells_spec_witness :
    Consistent purgeExampleSettings purgeExampleWorld ∧
      (deleteDeadCells purgeExampleSettings purgeExampleWorld).cells =
        purgeExampleWorld.cells.filter (fun c => decide (0 < c.health)) :=
  ⟨by decide!,
    (deleteDeadCells_spec purgeExampleSettings purgeExampleWorld
      (by decide!)).1⟩

/-! ## Registry/bucket consistency through the passes -/

theorem truncToInt_of_nonneg (q : ℚ) (h : 0 ≤ q) : truncToInt q = ⌊q⌋ := by
  unfold truncToInt; rw [if_pos h]

/-- A position inside the world bounds lies in a chunk of the grid. -/
theorem inGrid_worldToChunkPos (S : WorldSettings) (w : World) (hshape : WorldShape S w)
    (p : Vec2f) (hp : inBounds S p) : inGrid S (worldToChunkPos S p) := by
  obtain ⟨hppc, hx, hy, _, _⟩ := hshape
  obtain ⟨⟨hx0, hx1⟩, hy0, hy1⟩ := hp
  have hqx : 0 ≤ p.x / S.pixelsPerChunk := div_nonneg hx0 hppc.le
  have hqy : 0 ≤ p.y / S.pixelsPerChunk := div_nonneg hy0 hppc.le
  unfold inGrid worldToChunkPos
  simp only
  rw [truncToInt_of_nonneg _ hqx, truncToInt_of_nonneg _ hqy, hx, hy]
  refine ⟨⟨Int.floor_nonneg.2 hqx, ?_⟩, Int.floor_nonneg.2 hqy, ?_⟩
  · rw [Int.floor_lt]
    exact lt_of_lt_of_le (div_lt_div_of_pos_right hx1 hppc) (Int.le_ceil _)
  · rw [Int.floor_lt]
    exact lt_of_lt_of_le (div_lt_div_of_pos_right hy1 hppc) (Int.le_ceil _)

/-- The linear index of a grid position is an index of the chunk vector. -/
theorem chunkIndex_in_range (S : WorldSettings) (w : World) (hshape : WorldShape S w)
    (p : Vec2i) (hp : inGrid S p) :
    0 ≤ chunkIndex S p ∧ (chunkIndex S p).toNat < w.chunks.length := by
  have := chunkIndex_of_mem S p ((inGrid_iff_mem S p).1 hp)
  exact ⟨this.1, by rw [hshape.2.2.2.1]; exact this.2⟩

theorem chunkIndex_toNat_inj (S : WorldSettings) (p q : Vec2i) (hp : inGrid S p)
    (hq : inGrid S q) (h : (chunkIndex S p).toNat = (chunkIndex S q).toNat) : p = q := by
  have hp' := (inGrid_iff_mem S p).1 hp
  have hq' := (inGrid_iff_mem S q).1 hq
  apply chunkIndex_inj S p q hp' hq'
  have := (chunkIndex_of_mem S p hp').1
  have := (chunkIndex_of_mem S q hq').1
  omega

theorem modify_getD {α : Type} (f : α → α) (n : Nat) (l : List α) (m : Nat) (d : α) :
    (l.modify f n).getD m d = if n = m ∧ m < l.length then f (l.getD m d) else l.getD m d := by
  simp only [List.getD_eq_getElem?_getD, List.getElem?_modify]
  by_cases hm : m < l.length
  · rw [List.getElem?_eq_getElem hm]
    by_cases hn : n = m
    · simp [hn, hm]
    · simp [hn]
  · rw [List.getElem?_eq_none (by omega)]
    simp [hm]

/-- The buckets after `push_back` on the bucket of team `team` in the chunk at `p`. -/
theorem bucketAt_pushToBucket (S : WorldSettings) (chunks : List Chunk) (p : Vec2i)
    (team id k t : Nat) (h0 : 0 ≤ chunkIndex S p) (hlt : (chunkIndex S p).toNat < chunks.length)
    (hteam : team < (chunks.getD (chunkIndex S p).toNat default).cells.length) :
    bucketAt (pushToBucket S chunks p team id) k t =
      if k = (chunkIndex S p).toNat ∧ t = team then bucketAt chunks k t ++ [id]
      else bucketAt chunks k t := by
  unfold bucketAt pushToBucket
  rw [modifyChunk_getD]
  by_cases hk : k = (chunkIndex S p).toNat
  · subst hk
    rw [if_pos ⟨h0, rfl, hlt⟩]
    dsimp only
    rw [modify_getD]
    by_cases ht : t = team
    · subst ht
      rw [if_pos ⟨rfl, hteam⟩, if_pos ⟨rfl, rfl⟩]
    · rw [if_neg (fun h => ht h.1.symm), if_neg (fun h => ht h.2)]
  · rw [if_neg (fun h => hk h.2.1), if_neg (fun h => hk h.1)]

/-- The buckets after erasing the first reference to `id` from the bucket of team
`team` in the chunk at `p`. -/
theorem bucketAt_eraseFromBucket (S : WorldSettings) (chunks : List Chunk) (p : Vec2i)
    (team id k t : Nat) (h0 : 0 ≤ chunkIndex S p) :
    bucketAt (eraseFromBucket S chunks p team id) k t =
      if k = (chunkIndex S p).toNat ∧ t = team then (bucketAt chunks k t).erase id
      else bucketAt chunks k t := by
  unfold bucketAt eraseFromBucket
  rw [modifyChunk_getD]
  by_cases hk : k = (chunkIndex S p).toNat ∧ k < chunks.length
  · rw [if_pos ⟨h0, hk.1, hk.2⟩]
    dsimp only
    rw [modify_getD]
    by_cases ht : t = team
    · subst ht
      have hrhs : (k = (chunkIndex S p).toNat ∧ t = t) := ⟨hk.1, rfl⟩
      by_cases htl : t < (chunks.getD k default).cells.length
      · rw [if_pos ⟨rfl, htl⟩, if_pos hrhs]
      · rw [if_neg (fun h => htl h.2), if_pos hrhs, List.getD_eq_default _ _ (by omega)]
        rfl
    · rw [if_neg (fun h => ht h.1.symm), if_neg (fun h => ht h.2)]
  · rw [if_neg (fun h => hk ⟨h.2.1, h.2.2⟩)]
    by_cases hk1 : k = (chunkIndex S p).toNat
    · have hk2 : chunks.length ≤ k := by
        by_contra hlt; exact hk ⟨hk1, by omega⟩
      rw [List.getD_eq_default _ _ hk2]
      split_ifs <;> rfl
    · rw [if_neg (fun h => hk1 h.1)]

theorem pushToBucket_length (S : WorldSettings) (chunks : List Chunk) (p : Vec2i)
    (team id : Nat) : (pushToBucket S chunks p team id).length = chunks.length :=
  modifyChunk_length S chunks p _

theorem eraseFromBucket_length (S : WorldSettings) (chunks : List Chunk) (p : Vec2i)
    (team id : Nat) : (eraseFromBucket S chunks p team id).length = chunks.length :=
  modifyChunk_length S chunks p _

/-- A write through `getChunk` that keeps the number of buckets of the chunk it
touches keeps the number of buckets of every chunk. -/
theorem modifyChunk_buckets (S : WorldSettings) (chunks : List Chunk) (p : Vec2i)
    (f : Chunk → Chunk) (n : Nat) (hf : ∀ c, (f c).cells.length = c.cells.length)
    (h : ∀ c ∈ chunks, c.cells.length = n) :
    ∀ c ∈ modifyChunk S chunks p f, c.cells.length = n := by
  intro c hc
  obtain ⟨k, hk, rfl⟩ := List.getElem_of_mem hc
  have hk' : k < chunks.length := by rwa [modifyChunk_length] at hk
  have := modifyChunk_getD S chunks p f k
  rw [List.getD_eq_getElem _ _ hk] at this
  rw [this]
  have hmem : chunks.getD k default ∈ chunks := by
    rw [List.getD_eq_getElem _ _ hk']; exact List.getElem_mem hk'
  split_ifs
  · rw [hf]; exact h _ hmem
  · exact h _ hmem

theorem pushToBucket_buckets (S : WorldSettings) (chunks : List Chunk) (p : Vec2i)
    (team id n : Nat) (h : ∀ c ∈ chunks, c.cells.length = n) :
    ∀ c ∈ pushToBucket S chunks p team id, c.cells.length = n :=
  modifyChunk_buckets S chunks p _ n (fun _ => List.length_modify _ _ _) h

theorem eraseFromBucket_buckets (S : WorldSettings) (chunks : List Chunk) (p : Vec2i)
    (team id n : Nat) (h : ∀ c ∈ chunks, c.cells.length = n) :
    ∀ c ∈ eraseFromBucket S chunks p team id, c.cells.length = n :=
  modifyChunk_buckets S chunks p _ n (fun _ => List.length_modify _ _ _) h

theorem home_in_range (S : WorldSettings) (w : World) (hshape : WorldShape S w) (c : Cell)
    (hb : inBounds S c.position) :
    0 ≤ homeIndex S c ∧ (homeIndex S c).toNat < w.chunks.length :=
  chunkIndex_in_range S w hshape _ (inGrid_worldToChunkPos S w hshape _ hb)

/-- Consistency from the bucket counts over all indices. -/
theorem Consistent.of_homeCount {S : WorldSettings} {w : World} (hshape : WorldShape S w)
    (hnd : (w.cells.map Cell.id).Nodup) (hb : ∀ c ∈ w.cells, inBounds S c.position)
    (hteam : ∀ c ∈ w.cells, c.teamId < S.numTeams)
    (hhome : ∀ c ∈ w.cells, HomeCount S w.chunks c)
    (hreg : ∀ k t, ∀ i ∈ bucketAt w.chunks k t, ∃ c ∈ w.cells, c.id = i) : Consistent S w := by
  refine ⟨hshape, hnd, fun c hc => ⟨hb c hc, ?_⟩, fun k _ t _ i hi => hreg k t i hi⟩
  obtain ⟨h0, hlt⟩ := home_in_range S w hshape c (hb c hc)
  refine ⟨h0, hlt, hteam c hc, fun k hk t _ => ?_⟩
  rw [hhome c hc k t]
  have hiff : ((k : Int) = homeIndex S c ∧ k < w.chunks.length ∧ t = c.teamId) ↔
      (k = (homeIndex S c).toNat ∧ t = c.teamId) := by
    constructor
    · rintro ⟨h1, _, h2⟩; exact ⟨by omega, h2⟩
    · rintro ⟨h1, h2⟩; exact ⟨by omega, hk, h2⟩
  simp only [hiff]

theorem Consistent.team_lt {S : WorldSettings} {w : World} (h : Consistent S w) (c : Cell)
    (hc : c ∈ w.cells) : c.teamId < S.numTeams :=
  (h.2.2.1 c hc).2.2.2.1

theorem Consistent.bounds {S : WorldSettings} {w : World} (h : Consistent S w) (c : Cell)
    (hc : c ∈ w.cells) : inBounds S c.position :=
  (h.2.2.1 c hc).1

theorem purgeIds_buckets (ids : List Nat) (chunks : List Chunk) (n : Nat)
    (h : ∀ c ∈ chunks, c.cells.length = n) : ∀ c ∈ purgeIds ids chunks, c.cells.length = n := by
  intro c hc
  unfold purgeIds at hc
  obtain ⟨ch, hch, rfl⟩ := List.mem_map.1 hc
  simp only [List.length_map]
  exact h ch hch

/-- Removing some agents from the registry, and every reference to them from the
buckets, keeps a consistent world consistent. -/
theorem Consistent.purge {S : WorldSettings} {w : World} (h : Consistent S w)
    (cells : List Cell) (ids : List Nat) (hsub : cells.Sublist w.cells)
    (hkeep : ∀ c ∈ w.cells, c ∈ cells ↔ c.id ∉ ids) :
    Consistent S ⟨cells, purgeIds ids w.chunks, w.worldTime⟩ := by
  have hshape : WorldShape S ⟨cells, purgeIds ids w.chunks, w.worldTime⟩ := by
    obtain ⟨h1, h2, h3, h4, h5⟩ := h.1
    exact ⟨h1, h2, h3, by simpa [purgeIds_length] using h4, purgeIds_buckets ids _ _ h5⟩
  apply Consistent.of_homeCount hshape
  · exact h.2.1.sublist (hsub.map _)
  · exact fun c hc => h.bounds c (hsub.subset hc)
  · exact fun c hc => h.team_lt c (hsub.subset hc)
  · intro c hc
    exact HomeCount_purgeIds S w.chunks c ids (h.homeCount c (hsub.subset hc))
      ((hkeep c (hsub.subset hc)).1 hc)
  · intro k t i hi
    dsimp only at hi ⊢
    rw [bucketAt_purgeIds, List.mem_filter] at hi
    obtain ⟨c, hc, rfl⟩ := h.registered k t i hi.1
    exact ⟨c, (hkeep c hc).2 (by simpa using hi.2), rfl⟩

theorem id_injOn {S : WorldSettings} {w : World} (h : Consistent S w) (c d : Cell)
    (hc : c ∈ w.cells) (hd : d ∈ w.cells) (hid : c.id = d.id) : c = d :=
  List.inj_on_of_nodup_map h.2.1 hc hd hid

/-- The purge keeps a consistent world consistent. -/
theorem deleteDeadCells_consistent (S : WorldSettings) (w : World) (h : Consistent S w) :
    Consistent S (deleteDeadCells S w) := by
  rw [deleteDeadCells_eq S w h]
  apply h.purge _ _ (List.filter_sublist _)
  intro c hc
  rw [List.mem_filter]
  constructor
  · rintro ⟨_, halive⟩ hdead
    obtain ⟨d, hd, hid⟩ := List.mem_map.1 hdead
    rw [List.mem_filter] at hd
    have := id_injOn h d c hd.1 hc hid
    subst this
    have h1 : d.health ≤ 0 := by simpa using hd.2
    have h2 : 0 < d.health := by simpa using halive
    linarith
  · intro hnot
    refine ⟨hc, ?_⟩
    by_contra hdead
    apply hnot
    exact List.mem_map_of_mem _ (List.mem_filter.2 ⟨hc, by simpa using hdead⟩)

theorem nodup_middle_ne (pre : List Cell) (c : Cell) (rest : List Cell)
    (hnd : ((pre ++ c :: rest).map Cell.id).Nodup) (d : Cell) (hd : d ∈ pre ∨ d ∈ rest) :
    d.id ≠ c.id := by
  rw [List.map_append, List.map_cons, List.nodup_append] at hnd
  obtain ⟨_, h2, h3⟩ := hnd
  rcases hd with hd | hd
  · intro heq
    exact h3 (List.mem_map_of_mem _ hd) (by rw [heq]; exact List.mem_cons_self _ _)
  · intro heq
    rw [List.nodup_cons] at h2
    exact h2.1 (heq ▸ List.mem_map_of_mem _ hd)

/-- The buckets after `updateCellPosition`, when the chunk changes. -/
theorem bucketAt_move (S : WorldSettings) (chunks : List Chunk) (pNew pOld : Vec2i)
    (team id k t : Nat) (hNew0 : 0 ≤ chunkIndex S pNew)
    (hNewLt : (chunkIndex S pNew).toNat < chunks.length)
    (hteam : team < (chunks.getD (chunkIndex S pNew).toNat default).cells.length)
    (hOld0 : 0 ≤ chunkIndex S pOld) :
    bucketAt (eraseFromBucket S (pushToBucket S chunks pNew team id) pOld team id) k t =
      if k = (chunkIndex S pOld).toNat ∧ t = team then
        (if k = (chunkIndex S pNew).toNat ∧ t = team then bucketAt chunks k t ++ [id]
          else bucketAt chunks k t).erase id
      else if k = (chunkIndex S pNew).toNat ∧ t = team then bucketAt chunks k t ++ [id]
      else bucketAt chunks k t := by
  rw [bucketAt_eraseFromBucket S _ pOld team id k t hOld0,
    bucketAt_pushToBucket S chunks pNew team id k t hNew0 hNewLt hteam]

theorem buckets_length_getD (S : WorldSettings) (w : World) (hshape : WorldShape S w) (k : Nat)
    (hk : k < w.chunks.length) : (w.chunks.getD k default).cells.length = S.numTeams := by
  apply hshape.2.2.2.2
  rw [List.getD_eq_getElem _ _ hk]; exact List.getElem_mem hk

/-- One call of `updateCellPosition` on the agent under the iterator, with a new
position inside the world bounds, keeps the world consistent. -/
theorem updateCellPosition_consistent (S : WorldSettings) (pre : List Cell) (c : Cell)
    (rest : List Cell) (chunks : List Chunk) (time : ℚ)
    (h : Consistent S ⟨pre ++ c :: rest, chunks, time⟩) (c1 : Cell) (hid : c1.id = c.id)
    (hteam : c1.teamId = c.teamId) (hpos : c1.position = c.position) (newPos : Vec2f)
    (hnew : inBounds S newPos) :
    Consistent S ⟨pre ++ (updateCellPosition S c1 newPos chunks).1 :: rest,
      (updateCellPosition S c1 newPos chunks).2, time⟩ := by
  have hcmem : c ∈ pre ++ c :: rest := List.mem_append_right _ (List.mem_cons_self _ _)
  have hshape := h.1
  have hOldGrid : inGrid S (worldToChunkPos S c.position) :=
    inGrid_worldToChunkPos S _ hshape _ (h.bounds c hcmem)
  have hNewGrid : inGrid S (worldToChunkPos S newPos) :=
    inGrid_worldToChunkPos S _ hshape _ hnew
  obtain ⟨hOld0, hOldLt⟩ := chunkIndex_in_range S _ hshape _ hOldGrid
  obtain ⟨hNew0, hNewLt⟩ := chunkIndex_in_range S _ hshape _ hNewGrid
  have hteamlt : c.teamId < S.numTeams := h.team_lt c hcmem
  have hbk : c.teamId < (chunks.getD (chunkIndex S (worldToChunkPos S newPos)).toNat
      default).cells.length := by
    have := buckets_length_getD S _ hshape _ hNewLt
    simp only at this
    rw [this]; exact hteamlt
  have hcount := h.homeCount c hcmem
  simp only at hcount hOldLt hNewLt
  -- the buckets after the call
  have hbucket : ∀ k t, bucketAt (updateCellPosition S c1 newPos chunks).2 k t =
      if worldToChunkPos S newPos ≠ worldToChunkPos S c.position then
        (if k = (chunkIndex S (worldToChunkPos S c.position)).toNat ∧ t = c.teamId then
          (if k = (chunkIndex S (worldToChunkPos S newPos)).toNat ∧ t = c.teamId then
            bucketAt chunks k t ++ [c.id] else bucketAt chunks k t).erase c.id
        else if k = (chunkIndex S (worldToChunkPos S newPos)).toNat ∧ t = c.teamId then
          bucketAt chunks k t ++ [c.id]
        else bucketAt chunks k t)
      else bucketAt chunks k t := by
    intro k t
    unfold updateCellPosition
    simp only [hid, hteam, hpos]
    by_cases hne : worldToChunkPos S newPos ≠ worldToChunkPos S c.position
    · rw [if_pos hne, if_pos hne, bucketAt_move S chunks _ _ _ _ k t hNew0 hNewLt hbk hOld0]
    · rw [if_neg hne, if_neg hne]
  have hlen : (updateCellPosition S c1 newPos chunks).2.length = chunks.length := by
    unfold updateCellPosition
    simp only
    split_ifs
    · rw [eraseFromBucket_length, pushToBucket_length]
    · rfl
  have hnd : ((pre ++ (updateCellPosition S c1 newPos chunks).1 :: rest).map Cell.id).Nodup := by
    have := h.2.1
    simpa [updateCellPosition, hid] using this
  have hother : ∀ d, d ∈ pre ∨ d ∈ rest → d ∈ pre ++ c :: rest := by
    intro d hd
    rcases hd with hd | hd
    · exact List.mem_append_left _ hd
    · exact List.mem_append_right _ (List.mem_cons_of_mem _ hd)
  have hmem : ∀ d, d ∈ pre ++ (updateCellPosition S c1 newPos chunks).1 :: rest →
      d = (updateCellPosition S c1 newPos chunks).1 ∨ (d ∈ pre ∨ d ∈ rest) := by
    intro d hd
    rcases List.mem_append.1 hd with hd | hd
    · exact Or.inr (Or.inl hd)
    · rcases List.mem_cons.1 hd with hd | hd
      · exact Or.inl hd
      · exact Or.inr (Or.inr hd)
  apply Consistent.of_homeCount
  · obtain ⟨h1, h2, h3, h4, h5⟩ := hshape
    refine ⟨h1, h2, h3, by simpa [hlen] using h4, ?_⟩
    unfold updateCellPosition
    simp only
    split_ifs
    · exact eraseFromBucket_buckets S _ _ _ _ _ (pushToBucket_buckets S _ _ _ _ _ h5)
    · exact h5
  · exact hnd
  · intro d hd
    rcases hmem d hd with rfl | hd
    · exact hnew
    · exact h.bounds d (hother d hd)
  · intro d hd
    rcases hmem d hd with rfl | hd
    · simpa [updateCellPosition, hteam] using hteamlt
    · exact h.team_lt d (hother d hd)
  · intro d hd
    rcases hmem d hd with rfl | hd
    · -- the moved agent
      intro k t
      have hdid : (updateCellPosition S c1 newPos chunks).1.id = c.id := by
        simp [updateCellPosition, hid]
      have hdteam : (updateCellPosition S c1 newPos chunks).1.teamId = c.teamId := by
        simp [updateCellPosition, hteam]
      have hdhome : homeIndex S (updateCellPosition S c1 newPos chunks).1 =
          chunkIndex S (worldToChunkPos S newPos) := by
        simp [updateCellPosition, homeIndex]
      simp only
      rw [hdid, hdteam, hdhome, hbucket k t, hlen]
      have hck := hcount k t
      unfold homeIndex at hck
      by_cases hne : worldToChunkPos S newPos ≠ worldToChunkPos S c.position
      · rw [if_pos hne]
        have hidx : (chunkIndex S (worldToChunkPos S newPos)).toNat ≠
            (chunkIndex S (worldToChunkPos S c.position)).toNat :=
          fun heq => hne (chunkIndex_toNat_inj S _ _ hNewGrid hOldGrid heq)
        by_cases hkOld : k = (chunkIndex S (worldToChunkPos S c.position)).toNat ∧ t = c.teamId
        · have hkNew : ¬ (k = (chunkIndex S (worldToChunkPos S newPos)).toNat ∧ t = c.teamId) :=
            fun hh => hidx (hh.1 ▸ hkOld.1)
          rw [if_pos hkOld, if_neg hkNew, List.count_erase_self, hck,
            if_pos ⟨by omega, by omega, hkOld.2⟩, if_neg]
          rintro ⟨h1, _, _⟩
          exact hkNew ⟨by omega, hkOld.2⟩
        · rw [if_neg hkOld]
          have hzero : List.count c.id (bucketAt chunks k t) = 0 := by
            rw [hck, if_neg]
            rintro ⟨h1, _, h3⟩
            exact hkOld ⟨by omega, h3⟩
          by_cases hkNew : k = (chunkIndex S (worldToChunkPos S newPos)).toNat ∧ t = c.teamId
          · rw [if_pos hkNew, List.count_append, hzero, if_pos ⟨by omega, by omega, hkNew.2⟩]
            simp
          · rw [if_neg hkNew, hzero, if_neg]
            rintro ⟨h1, _, h3⟩
            exact hkNew ⟨by omega, h3⟩
      · rw [if_neg hne, hck]
        rw [not_not] at hne
        rw [hne]
    · -- every other agent
      intro k t
      have hdc : d.id ≠ c.id := nodup_middle_ne pre c rest h.2.1 d hd
      have hdk := h.homeCount d (hother d hd) k t
      simp only at hdk ⊢
      rw [hbucket k t, hlen, ← hdk]
      have happ : ∀ b : List Nat, List.count d.id (b ++ [c.id]) = List.count d.id b := by
        intro b
        rw [List.count_append, List.count_singleton]
        simp [hdc.symm]
      have hers : ∀ b : List Nat, List.count d.id (b.erase c.id) = List.count d.id b :=
        fun b => List.count_erase_of_ne hdc b
      split_ifs <;> simp only [happ, hers]
  · intro k t i hi
    simp only at hi ⊢
    rw [hbucket k t] at hi
    have hcases : i ∈ bucketAt chunks k t ∨ i = c.id := by
      split_ifs at hi with h1 h2 h3 h4
      · rcases List.mem_append.1 (List.mem_of_mem_erase hi) with h | h
        · exact Or.inl h
        · exact Or.inr (by simpa using h)
      · exact Or.inl (List.mem_of_mem_erase hi)
      · rcases List.mem_append.1 hi with h | h
        · exact Or.inl h
        · exact Or.inr (by simpa using h)
      · exact Or.inl hi
      · exact Or.inl hi
    have hown : ∃ d ∈ pre ++ c :: rest, d.id = i := by
      rcases hcases with hb | rfl
      · exact h.registered k t i hb
      · exact ⟨c, hcmem, rfl⟩
    obtain ⟨d, hd, rfl⟩ := hown
    rcases List.mem_append.1 hd with hd | hd
    · exact ⟨d, List.mem_append_left _ hd, rfl⟩
    · rcases List.mem_cons.1 hd with rfl | hd
      · exact ⟨(updateCellPosition S c1 newPos chunks).1,
          List.mem_append_right _ (List.mem_cons_self _ _), by simp [updateCellPosition, hid]⟩
      · exact ⟨d, List.mem_append_right _ (List.mem_cons_of_mem _ hd), rfl⟩

theorem reflectX_fst (S : WorldSettings) (st : Cell × Vec2f) :
    (reflectX S st).1.id = st.1.id ∧ (reflectX S st).1.teamId = st.1.teamId ∧
      (reflectX S st).1.position = st.1.position := by
  unfold reflectX
  split_ifs <;> exact ⟨rfl, rfl, rfl⟩

theorem reflectY_fst (S : WorldSettings) (st : Cell × Vec2f) :
    (reflectY S st).1.id = st.1.id ∧ (reflectY S st).1.teamId = st.1.teamId ∧
      (reflectY S st).1.position = st.1.position := by
  unfold reflectY
  split_ifs <;> exact ⟨rfl, rfl, rfl⟩

theorem reflectX_snd (S : WorldSettings) (st : Cell × Vec2f)
    (hb : 0 ≤ upperBound S.width ∧ upperBound S.width < (S.width : ℚ)) :
    (0 ≤ (reflectX S st).2.x ∧ (reflectX S st).2.x < (S.width : ℚ)) ∧
      (reflectX S st).2.y = st.2.y := by
  by_cases h1 : st.2.x < 0
  · have h : (reflectX S st).2 = ⟨0, st.2.y⟩ := by
      unfold reflectX; rw [if_pos h1]
    rw [h]
    exact ⟨⟨le_refl _, lt_of_le_of_lt hb.1 hb.2⟩, rfl⟩
  · by_cases h2 : st.2.x ≥ upperBound S.width
    · have h : (reflectX S st).2 = ⟨upperBound S.width, st.2.y⟩ := by
        unfold reflectX; rw [if_neg h1, if_pos h2]
      rw [h]
      exact ⟨hb, rfl⟩
    · have h : (reflectX S st).2 = st.2 := by
        unfold reflectX; rw [if_neg h1, if_neg h2]
      rw [h]
      exact ⟨⟨not_lt.1 h1, lt_trans (not_le.1 h2) hb.2⟩, rfl⟩

theorem reflectY_snd (S : WorldSettings) (st : Cell × Vec2f)
    (hb : 0 ≤ upperBound S.height ∧ upperBound S.height < (S.height : ℚ)) :
    (0 ≤ (reflectY S st).2.y ∧ (reflectY S st).2.y < (S.height : ℚ)) ∧
      (reflectY S st).2.x = st.2.x := by
  by_cases h1 : st.2.y < 0
  · have h : (reflectY S st).2 = ⟨st.2.x, 0⟩ := by
      unfold reflectY; rw [if_pos h1]
    rw [h]
    exact ⟨⟨le_refl _, lt_of_le_of_lt hb.1 hb.2⟩, rfl⟩
  · by_cases h2 : st.2.y ≥ upperBound S.height
    · have h : (reflectY S st).2 = ⟨st.2.x, upperBound S.height⟩ := by
        unfold reflectY; rw [if_neg h1, if_pos h2]
      rw [h]
      exact ⟨hb, rfl⟩
    · have h : (reflectY S st).2 = st.2 := by
        unfold reflectY; rw [if_neg h1, if_neg h2]
      rw [h]
      exact ⟨⟨not_lt.1 h1, lt_trans (not_le.1 h2) hb.2⟩, rfl⟩

/-- When the upper bounds of the code lie inside the world, the integrated and
reflected position lies inside the world bounds; the reflection keeps identity,
team and stored position of the agent. -/
theorem integrateCell_spec (S : WorldSettings) (delta : ℚ) (cell : Cell) (hb : BoundInside S) :
    (integrateCell S delta cell).1.id = cell.id ∧
      (integrateCell S delta cell).1.teamId = cell.teamId ∧
      (integrateCell S delta cell).1.position = cell.position ∧
      inBounds S (integrateCell S delta cell).2 := by
  unfold integrateCell
  obtain ⟨y1, y2, y3⟩ := reflectY_fst S (reflectX S (cell,
    ⟨cell.position.x + cell.velocity.x * delta, cell.position.y + cell.velocity.y * delta⟩))
  obtain ⟨x1, x2, x3⟩ := reflectX_fst S (cell,
    ⟨cell.position.x + cell.velocity.x * delta, cell.position.y + cell.velocity.y * delta⟩)
  obtain ⟨yb, yx⟩ := reflectY_snd S (reflectX S (cell,
    ⟨cell.position.x + cell.velocity.x * delta, cell.position.y + cell.velocity.y * delta⟩)) hb.2
  obtain ⟨xb, _⟩ := reflectX_snd S (cell,
    ⟨cell.position.x + cell.velocity.x * delta, cell.position.y + cell.velocity.y * delta⟩) hb.1
  refine ⟨by rw [y1, x1], by rw [y2, x2], by rw [y3, x3], ?_, yb⟩
  rw [yx]; exact xb

/-- A world with an agent inside its bounds is at least one unit wide and high. -/
theorem one_le_of_inBounds (S : WorldSettings) (p : Vec2f) (hp : inBounds S p) :
    (1 : ℚ) ≤ (S.width : ℚ) ∧ (1 : ℚ) ≤ (S.height : ℚ) := by
  obtain ⟨⟨hx0, hx1⟩, hy0, hy1⟩ := hp
  have hw : (0 : ℚ) < (S.width : ℚ) := lt_of_le_of_lt hx0 hx1
  have hh : (0 : ℚ) < (S.height : ℚ) := lt_of_le_of_lt hy0 hy1
  have hw' : 0 < S.width := by exact_mod_cast hw
  have hh' : 0 < S.height := by exact_mod_cast hh
  constructor
  · exact_mod_cast (show 1 ≤ S.width by omega)
  · exact_mod_cast (show 1 ≤ S.height by omega)

theorem updatePositionsLoop_consistent (S : WorldSettings) (hb : BoundInside S) (delta : ℚ)
    (time : ℚ) :
    ∀ (rest pre : List Cell) (chunks : List Chunk),
      Consistent S ⟨pre ++ rest, chunks, time⟩ →
      Consistent S ⟨pre ++ (updatePositionsLoop S delta rest chunks).1,
        (updatePositionsLoop S delta rest chunks).2, time⟩ := by
  intro rest
  induction rest with
  | nil => intro pre chunks h; exact h
  | cons c rest ih =>
    intro pre chunks h
    unfold updatePositionsLoop
    dsimp only
    have hcmem : c ∈ pre ++ c :: rest := List.mem_append_right _ (List.mem_cons_self _ _)
    obtain ⟨h1, h2, h3, h4⟩ := integrateCell_spec S delta c hb
    have hstep := updateCellPosition_consistent S pre c rest chunks time h
      (integrateCell S delta c).1 h1 h2 h3 (integrateCell S delta c).2 h4
    have happ : ∀ (x : Cell) (l : List Cell), pre ++ x :: l = (pre ++ [x]) ++ l := by
      intro x l; simp
    rw [happ]
    apply ih
    rw [← happ]
    exact hstep

/-- When the upper bounds of the code lie inside the world, the pass
`updatePositions` keeps a consistent world consistent. -/
theorem updatePositions_consistent (S : WorldSettings) (hb : BoundInside S) (delta : ℚ)
    (w : World) (h : Consistent S w) : Consistent S (updatePositions S delta w) := by
  have := updatePositionsLoop_consistent S hb delta w.worldTime w.cells [] w.chunks
    (by simpa using h)
  simpa [updatePositions] using this

theorem id_lt_freshId (cells : List Cell) (c : Cell) (hc : c ∈ cells) : c.id < freshId cells := by
  unfold freshId
  induction cells with
  | nil => simp at hc
  | cons d cells ih =>
    simp only [List.map_cons, List.foldr_cons]
    rcases List.mem_cons.1 hc with rfl | hc
    · have := le_max_left c.id (List.foldr max 0 (cells.map Cell.id))
      omega
    · have := ih hc
      have := le_max_right d.id (List.foldr max 0 (cells.map Cell.id))
      omega

theorem map_id_set (cells : List Cell) (it : Nat) (parent parent' : Cell)
    (hit : cells[it]? = some parent) (hid : parent'.id = parent.id) :
    (cells.set it parent').map Cell.id = cells.map Cell.id := by
  rw [List.map_set]
  apply List.ext_getElem?
  intro j
  rw [List.getElem?_set]
  by_cases hj : it = j
  · subst hj
    rw [if_pos rfl, List.getElem?_map, hit]
    have hlt : it < cells.length := by
      by_contra hge
      rw [List.getElem?_eq_none (by omega)] at hit
      simp at hit
    simp [hlt, hid]
  · rw [if_neg hj]

theorem clamp_bounds (v hi : ℚ) (hhi : 0 ≤ hi) : 0 ≤ clamp v 0 hi ∧ clamp v 0 hi ≤ hi := by
  unfold clamp
  exact ⟨le_min (le_max_right _ _) hhi, min_le_right _ _⟩

theorem makeChild_inBounds (S : WorldSettings) (birth0 : ℚ) (id : Nat) (parent : Cell)
    (d : SpawnDraw) (hb : BoundInside S) :
    inBounds S (makeChild S birth0 id parent d).position := by
  have hx := clamp_bounds (d.cosAngle * (d.root * 3) + parent.position.x) (upperBound S.width)
    hb.1.1
  have hy := clamp_bounds (d.sinAngle * (d.root * 3) + parent.position.y) (upperBound S.height)
    hb.2.1
  have hpos : (makeChild S birth0 id parent d).position =
      ⟨clamp (d.cosAngle * (d.root * 3) + parent.position.x) 0 (upperBound S.width),
        clamp (d.sinAngle * (d.root * 3) + parent.position.y) 0 (upperBound S.height)⟩ := rfl
  rw [hpos]
  exact ⟨⟨hx.1, lt_of_le_of_lt hx.2 hb.1.2⟩, hy.1, lt_of_le_of_lt hy.2 hb.2.2⟩

/-- When the upper bounds of the code lie inside the world, the body of
`spawnChildren` for the agent under the iterator keeps the world consistent,
whatever is drawn. -/
theorem spawnChild_consistent (S : WorldSettings) (hb : BoundInside S) (birth0 : ℚ) (w : World)
    (it : Nat) (parent : Cell) (d : SpawnDraw) (h : Consistent S w)
    (hit : w.cells[it]? = some parent) :
    Consistent S (spawnChild S birth0 w it parent d) := by
  have hpmem : parent ∈ w.cells := List.getElem?_mem hit
  have hshape := h.1
  have hcb := makeChild_inBounds S birth0 (freshId w.cells) parent d hb
  have hcGrid := inGrid_worldToChunkPos S w hshape _ hcb
  obtain ⟨hc0, hcLt⟩ := chunkIndex_in_range S w hshape _ hcGrid
  have hteamlt : parent.teamId < S.numTeams := h.team_lt parent hpmem
  have hbk : parent.teamId < (w.chunks.getD (chunkIndex S (worldToChunkPos S
      (makeChild S birth0 (freshId w.cells) parent d).position)).toNat default).cells.length := by
    rw [buckets_length_getD S w hshape _ hcLt]; exact hteamlt
  have hids : ((w.cells.set it
      { parent with supply := parent.supply - 1, lastBirth := w.worldTime }).map Cell.id) =
      w.cells.map Cell.id := map_id_set w.cells it parent _ hit rfl
  -- an agent of the new registry other than the child comes from an agent of the
  -- old registry with the same identity, team and position
  have hold : ∀ c ∈ w.cells.set it
      { parent with supply := parent.supply - 1, lastBirth := w.worldTime },
      ∃ c0 ∈ w.cells, c.id = c0.id ∧ c.teamId = c0.teamId ∧ c.position = c0.position := by
    intro c hc
    rcases List.mem_or_eq_of_mem_set hc with hc | rfl
    · exact ⟨c, hc, rfl, rfl, rfl⟩
    · exact ⟨parent, hpmem, rfl, rfl, rfl⟩
  have hfresh : ∀ k t, freshId w.cells ∉ bucketAt w.chunks k t := by
    intro k t hmem
    obtain ⟨c, hc, hid⟩ := h.registered k t _ hmem
    have := id_lt_freshId w.cells c hc
    omega
  have hbucket : ∀ k t, bucketAt (spawnChild S birth0 w it parent d).chunks k t =
      if k = (chunkIndex S (worldToChunkPos S
          (makeChild S birth0 (freshId w.cells) parent d).position)).toNat ∧ t = parent.teamId
      then bucketAt w.chunks k t ++ [freshId w.cells] else bucketAt w.chunks k t := by
    intro k t
    exact bucketAt_pushToBucket S w.chunks _ _ _ k t hc0 hcLt hbk
  have hlen : (spawnChild S birth0 w it parent d).chunks.length = w.chunks.length :=
    pushToBucket_length S w.chunks _ _ _
  have hcells : (spawnChild S birth0 w it parent d).cells =
      w.cells.set it { parent with supply := parent.supply - 1, lastBirth := w.worldTime } ++
        [makeChild S birth0 (freshId w.cells) parent d] := rfl
  apply Consistent.of_homeCount
  · obtain ⟨h1, h2, h3, h4, h5⟩ := hshape
    exact ⟨h1, h2, h3, by rw [hlen]; exact h4, pushToBucket_buckets S w.chunks _ _ _ _ h5⟩
  · rw [hcells, List.map_append, hids, List.nodup_append]
    refine ⟨h.2.1, by simp, ?_⟩
    intro i hi hi'
    obtain ⟨c, hc, rfl⟩ := List.mem_map.1 hi
    have := id_lt_freshId w.cells c hc
    have hfr : c.id = freshId w.cells := by simpa [makeChild] using hi'
    omega
  · intro c hc
    rw [hcells] at hc
    rcases List.mem_append.1 hc with hc | hc
    · obtain ⟨c0, hc0, _, _, hp⟩ := hold c hc
      rw [hp]; exact h.bounds c0 hc0
    · rw [List.mem_singleton] at hc
      rw [hc]; exact hcb
  · intro c hc
    rw [hcells] at hc
    rcases List.mem_append.1 hc with hc | hc
    · obtain ⟨c0, hc0, _, ht, _⟩ := hold c hc
      rw [ht]; exact h.team_lt c0 hc0
    · rw [List.mem_singleton] at hc
      rw [hc]; exact hteamlt
  · intro c hc
    rw [hcells] at hc
    intro k t
    rw [hbucket k t, hlen]
    rcases List.mem_append.1 hc with hc | hc
    · obtain ⟨c0, hc0mem, hi, ht, hp⟩ := hold c hc
      have hne : c.id ≠ freshId w.cells := by
        have := id_lt_freshId w.cells c0 hc0mem
        omega
      have hk := h.homeCount c0 hc0mem k t
      have hhome : homeIndex S c = homeIndex S c0 := by unfold homeIndex; rw [hp]
      rw [hhome, ht, hi]
      rw [hi] at hne
      have happ : List.count c0.id (bucketAt w.chunks k t ++ [freshId w.cells]) =
          List.count c0.id (bucketAt w.chunks k t) := by
        rw [List.count_append, List.count_singleton]
        simp [Ne.symm hne]
      split_ifs at * <;> simp_all
    · rw [List.mem_singleton] at hc
      have hzero : List.count (freshId w.cells) (bucketAt w.chunks k t) = 0 :=
        List.count_eq_zero.2 (hfresh k t)
      have hcid : c.id = freshId w.cells := by rw [hc]; rfl
      have hcteam : c.teamId = parent.teamId := by rw [hc]; rfl
      have hchome : homeIndex S c = chunkIndex S (worldToChunkPos S
          (makeChild S birth0 (freshId w.cells) parent d).position) := by rw [hc]; rfl
      rw [hcid, hcteam, hchome]
      by_cases hk : k = (chunkIndex S (worldToChunkPos S
          (makeChild S birth0 (freshId w.cells) parent d).position)).toNat ∧ t = parent.teamId
      · rw [if_pos hk, List.count_append, hzero, if_pos ⟨by omega, by omega, hk.2⟩]
        simp
      · rw [if_neg hk, hzero, if_neg]
        rintro ⟨h1, _, h3⟩
        exact hk ⟨by omega, h3⟩
  · intro k t i hi
    rw [hbucket k t] at hi
    rw [hcells]
    have hcases : i ∈ bucketAt w.chunks k t ∨ i = freshId w.cells := by
      split_ifs at hi
      · rcases List.mem_append.1 hi with hi | hi
        · exact Or.inl hi
        · exact Or.inr (by simpa using hi)
      · exact Or.inl hi
    rcases hcases with hb | rfl
    · obtain ⟨c, hc, rfl⟩ := h.registered k t i hb
      have : c.id ∈ (w.cells.set it
          { parent with supply := parent.supply - 1, lastBirth := w.worldTime }).map Cell.id := by
        rw [hids]; exact List.mem_map_of_mem _ hc
      obtain ⟨c', hc', hid'⟩ := List.mem_map.1 this
      exact ⟨c', List.mem_append_left _ hc', hid'⟩
    · exact ⟨makeChild S birth0 (freshId w.cells) parent d,
        List.mem_append_right _ (List.mem_singleton.2 rfl), rfl⟩

theorem spawnChildrenFrom_consistent (S : WorldSettings) (hb : BoundInside S) (birth0 : ℚ)
    (fuel : Nat) :
    ∀ (it : Nat) (rng : Nat → SpawnDraw) (w : World), Consistent S w →
      Consistent S (spawnChildrenFrom S birth0 fuel it rng w) := by
  induction fuel with
  | zero => intro it rng w h; exact h
  | succ fuel ih =>
    intro it rng w h
    unfold spawnChildrenFrom
    cases hit : w.cells[it]? with
    | none => exact h
    | some parent =>
      dsimp only
      split_ifs
      · exact ih _ _ _ (spawnChild_consistent S hb birth0 w it parent (rng 0) h hit)
      · exact ih _ _ _ h

/-- When the upper bounds of the code lie inside the world, the pass
`spawnChildren` keeps a consistent world consistent. -/
theorem spawnChildren_consistent (S : WorldSettings) (hb : BoundInside S) (birth0 : ℚ)
    (rng : Nat → SpawnDraw) (w : World) (h : Consistent S w) :
    Consistent S (spawnChildren S birth0 rng w) :=
  spawnChildrenFrom_consistent S hb birth0 _ 0 rng w h

/-- One call of `deleteCell` on an agent of the registry keeps the world
consistent. -/
theorem deleteCell_consistent (S : WorldSettings) (w : World) (it : Nat) (h : Consistent S w) :
    Consistent S (deleteCell S w it) := by
  unfold deleteCell
  cases hit : w.cells[it]? with
  | none => exact h
  | some c =>
    dsimp only
    have hc : c ∈ w.cells := List.getElem?_mem hit
    have hlt : it < w.cells.length := by
      by_contra hge
      rw [List.getElem?_eq_none (by omega)] at hit
      simp at hit
    have hget : w.cells[it] = c := by
      rw [List.getElem?_eq_getElem hlt] at hit
      exact Option.some.inj hit
    have hnd : w.cells.Nodup := List.Nodup.of_map _ h.2.1
    have herase : w.cells.eraseIdx it = w.cells.erase c := by
      rw [← hget, hnd.erase_getElem it hlt]
    rw [eraseFromBucket_eq_purgeIds S w.chunks c (h.homeCount c hc), herase]
    apply h.purge _ _ (List.erase_sublist _ _)
    intro c' hc'
    rw [hnd.mem_erase_iff, List.mem_singleton]
    constructor
    · rintro ⟨hne, _⟩ hid
      exact hne (id_injOn h c' c hc' hc hid)
    · intro hid
      exact ⟨fun heq => hid (heq ▸ rfl), hc'⟩

/-- Registry/bucket consistency in worlds where the upper bounds
`(float) width - 1e-4f` and `(float) height - 1e-4f` lie inside the world: from a
consistent world, the world is consistent again after `updatePositions` for
every elapsed time, after `deleteDeadCells`, after every single `deleteCell`, and
after `spawnChildren` for every stream of random draws. -/
theorem consistency_preserved (S : WorldSettings) (hb : BoundInside S) (w : World)
    (h : Consistent S w) (elapsed birth0 : ℚ) (rng : Nat → SpawnDraw) :
    Consistent S (updatePositions S elapsed w) ∧ Consistent S (deleteDeadCells S w) ∧
      (∀ it, Consistent S (deleteCell S w it)) ∧
      Consistent S (spawnChildren S birth0 rng w) :=
  ⟨updatePositions_consistent S hb elapsed w h, deleteDeadCells_consistent S w h,
    fun it => deleteCell_consistent S w it h, spawnChildren_consistent S hb birth0 rng w h⟩

/-! ## Structure of the loops: composition and iteration bounds -/

/-- The loop of `updateCellSupply` over a registry `pre ++ rest` runs the loop over
`pre` and then the loop over `rest` on the chunks left by the first: every agent
is handled by the loop body on the chunk state left by the agents before it. -/
theorem updateCellSupplyLoop_append (S : WorldSettings) (owner : Chunk → Int) (delta : ℚ) :
    ∀ (pre rest : List Cell) (chunks : List Chunk),
      updateCellSupplyLoop S owner delta (pre ++ rest) chunks =
        ((updateCellSupplyLoop S owner delta pre chunks).1 ++
            (updateCellSupplyLoop S owner delta rest
              (updateCellSupplyLoop S owner delta pre chunks).2).1,
          (updateCellSupplyLoop S owner delta rest
            (updateCellSupplyLoop S owner delta pre chunks).2).2) := by
  intro pre
  induction pre with
  | nil => intro rest chunks; rfl
  | cons c pre ih =>
    intro rest chunks
    have h1 : ∀ (l : List Cell) (ch : List Chunk),
        updateCellSupplyLoop S owner delta (c :: l) ch =
          ((updateCellSupplyCell S owner delta c ch).1 ::
              (updateCellSupplyLoop S owner delta l (updateCellSupplyCell S owner delta c ch).2).1,
            (updateCellSupplyLoop S owner delta l
              (updateCellSupplyCell S owner delta c ch).2).2) := fun _ _ => rfl
    rw [List.cons_append, h1, h1, ih]
    rfl

theorem deleteCell_length (S : WorldSettings) (w : World) (it : Nat) (h : it < w.cells.length) :
    (deleteCell S w it).cells.length = w.cells.length - 1 := by
  unfold deleteCell
  rw [List.getElem?_eq_getElem h]
  exact List.length_eraseIdx_of_lt h

/-- The loop of `deleteDeadCells` ends within `cells.size() - it` iterations: more
fuel does not change its result. -/
theorem deleteDeadCellsFrom_fuel (S : WorldSettings) (n : Nat) :
    ∀ (fuel it : Nat) (w : World), w.cells.length - it ≤ fuel →
      deleteDeadCellsFrom S (fuel + n) it w = deleteDeadCellsFrom S fuel it w := by
  intro fuel
  induction fuel with
  | zero =>
    intro it w h
    have hnone : w.cells[it]? = none := List.getElem?_eq_none (by omega)
    cases n with
    | zero => rfl
    | succ n =>
      rw [Nat.zero_add]
      unfold deleteDeadCellsFrom
      rw [hnone]
  | succ fuel ih =>
    intro it w h
    rw [Nat.add_right_comm]
    unfold deleteDeadCellsFrom
    cases hit : w.cells[it]? with
    | none => rfl
    | some c =>
      dsimp only
      have hlt : it < w.cells.length := by
        by_contra hge
        rw [List.getElem?_eq_none (by omega)] at hit
        simp at hit
      split_ifs
      · exact ih it _ (by rw [deleteCell_length S w it hlt]; omega)
      · exact ih (it + 1) w (by omega)

/-- The fuel of `deleteDeadCells` is enough: any larger bound on the number of
iterations gives the same world. -/
theorem deleteDeadCells_fuel (S : WorldSettings) (w : World) (n : Nat) :
    deleteDeadCellsFrom S (w.cells.length + n) 0 w = deleteDeadCells S w :=
  deleteDeadCellsFrom_fuel S n _ 0 w (by omega)

theorem spawnPending_of_getElem? (w : World) (it : Nat) (c : Cell) (hit : w.cells[it]? = some c) :
    spawnPending w it =
      (w.cells.drop (it + 1)).length + 1 +
        (((w.cells.drop (it + 1)).filter fun c =>
            decide (c.supply ≥ 2 ∧ c.lastBirth < w.worldTime - 60)).length +
          if c.supply ≥ 2 ∧ c.lastBirth < w.worldTime - 60 then 1 else 0) := by
  have hlt : it < w.cells.length := by
    by_contra hge
    rw [List.getElem?_eq_none (by omega)] at hit
    simp at hit
  have hget : w.cells[it] = c := by
    rw [List.getElem?_eq_getElem hlt] at hit
    exact Option.some.inj hit
  unfold spawnPending
  rw [List.drop_eq_getElem_cons hlt, hget]
  by_cases hel : c.supply ≥ 2 ∧ c.lastBirth < w.worldTime - 60
  · rw [List.filter_cons_of_pos (by simpa using hel), if_pos hel]
    simp only [List.length_cons]
  · rw [List.filter_cons_of_neg (by simpa using hel), if_neg hel]
    simp only [List.length_cons]
    omega

theorem spawnPending_spawnChild (S : WorldSettings) (birth0 : ℚ) (w : World) (it : Nat)
    (parent : Cell) (d : SpawnDraw) (hit : w.cells[it]? = some parent) :
    spawnPending (spawnChild S birth0 w it parent d) (it + 1) =
      (w.cells.drop (it + 1)).length + 1 +
        ((w.cells.drop (it + 1)).filter fun c =>
            decide (c.supply ≥ 2 ∧ c.lastBirth < w.worldTime - 60)).length := by
  have hlt : it < w.cells.length := by
    by_contra hge
    rw [List.getElem?_eq_none (by omega)] at hit
    simp at hit
  have hdrop : (spawnChild S birth0 w it parent d).cells.drop (it + 1) =
      w.cells.drop (it + 1) ++ [makeChild S birth0 (freshId w.cells) parent d] := by
    show List.drop (it + 1) (w.cells.set it _ ++ [_]) = _
    rw [List.drop_append_of_le_length (by rw [List.length_set]; omega),
      List.drop_set_of_lt _ _ (by omega)]
  have htime : (spawnChild S birth0 w it parent d).worldTime = w.worldTime := rfl
  have hchild : ¬ ((makeChild S birth0 (freshId w.cells) parent d).supply ≥ 2 ∧
      (makeChild S birth0 (freshId w.cells) parent d).lastBirth < w.worldTime - 60) := by
    intro h
    have h0 : (makeChild S birth0 (freshId w.cells) parent d).supply = 0 := rfl
    rw [h0] at h
    linarith [h.1]
  unfold spawnPending
  rw [hdrop, htime, List.filter_append, List.filter_cons_of_neg (by simpa using hchild)]
  simp only [List.length_append, List.length_cons, List.length_nil, List.filter_nil]
  omega

/-- The loop of `spawnChildren` ends within `spawnPending` iterations: more fuel
does not change its result. -/
theorem spawnChildrenFrom_fuel (S : WorldSettings) (birth0 : ℚ) (n : Nat) :
    ∀ (fuel it : Nat) (rng : Nat → SpawnDraw) (w : World), spawnPending w it ≤ fuel →
      spawnChildrenFrom S birth0 (fuel + n) it rng w = spawnChildrenFrom S birth0 fuel it rng w := by
  intro fuel
  induction fuel with
  | zero =>
    intro it rng w h
    have hnone : w.cells[it]? = none := by
      cases hit : w.cells[it]? with
      | none => rfl
      | some c =>
        rw [spawnPending_of_getElem? w it c hit] at h
        omega
    cases n with
    | zero => rfl
    | succ n =>
      rw [Nat.zero_add]
      unfold spawnChildrenFrom
      rw [hnone]
  | succ fuel ih =>
    intro it rng w h
    rw [Nat.add_right_comm]
    unfold spawnChildrenFrom
    cases hit : w.cells[it]? with
    | none => rfl
    | some parent =>
      dsimp only
      rw [spawnPending_of_getElem? w it parent hit] at h
      by_cases hel : parent.supply ≥ 2 ∧ parent.lastBirth < w.worldTime - 60
      · rw [if_pos hel, if_pos hel]
        rw [if_pos hel] at h
        exact ih _ _ _ (by rw [spawnPending_spawnChild S birth0 w it parent _ hit]; omega)
      · rw [if_neg hel, if_neg hel]
        rw [if_neg hel] at h
        apply ih
        unfold spawnPending
        omega

theorem spawnPending_le (w : World) : spawnPending w 0 ≤ 2 * w.cells.length := by
  unfold spawnPending
  have := List.length_filter_le
    (fun c => decide (c.supply ≥ 2 ∧ c.lastBirth < w.worldTime - 60)) w.cells
  simp only [List.drop_zero]
  omega

/-- The fuel of `spawnChildren` is enough: the loop reaches the end of the
registry, and any larger bound on the number of iterations gives the same world. -/
theorem spawnChildren_fuel (S : WorldSettings) (birth0 : ℚ) (rng : Nat → SpawnDraw) (w : World)
    (n : Nat) :
    spawnChildrenFrom S birth0 (2 * w.cells.length + n) 0 rng w = spawnChildren S birth0 rng w :=
  spawnChildrenFrom_fuel S birth0 n _ 0 rng w (spawnPending_le w)

/-! ## `updateCellSupply`, passive loss: claim C11 -/

/-- C11, as stated, fails: in `unownedExampleWorld` the agent stands in a chunk not
owned by its team (owner `-1`, team `0`); after `updateCellSupply` with
`elapsed = 1/2` its supply is still `1`, not `1 - 0.2 * (1/2)`. -/
theorem updateCellSupply_passive_loss_counterexample :
    getCurrentOwner (getChunk exchangeExampleSettings unownedExampleWorld.chunks
        (worldToChunkPos exchangeExampleSettings exchangeExampleCell.position)) ≠
        (exchangeExampleCell.teamId : Int) ∧
      (updateCellSupply exchangeExampleSettings getCurrentOwner (1 / 2)
          unownedExampleWorld).cells = [exchangeExampleCell] ∧
      exchangeExampleCell.supply = 1 ∧
      ¬ ((updateCellSupply exchangeExampleSettings getCurrentOwner (1 / 2)
          unownedExampleWorld).cells.map Cell.supply = [1 - 2 / 10 * (1 / 2)]) := by
  refine ⟨by decide!, by decide!, by decide!, by decide!⟩

/-- C11, amended: the passive loss is charged exactly to the agents whose chunk is
owned by their own team. For such an agent the body of `updateCellSupply` leaves
`supply + t - 0.2 * elapsed` and adds a negative result to the health; an agent
standing in a chunk not owned by its team is skipped: the agent, its supply and
health included, and the chunks are unchanged. -/
theorem updateCellSupply_passive_loss (S : WorldSettings) (owner : Chunk → Int) (elapsed : ℚ)
    (cell : Cell) (chunks : List Chunk) :
    (owner (getChunk S chunks (worldToChunkPos S cell.position)) ≠ (cell.teamId : Int) →
        updateCellSupplyCell S owner elapsed cell chunks = (cell, chunks)) ∧
      (owner (getChunk S chunks (worldToChunkPos S cell.position)) = (cell.teamId : Int) →
        (updateCellSupplyCell S owner elapsed cell chunks).1.supply =
            cell.supply
              + exchangeSpec elapsed cell.supply
                  (getChunk S chunks (worldToChunkPos S cell.position)).supply
              - 2 / 10 * elapsed ∧
          ((updateCellSupplyCell S owner elapsed cell chunks).1.supply < 0 →
            (updateCellSupplyCell S owner elapsed cell chunks).1.health =
              cell.health + (updateCellSupplyCell S owner elapsed cell chunks).1.supply) ∧
          (0 ≤ (updateCellSupplyCell S owner elapsed cell chunks).1.supply →
            (updateCellSupplyCell S owner elapsed cell chunks).1.health = cell.health)) := by
  constructor
  · intro h
    unfold updateCellSupplyCell
    rw [if_pos h]
  · intro h
    unfold updateCellSupplyCell
    rw [if_neg (not_not.2 h)]
    simp only [supplyExchange_eq_spec]
    refine ⟨by ring, ?_, ?_⟩
    · intro hneg
      rw [if_pos (by linarith)]
    · intro hpos
      rw [if_neg (by linarith)]

theorem updateCellSupply_passive_loss_witness :
    getCurrentOwner (getChunk exchangeExampleSettings unownedExampleWorld.chunks
        (worldToChunkPos exchangeExampleSettings exchangeExampleCell.position)) ≠
        (exchangeExampleCell.teamId : Int) ∧
      updateCellSupplyCell exchangeExampleSettings getCurrentOwner (1 / 2) exchangeExampleCell
          unownedExampleWorld.chunks = (exchangeExampleCell, unownedExampleWorld.chunks) :=
  ⟨by decide!,
    (updateCellSupply_passive_loss exchangeExampleSettings getCurrentOwner (1 / 2)
      exchangeExampleCell unownedExampleWorld.chunks).1 (by decide!)⟩

/-! ## `updatePositions`, reflection at the walls -/

theorem reflectAxisSpec_zero (dim p v h elapsed : ℚ) :
    reflectAxisSpec dim (p + v * elapsed) v h 0 = reflectAxisSpec dim p v h elapsed := by
  unfold reflectAxisSpec
  simp only [mul_zero, add_zero]

/-- The `x` block of `updatePositions` in terms of `reflectAxisSpec`. -/
theorem reflectX_eq (S : WorldSettings) (cell : Cell) (p : Vec2f) :
    reflectX S (cell, p) =
      ({ cell with
          velocity :=
            ⟨(reflectAxisSpec (upperBound S.width) p.x cell.velocity.x cell.preferredVelocity.x 0).2.1,
              cell.velocity.y⟩
          preferredVelocity :=
            ⟨(reflectAxisSpec (upperBound S.width) p.x cell.velocity.x cell.preferredVelocity.x 0).2.2,
              cell.preferredVelocity.y⟩ },
        ⟨(reflectAxisSpec (upperBound S.width) p.x cell.velocity.x cell.preferredVelocity.x 0).1,
          p.y⟩) := by
  unfold reflectX reflectAxisSpec
  simp only [mul_zero, add_zero, mul_neg_one]
  by_cases h1 : p.x < 0
  · simp only [if_pos h1]
  · simp only [if_neg h1]
    by_cases h2 : p.x ≥ upperBound S.width
    · simp only [if_pos h2]
    · simp only [if_neg h2]

/-- The `y` block of `updatePositions` in terms of `reflectAxisSpec`. -/
theorem reflectY_eq (S : WorldSettings) (cell : Cell) (p : Vec2f) :
    reflectY S (cell, p) =
      ({ cell with
          velocity :=
            ⟨cell.velocity.x,
              (reflectAxisSpec (upperBound S.height) p.y cell.velocity.y cell.preferredVelocity.y 0).2.1⟩
          preferredVelocity :=
            ⟨cell.preferredVelocity.x,
              (reflectAxisSpec (upperBound S.height) p.y cell.velocity.y cell.preferredVelocity.y
                0).2.2⟩ },
        ⟨p.x,
          (reflectAxisSpec (upperBound S.height) p.y cell.velocity.y cell.preferredVelocity.y 0).1⟩) := by
  unfold reflectY reflectAxisSpec
  simp only [mul_zero, add_zero, mul_neg_one]
  by_cases h1 : p.y < 0
  · simp only [if_pos h1]
  · simp only [if_neg h1]
    by_cases h2 : p.y ≥ upperBound S.height
    · simp only [if_pos h2]
    · simp only [if_neg h2]

/-- The agent left by the body of `updatePositions` is the agent of the
specification. -/
theorem updatePositionsCell_fst (S : WorldSettings) (elapsed : ℚ) (c : Cell)
    (chunks : List Chunk) :
    (updatePositionsCell S elapsed c chunks).1 = positionSpec S elapsed c := by
  unfold updatePositionsCell updateCellPosition integrateCell positionSpec
  rw [reflectX_eq, reflectY_eq]
  simp only [reflectAxisSpec_zero]

theorem updatePositionsLoop_fst (S : WorldSettings) (elapsed : ℚ) :
    ∀ (cells : List Cell) (chunks : List Chunk),
      (updatePositionsLoop S elapsed cells chunks).1 = cells.map (positionSpec S elapsed) := by
  intro cells
  induction cells with
  | nil => intro chunks; rfl
  | cons c rest ih =>
    intro chunks
    have h1 : updatePositionsLoop S elapsed (c :: rest) chunks =
        ((updatePositionsCell S elapsed c chunks).1 ::
            (updatePositionsLoop S elapsed rest (updatePositionsCell S elapsed c chunks).2).1,
          (updatePositionsLoop S elapsed rest (updatePositionsCell S elapsed c chunks).2).2) :=
      rfl
    rw [h1, List.map_cons, ← ih, updatePositionsCell_fst]

theorem reflectAxisSpec_bounds (hi dim p v h elapsed : ℚ) (h0 : 0 ≤ hi) (hlt : hi < dim) :
    0 ≤ (reflectAxisSpec hi p v h elapsed).1 ∧ (reflectAxisSpec hi p v h elapsed).1 < dim := by
  unfold reflectAxisSpec
  by_cases h1 : p + v * elapsed < 0
  · rw [if_pos h1]
    exact ⟨le_refl _, by show (0 : ℚ) < dim; linarith⟩
  · rw [if_neg h1]
    by_cases h2 : p + v * elapsed ≥ hi
    · rw [if_pos h2]
      exact ⟨h0, hlt⟩
    · rw [if_neg h2]
      exact ⟨not_lt.1 h1, by show p + v * elapsed < dim; linarith [not_le.1 h2]⟩

/-- Boundary reflection in `updatePositions`. For every world and elapsed time the
registry after the pass is the old one with every agent replaced by the agent of
the specification: on each axis, independently, with
`p' = position + velocity * elapsed` and `hi` the value of `(float) dimension - 1e-4f`,
position `0` when `p' < 0`, position `hi` when `p' ≥ hi`, velocity and preferred
heading of that axis negated in both cases, and otherwise position `p'` with both
components unchanged. When the two upper bounds lie inside the world every agent
ends the pass with `0 ≤ x < width` and `0 ≤ y < height`. -/
theorem updatePositions_inside (S : WorldSettings) (elapsed : ℚ) (w : World) :
    (updatePositions S elapsed w).cells = w.cells.map (positionSpec S elapsed) ∧
      (BoundInside S → ∀ c ∈ (updatePositions S elapsed w).cells,
        (0 ≤ c.position.x ∧ c.position.x < (S.width : ℚ)) ∧
          (0 ≤ c.position.y ∧ c.position.y < (S.height : ℚ))) := by
  have hcells : (updatePositions S elapsed w).cells = w.cells.map (positionSpec S elapsed) :=
    updatePositionsLoop_fst S elapsed w.cells w.chunks
  refine ⟨hcells, ?_⟩
  intro hb c hc
  rw [hcells] at hc
  obtain ⟨c0, _, rfl⟩ := List.mem_map.1 hc
  exact ⟨reflectAxisSpec_bounds _ _ _ _ _ _ hb.1.1 hb.1.2,
    reflectAxisSpec_bounds _ _ _ _ _ _ hb.2.1 hb.2.2⟩

/-! ## `spawnChildren` in closed form, and claim C16 -/

theorem freshId_append (l1 l2 : List Cell) :
    freshId (l1 ++ l2) = max (freshId l1) (freshId l2) := by
  unfold freshId
  induction l1 with
  | nil => simp
  | cons c l1 ih =>
    simp only [List.cons_append, List.map_cons, List.foldr_cons] at ih ⊢
    omega

theorem freshId_cons (c : Cell) (l : List Cell) :
    freshId (c :: l) = max (c.id + 1) (freshId l) := by
  unfold freshId
  simp only [List.map_cons, List.foldr_cons]
  omega

theorem freshId_nil : freshId [] = 1 := rfl

/-- The loop of `spawnChildren` over agents that are not eligible changes
nothing. -/
theorem spawnChildrenFrom_idle (S : WorldSettings) (birth0 : ℚ) (chunks : List Chunk) (t : ℚ) :
    ∀ (kids : List Cell) (fuel : Nat) (done : List Cell) (rng : Nat → SpawnDraw),
      (∀ k ∈ kids, ¬ isEligible t k) →
      spawnChildrenFrom S birth0 fuel done.length rng ⟨done ++ kids, chunks, t⟩ =
        ⟨done ++ kids, chunks, t⟩ := by
  intro kids
  induction kids with
  | nil =>
    intro fuel done rng _
    cases fuel with
    | zero => rfl
    | succ fuel =>
      unfold spawnChildrenFrom
      simp
  | cons k kids ih =>
    intro fuel done rng h
    cases fuel with
    | zero => rfl
    | succ fuel =>
      unfold spawnChildrenFrom
      simp only [List.getElem?_append_right (le_refl _), Nat.sub_self, List.getElem?_cons_zero]
      have hk : ¬ (k.supply ≥ 2 ∧ k.lastBirth < t - 60) := h k (List.mem_cons_self _ _)
      rw [if_neg hk]
      have happ : done ++ k :: kids = (done ++ [k]) ++ kids := by simp
      have hlen : done.length + 1 = (done ++ [k]).length := by simp
      rw [happ, hlen]
      exact ih fuel (done ++ [k]) rng (fun x hx => h x (List.mem_cons_of_mem _ hx))

theorem makeChild_not_eligible (S : WorldSettings) (birth0 t : ℚ) (id : Nat) (p : Cell)
    (d : SpawnDraw) : ¬ isEligible t (makeChild S birth0 id p d) := by
  intro h
  have h0 : (makeChild S birth0 id p d).supply = 0 := rfl
  have h1 := h.1
  rw [h0] at h1
  linarith

theorem spawnChild_append (S : WorldSettings) (birth0 : ℚ) (done todo kids : List Cell)
    (p : Cell) (chunks : List Chunk) (t : ℚ) (d : SpawnDraw) :
    spawnChild S birth0 ⟨done ++ (p :: (todo ++ kids)), chunks, t⟩ done.length p d =
      ⟨(done ++ [parentAfterBirth t p]) ++ (todo ++
          (kids ++ [makeChild S birth0 (freshId (done ++ (p :: (todo ++ kids)))) p d])),
        pushToBucket S chunks
          (worldToChunkPos S
            (makeChild S birth0 (freshId (done ++ (p :: (todo ++ kids)))) p d).position)
          (makeChild S birth0 (freshId (done ++ (p :: (todo ++ kids)))) p d).teamId
          (makeChild S birth0 (freshId (done ++ (p :: (todo ++ kids)))) p d).id, t⟩ := by
  unfold spawnChild
  have hset : (done ++ (p :: (todo ++ kids))).set done.length
      { p with supply := p.supply - 1, lastBirth := t } =
      done ++ (parentAfterBirth t p :: (todo ++ kids)) := by
    rw [List.set_append_right _ _ (le_refl _), Nat.sub_self, List.set_cons_zero]
    rfl
  simp only [hset]
  congr 1
  simp

theorem freshId_after_birth' (done todo kids : List Cell) (p p' child : Cell)
    (hp : p'.id = p.id) (hchild : child.id = freshId (done ++ (p :: (todo ++ kids)))) :
    freshId ((done ++ [p']) ++ (todo ++ (kids ++ [child]))) =
      freshId (done ++ (p :: (todo ++ kids))) + 1 := by
  simp only [freshId_append, freshId_cons, freshId_nil, hp, hchild]
  omega

/-- The loop of `spawnChildren` with the agents `done` behind the iterator, the
agents `todo` of the original registry ahead and the children `kids` appended so
far: the eligible agents of `todo` give birth in order, and nothing else changes. -/
theorem spawnChildrenFrom_spec (S : WorldSettings) (birth0 t : ℚ) :
    ∀ (todo : List Cell) (fuel : Nat) (done kids : List Cell) (chunks : List Chunk)
      (rng : Nat → SpawnDraw),
      (∀ k ∈ kids, ¬ isEligible t k) → todo.length ≤ fuel →
      spawnChildrenFrom S birth0 fuel done.length rng ⟨done ++ (todo ++ kids), chunks, t⟩ =
        ⟨done ++ ((todo.map fun c => if isEligible t c then parentAfterBirth t c else c) ++
            (kids ++ childrenOf S birth0 t (freshId (done ++ (todo ++ kids))) rng todo)),
          pushChildren S (childrenOf S birth0 t (freshId (done ++ (todo ++ kids))) rng todo)
            chunks, t⟩ := by
  intro todo
  induction todo with
  | nil =>
    intro fuel done kids chunks rng hkids _
    simp only [List.nil_append, List.append_nil, List.map_nil, childrenOf, pushChildren,
      List.foldl_nil]
    exact spawnChildrenFrom_idle S birth0 chunks t kids fuel done rng hkids
  | cons p todo ih =>
    intro fuel done kids chunks rng hkids hfuel
    cases fuel with
    | zero => simp at hfuel
    | succ fuel =>
      have hfuel' : todo.length ≤ fuel := by simpa using hfuel
      rw [List.cons_append]
      have hget : (done ++ (p :: (todo ++ kids)))[done.length]? = some p := by
        rw [List.getElem?_append_right (le_refl _), Nat.sub_self, List.getElem?_cons_zero]
      unfold spawnChildrenFrom
      simp only [hget]
      by_cases hel : isEligible t p
      · have hel' : p.supply ≥ 2 ∧ p.lastBirth < t - 60 := hel
        rw [if_pos hel', spawnChild_append]
        have hlen : done.length + 1 = (done ++ [parentAfterBirth t p]).length := by simp
        have hkids' : ∀ k ∈ kids ++
            [makeChild S birth0 (freshId (done ++ (p :: (todo ++ kids)))) p (rng 0)],
            ¬ isEligible t k := by
          intro k hk
          rcases List.mem_append.1 hk with hk | hk
          · exact hkids k hk
          · rw [List.mem_singleton] at hk
            rw [hk]; exact makeChild_not_eligible S birth0 t _ p _
        rw [hlen, ih fuel _ _ _ _ hkids' hfuel',
          freshId_after_birth' done todo kids p (parentAfterBirth t p) _ rfl rfl]
        simp only [childrenOf, if_pos hel, List.map_cons, pushChildren, List.foldl_cons]
        congr 1
        simp
      · have hel' : ¬ (p.supply ≥ 2 ∧ p.lastBirth < t - 60) := hel
        rw [if_neg hel']
        have happ : done ++ (p :: (todo ++ kids)) = (done ++ [p]) ++ (todo ++ kids) := by simp
        have hlen : done.length + 1 = (done ++ [p]).length := by simp
        rw [hlen, happ, ih fuel (done ++ [p]) kids chunks rng hkids hfuel']
        simp only [childrenOf, if_neg hel, List.map_cons]
        congr 1
        simp

/-- The pass `spawnChildren` is the pass of the specification. -/
theorem spawnChildren_eq_spec (S : WorldSettings) (birth0 : ℚ) (rng : Nat → SpawnDraw)
    (w : World) : spawnChildren S birth0 rng w = spawnSpec S birth0 rng w := by
  have := spawnChildrenFrom_spec S birth0 w.worldTime w.cells (2 * w.cells.length) [] []
    w.chunks rng (by simp) (by omega)
  simpa [spawnChildren, spawnSpec] using this

theorem isEligible_iff_spec (t : ℚ) (c : Cell) : isEligible t c ↔ eligibleSpec t c := by
  unfold isEligible eligibleSpec
  constructor
  · rintro ⟨h1, h2⟩; exact ⟨h1, by linarith⟩
  · rintro ⟨h1, h2⟩; exact ⟨h1, by linarith⟩

theorem childrenOf_length (S : WorldSettings) (birth0 t : ℚ) :
    ∀ (l : List Cell) (firstId : Nat) (rng : Nat → SpawnDraw),
      (childrenOf S birth0 t firstId rng l).length =
        (l.filter fun c => decide (isEligible t c)).length := by
  intro l
  induction l with
  | nil => intro _ _; rfl
  | cons p ps ih =>
    intro firstId rng
    unfold childrenOf
    by_cases h : isEligible t p
    · rw [if_pos h, List.filter_cons_of_pos (by simpa using h), List.length_cons,
        List.length_cons, ih]
    · rw [if_neg h, List.filter_cons_of_neg (by simpa using h), ih]

/-- Every child of the list comes from an eligible agent of the list and one draw
of the stream. -/
theorem childrenOf_mem (S : WorldSettings) (birth0 t : ℚ) :
    ∀ (l : List Cell) (firstId : Nat) (rng : Nat → SpawnDraw) (child : Cell),
      child ∈ childrenOf S birth0 t firstId rng l →
      ∃ parent ∈ l, isEligible t parent ∧
        ∃ id n, child = makeChild S birth0 id parent (rng n) := by
  intro l
  induction l with
  | nil => intro _ _ child h; simp [childrenOf] at h
  | cons p ps ih =>
    intro firstId rng child h
    unfold childrenOf at h
    by_cases hel : isEligible t p
    · rw [if_pos hel] at h
      rcases List.mem_cons.1 h with h | h
      · exact ⟨p, List.mem_cons_self _ _, hel, firstId, 0, h⟩
      · obtain ⟨parent, hp, hpe, id, n, hc⟩ := ih _ _ child h
        exact ⟨parent, List.mem_cons_of_mem _ hp, hpe, id, n + 1, hc⟩
    · rw [if_neg hel] at h
      obtain ⟨parent, hp, hpe, id, n, hc⟩ := ih _ _ child h
      exact ⟨parent, List.mem_cons_of_mem _ hp, hpe, id, n, hc⟩

/-- C16, as stated, fails: in `boundaryExampleWorld` the agent has supply `2` and
exactly 60 time units have elapsed since its last birth (`worldTime - lastBirth ≥ 60`),
yet `spawnChildren` does not treat it as a parent: the registry is unchanged and
no child is created. -/
theorem spawnChildren_eligibility_counterexample :
    (∀ c ∈ boundaryExampleWorld.cells,
        c.supply ≥ 2 ∧ boundaryExampleWorld.worldTime - c.lastBirth ≥ 60) ∧
      (spawnChildren exchangeExampleSettings 0 (fun _ => exampleDraw)
        boundaryExampleWorld).cells = boundaryExampleWorld.cells := by
  refine ⟨by decide!, by decide!⟩

/-- C16, amended: `spawnChildren` treats an agent as an eligible parent exactly
when its supply is at least `2` and more than 60 time units have elapsed since
its last birth (`worldTime - lastBirth > 60`). The agent at registry position `i`
is replaced by the parent after a birth when the condition holds and is left
unchanged when it does not, and the pass appends one child per agent satisfying
the condition. -/
theorem spawnChildren_eligibility (S : WorldSettings) (birth0 : ℚ) (rng : Nat → SpawnDraw)
    (w : World) (i : Nat) (c : Cell) (hi : w.cells[i]? = some c) :
    (eligibleSpec w.worldTime c →
        (spawnChildren S birth0 rng w).cells[i]? = some (parentAfterBirth w.worldTime c)) ∧
      (¬ eligibleSpec w.worldTime c → (spawnChildren S birth0 rng w).cells[i]? = some c) ∧
      (spawnChildren S birth0 rng w).cells.length =
        w.cells.length + (w.cells.filter fun a => decide (eligibleSpec w.worldTime a)).length := by
  rw [spawnChildren_eq_spec]
  have hlt : i < w.cells.length := by
    by_contra hge
    rw [List.getElem?_eq_none (by omega)] at hi
    simp at hi
  have hget : (spawnSpec S birth0 rng w).cells[i]? =
      some (if isEligible w.worldTime c then parentAfterBirth w.worldTime c else c) := by
    unfold spawnSpec
    dsimp only
    rw [List.getElem?_append_left (by simpa using hlt), List.getElem?_map, hi]
    rfl
  refine ⟨?_, ?_, ?_⟩
  · intro h
    rw [hget, if_pos ((isEligible_iff_spec _ _).2 h)]
  · intro h
    rw [hget, if_neg (fun h' => h ((isEligible_iff_spec _ _).1 h'))]
  · unfold spawnSpec
    dsimp only
    rw [List.length_append, List.length_map, childrenOf_length]
    congr 2
    apply List.filter_congr
    intro a _
    simp only [decide_eq_decide]
    exact isEligible_iff_spec _ a

theorem spawnChildren_eligibility_witness :
    movingExampleWorld.cells[0]? =
        some { exampleCell 1 1 (5 / 2) ⟨5, 5⟩ with velocity := ⟨12, -20⟩, lastBirth := -100 } ∧
      (spawnChildren purgeExampleSettings 0 (fun _ => exampleDraw) movingExampleWorld).cells.length =
        movingExampleWorld.cells.length +
          (movingExampleWorld.cells.filter fun a =>
            decide (eligibleSpec movingExampleWorld.worldTime a)).length :=
  ⟨by decide!,
    (spawnChildren_eligibility purgeExampleSettings 0 (fun _ => exampleDraw) movingExampleWorld 0
      { exampleCell 1 1 (5 / 2) ⟨5, 5⟩ with velocity := ⟨12, -20⟩, lastBirth := -100 }
      (by decide!)).2.2⟩

/-- Effect of `spawnChildren`, for every stream of draws within the ranges of
its distributions, in a consistent world whose upper bounds
`(float) width - 1e-4f`, `(float) height - 1e-4f` lie inside the world. Every
eligible parent of the registry gets its supply reduced by exactly `1` and its
last-birth timestamp set to the world time, every ineligible agent is
unchanged, and the children are appended to the registry, one per eligible
parent. Each child has the team of an eligible parent, health `1`, supply `0`,
strength between `0.8` and `1.25` times the strength of the parent, and a
position within distance `3` of the parent clamped into
`[0, (float) width - 1e-4f] x [0, (float) height - 1e-4f]`; it is not eligible
in the pass, it is in the registry and in the bucket of its team in the chunk
containing its position. The pass terminates: any larger bound on the
iterations gives the same world, which has exactly as many more agents as there
were eligible parents. -/
theorem spawnChildren_closed_form (S : WorldSettings) (hb : BoundInside S) (birth0 : ℚ)
    (rng : Nat → SpawnDraw) (w : World) (h : Consistent S w)
    (hdraw : ∀ n, DrawInRange (rng n)) :
    (spawnChildren S birth0 rng w).cells =
        (w.cells.map fun c =>
          if isEligible w.worldTime c then parentAfterBirth w.worldTime c else c) ++
          childrenOf S birth0 w.worldTime (freshId w.cells) rng w.cells ∧
      (spawnChildren S birth0 rng w).chunks =
        pushChildren S (childrenOf S birth0 w.worldTime (freshId w.cells) rng w.cells) w.chunks ∧
      (childrenOf S birth0 w.worldTime (freshId w.cells) rng w.cells).length =
        (w.cells.filter fun c => decide (isEligible w.worldTime c)).length ∧
      (spawnChildren S birth0 rng w).cells.length =
        w.cells.length + (w.cells.filter fun c => decide (isEligible w.worldTime c)).length ∧
      (∀ child ∈ childrenOf S birth0 w.worldTime (freshId w.cells) rng w.cells,
        (∃ parent ∈ w.cells, isEligible w.worldTime parent ∧
          child.teamId = parent.teamId ∧ child.health = 1 ∧ child.supply = 0 ∧
          (∃ mul : ℚ, 8 / 10 ≤ mul ∧ mul ≤ 125 / 100 ∧ child.strength = parent.strength * mul) ∧
          (0 ≤ parent.strength →
            8 / 10 * parent.strength ≤ child.strength ∧
              child.strength ≤ 125 / 100 * parent.strength) ∧
          ∃ dx dy : ℚ, dx * dx + dy * dy ≤ 9 ∧
            child.position =
              clampVec ⟨dx + parent.position.x, dy + parent.position.y⟩ ⟨0, 0⟩
                ⟨upperBound S.width, upperBound S.height⟩) ∧
        ¬ isEligible w.worldTime child ∧
        child ∈ (spawnChildren S birth0 rng w).cells ∧
        InHomeBucket S (spawnChildren S birth0 rng w) child) ∧
      ∀ n, spawnChildrenFrom S birth0 (2 * w.cells.length + n) 0 rng w =
        spawnChildren S birth0 rng w := by
  have hcons := spawnChildren_consistent S hb birth0 rng w h
  have heq := spawnChildren_eq_spec S birth0 rng w
  have hcells : (spawnChildren S birth0 rng w).cells =
      (w.cells.map fun c =>
          if isEligible w.worldTime c then parentAfterBirth w.worldTime c else c) ++
          childrenOf S birth0 w.worldTime (freshId w.cells) rng w.cells := by
    rw [heq]; rfl
  have hchunks : (spawnChildren S birth0 rng w).chunks =
      pushChildren S (childrenOf S birth0 w.worldTime (freshId w.cells) rng w.cells) w.chunks := by
    rw [heq]; rfl
  refine ⟨hcells, hchunks, childrenOf_length _ _ _ _ _ _, ?_, ?_, spawnChildren_fuel S birth0 rng w⟩
  · rw [hcells, List.length_append, List.length_map, childrenOf_length]
  · intro child hchild
    have hmem : child ∈ (spawnChildren S birth0 rng w).cells := by
      rw [hcells]; exact List.mem_append_right _ hchild
    obtain ⟨parent, hp, hpe, id, n, hc⟩ := childrenOf_mem S birth0 _ _ _ _ child hchild
    obtain ⟨hd1, hd2, hr0, hr1, hcs⟩ := hdraw n
    have hd3 : (rng n).cosAngle * ((rng n).root * 3) * ((rng n).cosAngle * ((rng n).root * 3)) +
        (rng n).sinAngle * ((rng n).root * 3) * ((rng n).sinAngle * ((rng n).root * 3)) ≤ 9 := by
      have hrr : (rng n).root * (rng n).root ≤ 1 := by nlinarith
      have hcc : 0 ≤ (rng n).cosAngle * (rng n).cosAngle + (rng n).sinAngle * (rng n).sinAngle :=
        add_nonneg (mul_self_nonneg _) (mul_self_nonneg _)
      have hprod : (rng n).root * (rng n).root *
          ((rng n).cosAngle * (rng n).cosAngle + (rng n).sinAngle * (rng n).sinAngle) ≤ 1 := by
        have h1 := mul_le_mul hrr hcs hcc (by norm_num : (0 : ℚ) ≤ 1)
        linarith
      nlinarith
    refine ⟨⟨parent, hp, hpe, ?_, ?_, ?_, ⟨(rng n).strengthMul, hd1, hd2, ?_⟩, ?_,
      ⟨(rng n).cosAngle * ((rng n).root * 3), (rng n).sinAngle * ((rng n).root * 3), hd3, ?_⟩⟩,
      ?_, hmem, (hcons.2.2.1 child hmem).2⟩
    · rw [hc]; rfl
    · rw [hc]; rfl
    · rw [hc]; rfl
    · rw [hc]; rfl
    · intro hs
      have hstr : child.strength = parent.strength * (rng n).strengthMul := by rw [hc]; rfl
      rw [hstr]
      constructor
      · nlinarith
      · nlinarith
    · rw [hc]; rfl
    · rw [hc]; exact makeChild_not_eligible _ _ _ _ _ _

/-! ## Conservation of supply in `updateChunkSupply`: claim C19 -/

theorem list_range_sum (n : Nat) (f : Nat → ℚ) :
    ((List.range n).map f).sum = ∑ i in Finset.range n, f i := by
  induction n with
  | zero => simp
  | succ n ih => rw [List.range_succ, List.map_append, List.sum_append, ih, Finset.sum_range_succ]; simp

theorem flatMap_map_sum {α β : Type} (f : α → List β) (g : β → ℚ) (l : List α) :
    ((l.flatMap f).map g).sum = (l.map fun a => ((f a).map g).sum).sum := by
  induction l with
  | nil => rfl
  | cons a l ih =>
    rw [List.flatMap_cons, List.map_append, List.sum_append, ih, List.map_cons, List.sum_cons]

/-- A sum over the grid positions is the double sum over columns and rows. -/
theorem grid_sum (S : WorldSettings) (g : Vec2i → ℚ) :
    ((gridPositions S).map g).sum =
      ∑ x in Finset.range S.numChunks.x.toNat, ∑ y in Finset.range S.numChunks.y.toNat,
        g ⟨(x : Int), (y : Int)⟩ := by
  unfold gridPositions
  rw [flatMap_map_sum, list_range_sum]
  apply Finset.sum_congr rfl
  intro x _
  rw [List.map_map, list_range_sum]
  rfl

/-- The linear indices of the grid positions are the indices of the chunk vector. -/
theorem gridIndex_perm (S : WorldSettings) :
    ((gridPositions S).map fun p => (chunkIndex S p).toNat).Perm
      (List.range (S.numChunks.x.toNat * S.numChunks.y.toNat)) := by
  rw [List.perm_ext_iff_of_nodup (gridIndex_nodup S) (List.nodup_range _)]
  intro k
  constructor
  · intro hk
    obtain ⟨p, hp, rfl⟩ := List.mem_map.1 hk
    exact List.mem_range.2 (chunkIndex_of_mem S p hp).2
  · intro hk
    obtain ⟨p, hp, h⟩ := exists_gridPosition S k (List.mem_range.1 hk)
    exact List.mem_map.2 ⟨p, hp, h⟩

/-- A sum over the chunk vector is the sum over the grid positions of the chunks
read by `getChunk`. -/
theorem chunks_sum_eq_grid (S : WorldSettings) (chunks : List Chunk)
    (hgrid : GridShape S chunks) (h : Chunk → ℚ) :
    (chunks.map h).sum = ((gridPositions S).map fun p => h (getChunk S chunks p)).sum := by
  have h1 : chunks.map h =
      (List.range (S.numChunks.x.toNat * S.numChunks.y.toNat)).map
        (fun k => h ((chunks[k]?).getD default)) := by
    apply List.ext_getElem
    · simp [hgrid.2.2]
    · intro i hi1 hi2
      simp only [List.length_map] at hi1
      simp [List.getElem?_eq_getElem hi1]
  have h2 : ((gridPositions S).map fun p => h (getChunk S chunks p)) =
      ((gridPositions S).map fun p => (chunkIndex S p).toNat).map
        (fun k => h ((chunks[k]?).getD default)) := by
    rw [List.map_map]
    apply List.map_congr_left
    intro p hp
    simp only [Function.comp]
    rw [getChunk_of_inGrid S chunks p ((inGrid_iff_mem S p).2 hp)]
  rw [h1, h2]
  exact (((gridIndex_perm S).map _).sum_eq).symm

theorem updateChunkSupply_length (S : WorldSettings) (owner : Chunk → Int) (delta : ℚ)
    (w : World) : (updateChunkSupply S owner delta w).chunks.length = w.chunks.length := by
  unfold updateChunkSupply updateChunkSupplyIn applyPass
  simp only
  generalize gridPositions S = order
  generalize transferPass S delta _ order w.chunks = buf
  generalize w.chunks = chunks
  induction order generalizing chunks with
  | nil => rfl
  | cons q order ih => rw [List.foldl_cons, ih, modifyChunk_length]

/-- The transfer of a chunk of the grid is its diffusion part plus its source
term: the generation for an owned chunk, the decay for an unowned one. -/
theorem supplyTransferSpec_split (S : WorldSettings) (owner : Chunk → Int) (elapsed : ℚ)
    (w : World) (p : Vec2i) :
    supplyTransferSpec S owner elapsed w p =
      diffusionSpec S owner w p +
        (if ownerAt S owner w p = -1 then -elapsed else (getChunk S w.chunks p).supplyGeneration) := by
  unfold supplyTransferSpec diffusionSpec
  by_cases h : ownerAt S owner w p = -1
  · rw [if_pos h, if_pos h, if_pos h]; ring
  · rw [if_neg h, if_neg h, if_neg h]

/-- The diffusion part of a chunk of the grid is the net inflow over its four
sides. -/
theorem diffusionSpec_eq_flow (S : WorldSettings) (owner : Chunk → Int) (w : World) (p : Vec2i)
    (hp : inGrid S p) :
    diffusionSpec S owner w p =
      (flow S owner w p ⟨p.x + 1, p.y⟩ - flow S owner w ⟨p.x - 1, p.y⟩ p) +
        1 / 10 * (flow S owner w p ⟨p.x, p.y + 1⟩ - flow S owner w ⟨p.x, p.y - 1⟩ p) := by
  have hout : ∀ q, ownerAt S owner w p ≠ -1 →
      neighbourSupplySpec S owner w p q - supplyAt S w p = flow S owner w p q := by
    intro q h
    unfold neighbourSupplySpec flow
    by_cases hq : inGrid S q ∧ ownerAt S owner w q = ownerAt S owner w p
    · rw [if_pos hq, if_pos ⟨hp, hq.1, hq.2, h⟩]
    · rw [if_neg hq, if_neg (fun hc => hq ⟨hc.2.1, hc.2.2.1⟩)]; ring
  have hin : ∀ q, ownerAt S owner w p ≠ -1 →
      supplyAt S w p - neighbourSupplySpec S owner w p q = flow S owner w q p := by
    intro q h
    unfold neighbourSupplySpec flow
    by_cases hq : inGrid S q ∧ ownerAt S owner w q = ownerAt S owner w p
    · rw [if_pos hq, if_pos ⟨hq.1, hp, hq.2.symm, by rw [hq.2]; exact h⟩]
    · rw [if_neg hq, if_neg (fun hc => hq ⟨hc.1, hc.2.2.1.symm⟩)]; ring
  have hzero_out : ∀ q, ownerAt S owner w p = -1 → flow S owner w p q = 0 := by
    intro q h
    unfold flow
    rw [if_neg (fun hc => hc.2.2.2 h)]
  have hzero_in : ∀ q, ownerAt S owner w p = -1 → flow S owner w q p = 0 := by
    intro q h
    unfold flow
    rw [if_neg (fun hc => hc.2.2.2 (by rw [← hc.2.2.1]; exact h))]
  unfold diffusionSpec
  by_cases h : ownerAt S owner w p = -1
  · rw [if_pos h, hzero_out _ h, hzero_out _ h, hzero_in _ h, hzero_in _ h]; ring
  · rw [if_neg h, hout _ h, hout _ h, hin _ h, hin _ h]

theorem flow_of_not_inGrid_left (S : WorldSettings) (owner : Chunk → Int) (w : World)
    (p q : Vec2i) (h : ¬ inGrid S p) : flow S owner w p q = 0 := by
  unfold flow; rw [if_neg (fun hc => h hc.1)]

theorem flow_of_not_inGrid_right (S : WorldSettings) (owner : Chunk → Int) (w : World)
    (p q : Vec2i) (h : ¬ inGrid S q) : flow S owner w p q = 0 := by
  unfold flow; rw [if_neg (fun hc => h hc.2.1)]

/-- The horizontal flows cancel along every row. -/
theorem flow_row_sum (S : WorldSettings) (owner : Chunk → Int) (w : World)
    (hx : 0 ≤ S.numChunks.x) (y : Int) :
    ∑ x in Finset.range S.numChunks.x.toNat,
        (flow S owner w ⟨(x : Int), y⟩ ⟨(x : Int) + 1, y⟩ -
          flow S owner w ⟨(x : Int) - 1, y⟩ ⟨(x : Int), y⟩) = 0 := by
  have h := Finset.sum_range_sub
    (fun i : Nat => flow S owner w ⟨(i : Int) - 1, y⟩ ⟨(i : Int), y⟩) S.numChunks.x.toNat
  have hcast2 : ∀ x : Nat, ((x + 1 : Nat) : Int) = (x : Int) + 1 := by intro x; push_cast; ring
  simp only [hcast2, add_sub_cancel_right] at h
  rw [h, flow_of_not_inGrid_right, flow_of_not_inGrid_left]
  · ring
  · unfold inGrid; simp
  · unfold inGrid
    simp only [Int.toNat_of_nonneg hx]
    omega

/-- The vertical flows cancel along every column. -/
theorem flow_column_sum (S : WorldSettings) (owner : Chunk → Int) (w : World)
    (hy : 0 ≤ S.numChunks.y) (x : Int) :
    ∑ y in Finset.range S.numChunks.y.toNat,
        (flow S owner w ⟨x, (y : Int)⟩ ⟨x, (y : Int) + 1⟩ -
          flow S owner w ⟨x, (y : Int) - 1⟩ ⟨x, (y : Int)⟩) = 0 := by
  have h := Finset.sum_range_sub
    (fun i : Nat => flow S owner w ⟨x, (i : Int) - 1⟩ ⟨x, (i : Int)⟩) S.numChunks.y.toNat
  have hcast2 : ∀ x : Nat, ((x + 1 : Nat) : Int) = (x : Int) + 1 := by intro x; push_cast; ring
  simp only [hcast2, add_sub_cancel_right] at h
  rw [h, flow_of_not_inGrid_right, flow_of_not_inGrid_left]
  · ring
  · unfold inGrid; simp
  · unfold inGrid
    simp only [Int.toNat_of_nonneg hy]
    omega

/-- The diffusion parts of all chunks of the grid sum to zero. -/
theorem diffusion_sum_zero (S : WorldSettings) (owner : Chunk → Int) (w : World)
    (hx : 0 ≤ S.numChunks.x) (hy : 0 ≤ S.numChunks.y) :
    ((gridPositions S).map fun p => diffusionSpec S owner w p).sum = 0 := by
  have hrw : ((gridPositions S).map fun p => diffusionSpec S owner w p) =
      (gridPositions S).map fun p =>
        (flow S owner w p ⟨p.x + 1, p.y⟩ - flow S owner w ⟨p.x - 1, p.y⟩ p) +
          1 / 10 * (flow S owner w p ⟨p.x, p.y + 1⟩ - flow S owner w ⟨p.x, p.y - 1⟩ p) := by
    apply List.map_congr_left
    intro p hp
    exact diffusionSpec_eq_flow S owner w p ((inGrid_iff_mem S p).2 hp)
  rw [hrw, grid_sum]
  simp only [Finset.sum_add_distrib, ← Finset.mul_sum]
  rw [Finset.sum_comm]
  simp only [flow_row_sum S owner w hx, flow_column_sum S owner w hy, Finset.sum_const_zero]
  ring

theorem source_sum (owner : Chunk → Int) (elapsed : ℚ) (chunks : List Chunk) :
    (chunks.map fun c => if owner c = -1 then -elapsed else c.supplyGeneration).sum =
      ownedGeneration owner chunks - elapsed * (unownedCount owner chunks : ℚ) := by
  unfold ownedGeneration unownedCount
  induction chunks with
  | nil => simp
  | cons c cs ih =>
    rw [List.map_cons, List.sum_cons, ih]
    by_cases h : owner c = -1
    · rw [if_pos h, List.filter_cons_of_neg (by simpa using h),
        List.filter_cons_of_pos (by simpa using h), List.length_cons]
      push_cast; ring
    · rw [if_neg h, List.filter_cons_of_pos (by simpa using h),
        List.filter_cons_of_neg (by simpa using h), List.map_cons, List.sum_cons]
      ring

theorem list_sum_map_add {α : Type} (l : List α) (f g : α → ℚ) :
    (l.map fun a => f a + g a).sum = (l.map f).sum + (l.map g).sum := by
  induction l with
  | nil => simp
  | cons a l ih => simp only [List.map_cons, List.sum_cons, ih]; ring

theorem list_sum_map_mul_left {α : Type} (l : List α) (c : ℚ) (f : α → ℚ) :
    (l.map fun a => c * f a).sum = c * (l.map f).sum := by
  induction l with
  | nil => simp
  | cons a l ih => simp only [List.map_cons, List.sum_cons, ih]; ring

/-- C19: diffusion conserves supply. For every grid, owner assignment, supply
field and elapsed time, the sum of all chunk supplies after `updateChunkSupply`
is the sum before, plus `elapsed` times the sum of `supplyGeneration` over the
owned chunks, minus `elapsed` squared times the number of unowned chunks; the
horizontal and `0.1`-weighted vertical diffusion terms of all chunks sum to
zero. -/
theorem updateChunkSupply_conserves (S : WorldSettings) (owner : Chunk → Int) (elapsed : ℚ)
    (w : World) (hgrid : GridShape S w.chunks) :
    totalSupply (updateChunkSupply S owner elapsed w).chunks =
        totalSupply w.chunks + elapsed * ownedGeneration owner w.chunks -
          elapsed * elapsed * (unownedCount owner w.chunks : ℚ) ∧
      ((gridPositions S).map fun p => diffusionSpec S owner w p).sum = 0 := by
  have hdiff := diffusion_sum_zero S owner w hgrid.1 hgrid.2.1
  refine ⟨?_, hdiff⟩
  have hgrid2 : GridShape S (updateChunkSupply S owner elapsed w).chunks :=
    ⟨hgrid.1, hgrid.2.1, by rw [updateChunkSupply_length]; exact hgrid.2.2⟩
  unfold totalSupply
  rw [chunks_sum_eq_grid S _ hgrid2 Chunk.supply]
  have hnew : ((gridPositions S).map fun p =>
        (getChunk S (updateChunkSupply S owner elapsed w).chunks p).supply) =
      (gridPositions S).map fun p =>
        (getChunk S w.chunks p).supply + elapsed * (diffusionSpec S owner w p +
          (fun c : Chunk => if owner c = -1 then -elapsed else c.supplyGeneration)
            (getChunk S w.chunks p)) := by
    apply List.map_congr_left
    intro p hp
    have h := updateChunkSupply_supplyAt S owner elapsed w hgrid p ((inGrid_iff_mem S p).2 hp)
    unfold supplyAt at h
    rw [h, supplyTransferSpec_split]
    rfl
  rw [hnew, list_sum_map_add, list_sum_map_mul_left, list_sum_map_add, hdiff,
    ← chunks_sum_eq_grid S _ hgrid Chunk.supply,
    ← chunks_sum_eq_grid S _ hgrid
      (fun c : Chunk => if owner c = -1 then -elapsed else c.supplyGeneration),
    source_sum]
  ring

theorem updateChunkSupply_conserves_witness :
    GridShape supplyExampleSettings supplyExampleWorld.chunks ∧
      totalSupply (updateChunkSupply supplyExampleSettings getCurrentOwner (1 / 2)
          supplyExampleWorld).chunks =
        totalSupply supplyExampleWorld.chunks +
          1 / 2 * ownedGeneration getCurrentOwner supplyExampleWorld.chunks -
          1 / 2 * (1 / 2) * (unownedCount getCurrentOwner supplyExampleWorld.chunks : ℚ) :=
  ⟨by unfold GridShape; decide,
    (updateChunkSupply_conserves supplyExampleSettings getCurrentOwner (1 / 2)
      supplyExampleWorld (by unfold GridShape; decide)).1⟩

/-! ## `findNearestEnemies`: claim C13 -/

theorem truncToInt_intCast (n : Int) : truncToInt (n : ℚ) = n := by
  unfold truncToInt
  by_cases h : (0 : ℚ) ≤ (n : ℚ)
  · rw [if_pos h, Int.floor_intCast]
  · rw [if_neg h, Int.ceil_intCast]

theorem searchDistance_eq (S : WorldSettings) (R : ℚ) :
    searchDistance S R = ⌈R / S.pixelsPerChunk⌉ :=
  truncToInt_intCast _

theorem mem_offsets (r o : Int) : o ∈ offsets r ↔ -r ≤ o ∧ o ≤ r := by
  unfold offsets
  simp only [List.mem_map, List.mem_range]
  constructor
  · rintro ⟨k, hk, rfl⟩
    omega
  · rintro ⟨h1, h2⟩
    refine ⟨(o + r).toNat, by omega, by omega⟩

theorem foldl_flatMap_eq {α β γ : Type} (f : α → List β) (g : γ → β → γ) (l : List α) (b : γ) :
    (l.flatMap f).foldl g b = l.foldl (fun b a => (f a).foldl g b) b := by
  induction l generalizing b with
  | nil => rfl
  | cons a l ih => rw [List.flatMap_cons, List.foldl_append, ih, List.foldl_cons]

theorem scanBucket_eq (sqrtf : ℚ → ℚ) (cells : List Cell) (cell : Cell) (bucket : List Nat)
    (best : Option Cell × ℚ) :
    scanBucket sqrtf cells cell best bucket =
      (bucketCells cells bucket).foldl (considerCell sqrtf cell) best := by
  unfold scanBucket bucketCells
  induction bucket generalizing best with
  | nil => rfl
  | cons id bucket ih =>
    rw [List.foldl_cons, ih]
    cases h : cellById cells id with
    | none => rw [List.filterMap_cons_none h]
    | some c => rw [List.filterMap_cons_some h, List.foldl_cons]

theorem scanChunk_eq (S : WorldSettings) (sqrtf : ℚ → ℚ) (cells : List Cell) (cell : Cell)
    (chunk : Chunk) (best : Option Cell × ℚ) :
    scanChunk S sqrtf cells cell best chunk =
      (chunkScanOrder S cells cell chunk).foldl (considerCell sqrtf cell) best := by
  unfold scanChunk chunkScanOrder
  rw [foldl_flatMap_eq]
  congr 1
  funext best i
  by_cases h : i = cell.teamId
  · rw [if_pos h, if_pos h]; rfl
  · rw [if_neg h, if_neg h, scanBucket_eq]

/-- The loops of `findNearestEnemies` are one left fold of the body of the
innermost loop over the scan order. -/
theorem findNearestEnemiesScan_eq (S : WorldSettings) (sqrtf : ℚ → ℚ) (w : World) (cell : Cell)
    (R : ℚ) :
    findNearestEnemiesScan S sqrtf w cell R =
      (scanOrder S w cell R).foldl (considerCell sqrtf cell) (none, R) := by
  unfold findNearestEnemiesScan scanOrder
  rw [foldl_flatMap_eq]
  congr 1
  funext best ox
  rw [foldl_flatMap_eq]
  congr 1
  funext best oy
  split_ifs
  · rw [scanChunk_eq]
  · rfl

/-- The fold of the innermost loop body over a list of candidates, started at
`(nullptr, R)`: either no candidate is nearer than `R` and the result is
`nullptr`, or the result is the first candidate of least distance, and that
distance is below `R`. -/
theorem considerCell_foldl (sqrtf : ℚ → ℚ) (cell : Cell) (R : ℚ) (l : List Cell) :
    ((l.foldl (considerCell sqrtf cell) (none, R)).1 = none ∧
        ∀ c ∈ l, R ≤ cellDistance sqrtf cell c) ∨
      ∃ e pre post, (l.foldl (considerCell sqrtf cell) (none, R)) =
          (some e, cellDistance sqrtf cell e) ∧
        l = pre ++ e :: post ∧ cellDistance sqrtf cell e < R ∧
        (∀ c ∈ pre, cellDistance sqrtf cell e < cellDistance sqrtf cell c) ∧
        ∀ c ∈ post, cellDistance sqrtf cell e ≤ cellDistance sqrtf cell c := by
  have hstrong : ((l.foldl (considerCell sqrtf cell) (none, R)) = (none, R) ∧
        ∀ c ∈ l, R ≤ cellDistance sqrtf cell c) ∨
      ∃ e pre post, (l.foldl (considerCell sqrtf cell) (none, R)) =
          (some e, cellDistance sqrtf cell e) ∧
        l = pre ++ e :: post ∧ cellDistance sqrtf cell e < R ∧
        (∀ c ∈ pre, cellDistance sqrtf cell e < cellDistance sqrtf cell c) ∧
        ∀ c ∈ post, cellDistance sqrtf cell e ≤ cellDistance sqrtf cell c := by
    induction l using List.reverseRecOn with
    | nil => left; exact ⟨rfl, fun c hc => by simp at hc⟩
    | append_singleton l c ih =>
      rw [List.foldl_append, List.foldl_cons, List.foldl_nil]
      rcases ih with ⟨hst, hall⟩ | ⟨e, pre, post, hst, hl, hlt, hpre, hpost⟩
      · rw [hst]
        unfold considerCell
        by_cases hc : cellDistance sqrtf cell c < R
        · right
          rw [if_pos hc]
          refine ⟨c, l, [], rfl, rfl, hc, ?_, fun x hx => by simp at hx⟩
          intro x hx
          exact lt_of_lt_of_le hc (hall x hx)
        · left
          rw [if_neg hc]
          refine ⟨rfl, ?_⟩
          intro x hx
          rcases List.mem_append.1 hx with hx | hx
          · exact hall x hx
          · rw [List.mem_singleton.1 hx]; exact not_lt.1 hc
      · right
        rw [hst]
        unfold considerCell
        by_cases hc : cellDistance sqrtf cell c < cellDistance sqrtf cell e
        · rw [if_pos hc]
          refine ⟨c, l, [], rfl, rfl, lt_trans hc hlt, ?_, fun x hx => by simp at hx⟩
          intro x hx
          rw [hl] at hx
          rcases List.mem_append.1 hx with hx | hx
          · exact lt_trans hc (hpre x hx)
          · rcases List.mem_cons.1 hx with hx | hx
            · rw [hx]; exact hc
            · exact lt_of_lt_of_le hc (hpost x hx)
        · rw [if_neg hc]
          refine ⟨e, pre, post ++ [c], rfl, ?_, hlt, hpre, ?_⟩
          · rw [hl]; simp
          · intro x hx
            rcases List.mem_append.1 hx with hx | hx
            · exact hpost x hx
            · rw [List.mem_singleton.1 hx]; exact not_lt.1 hc
  rcases hstrong with ⟨hst, hall⟩ | h
  · left; exact ⟨by rw [hst], hall⟩
  · right; exact h

theorem cellById_some (cells : List Cell) (id : Nat) (c : Cell) (h : cellById cells id = some c) :
    c ∈ cells ∧ c.id = id := by
  unfold cellById at h
  exact ⟨List.mem_of_find?_eq_some h, by simpa using List.find?_some h⟩

theorem cellById_of_mem {S : WorldSettings} {w : World} (h : Consistent S w) (c : Cell)
    (hc : c ∈ w.cells) : cellById w.cells c.id = some c := by
  cases hfind : cellById w.cells c.id with
  | none =>
    unfold cellById at hfind
    rw [List.find?_eq_none] at hfind
    have := hfind c hc
    simp at this
  | some d =>
    obtain ⟨hd, hid⟩ := cellById_some _ _ _ hfind
    rw [id_injOn h d c hd hc hid]

theorem inBoundsEx_iff_inGrid (S : WorldSettings) (p : Vec2i) :
    inBoundsEx p ⟨0, 0⟩ S.numChunks ↔ inGrid S p := by
  unfold inBoundsEx inGrid; rfl

/-- Every agent of the scan order is an agent of the registry of another team. -/
theorem scanOrder_sound {S : WorldSettings} {w : World} (h : Consistent S w) (a : Cell) (R : ℚ)
    (c : Cell) (hc : c ∈ scanOrder S w a R) : c ∈ w.cells ∧ c.teamId ≠ a.teamId := by
  unfold scanOrder at hc
  simp only [List.mem_flatMap] at hc
  obtain ⟨ox, _, oy, _, hc⟩ := hc
  split_ifs at hc with hin
  · unfold chunkScanOrder at hc
    simp only [List.mem_flatMap, List.mem_range] at hc
    obtain ⟨i, hi, hc⟩ := hc
    split_ifs at hc with hteam
    · simp at hc
    · unfold bucketCells at hc
      rw [List.mem_filterMap] at hc
      obtain ⟨id, hid, hfind⟩ := hc
      obtain ⟨hmem, hcid⟩ := cellById_some _ _ _ hfind
      refine ⟨hmem, ?_⟩
      have hgrid := (inBoundsEx_iff_inGrid S _).1 hin
      obtain ⟨h0, hlt⟩ := chunkIndex_in_range S w h.1 _ hgrid
      rw [getChunk_eq_getD S _ _ h0] at hid
      have hcount := (h.2.2.1 c hmem).2.2.2.2 _ hlt i hi
      unfold bucketAt at hcount
      have hpos : 0 < List.count c.id
          ((w.chunks.getD (chunkIndex S
            ⟨ox + (worldToChunkPos S a.position).x,
              oy + (worldToChunkPos S a.position).y⟩).toNat default).cells.getD i []) := by
        rw [List.count_pos_iff, hcid]; exact hid
      rw [hcount] at hpos
      split_ifs at hpos with hk
      · rw [← hk.2]; exact hteam
      · omega
  · simp at hc

theorem abs_lt_of_sqrt_lt (sqrtf : ℚ → ℚ) (hsqrt : SqrtUpper sqrtf) (dx dy R : ℚ)
    (h : sqrtf (dx * dx + dy * dy) < R) : -R < dx ∧ dx < R := by
  obtain ⟨h0, h1⟩ := hsqrt (dx * dx + dy * dy) (by nlinarith [mul_self_nonneg dx, mul_self_nonneg dy])
  have hdy := mul_self_nonneg dy
  constructor
  · by_contra hc
    push_neg at hc
    nlinarith
  · by_contra hc
    push_neg at hc
    nlinarith

theorem abs_lt_of_sqrt_lt_right (sqrtf : ℚ → ℚ) (hsqrt : SqrtUpper sqrtf) (dx dy R : ℚ)
    (h : sqrtf (dx * dx + dy * dy) < R) : -R < dy ∧ dy < R := by
  rw [add_comm] at h
  exact abs_lt_of_sqrt_lt sqrtf hsqrt dy dx R h

/-- Two non-negative coordinates less than `R` apart lie in chunks at most
`ceil(R / pixelsPerChunk)` apart. -/
theorem floor_offset_bound (ppc ax bx R : ℚ) (hppc : 0 < ppc) (h1 : -R < bx - ax)
    (h2 : bx - ax < R) :
    -⌈R / ppc⌉ ≤ ⌊bx / ppc⌋ - ⌊ax / ppc⌋ ∧ ⌊bx / ppc⌋ - ⌊ax / ppc⌋ ≤ ⌈R / ppc⌉ := by
  have hR := Int.le_ceil (R / ppc)
  have ha1 := Int.floor_le (ax / ppc)
  have ha2 := Int.lt_floor_add_one (ax / ppc)
  have hb1 := Int.floor_le (bx / ppc)
  have hb2 := Int.lt_floor_add_one (bx / ppc)
  have hd1 : bx / ppc - ax / ppc < R / ppc := by
    rw [← sub_div]; exact div_lt_div_of_pos_right h2 hppc
  have hd2 : -(R / ppc) < bx / ppc - ax / ppc := by
    rw [← sub_div, ← neg_div]; exact div_lt_div_of_pos_right h1 hppc
  constructor
  · have : ((-⌈R / ppc⌉ : Int) : ℚ) < ((⌊bx / ppc⌋ - ⌊ax / ppc⌋ + 1 : Int) : ℚ) := by
      push_cast; linarith
    have := Int.cast_lt.1 this
    omega
  · have : ((⌊bx / ppc⌋ - ⌊ax / ppc⌋ : Int) : ℚ) < ((⌈R / ppc⌉ + 1 : Int) : ℚ) := by
      push_cast; linarith
    have := Int.cast_lt.1 this
    omega

/-- The scanned square contains every agent of another team within distance `R`. -/
theorem scanOrder_complete {S : WorldSettings} {w : World} (h : Consistent S w)
    (sqrtf : ℚ → ℚ) (hsqrt : SqrtUpper sqrtf) (a : Cell) (ha : inBounds S a.position) (R : ℚ)
    (b : Cell) (hb : b ∈ w.cells) (hteam : b.teamId ≠ a.teamId)
    (hdist : cellDistance sqrtf a b < R) : b ∈ scanOrder S w a R := by
  have hbb := h.bounds b hb
  have hppc := h.1.1
  obtain ⟨hx1, hx2⟩ := abs_lt_of_sqrt_lt sqrtf hsqrt _ _ R hdist
  obtain ⟨hy1, hy2⟩ := abs_lt_of_sqrt_lt_right sqrtf hsqrt _ _ R hdist
  have hax : worldToChunkPos S a.position =
      ⟨⌊a.position.x / S.pixelsPerChunk⌋, ⌊a.position.y / S.pixelsPerChunk⌋⟩ := by
    unfold worldToChunkPos
    rw [truncToInt_of_nonneg _ (div_nonneg ha.1.1 hppc.le),
      truncToInt_of_nonneg _ (div_nonneg ha.2.1 hppc.le)]
  have hbx : worldToChunkPos S b.position =
      ⟨⌊b.position.x / S.pixelsPerChunk⌋, ⌊b.position.y / S.pixelsPerChunk⌋⟩ := by
    unfold worldToChunkPos
    rw [truncToInt_of_nonneg _ (div_nonneg hbb.1.1 hppc.le),
      truncToInt_of_nonneg _ (div_nonneg hbb.2.1 hppc.le)]
  obtain ⟨ox1, ox2⟩ := floor_offset_bound S.pixelsPerChunk a.position.x b.position.x R hppc hx1 hx2
  obtain ⟨oy1, oy2⟩ := floor_offset_bound S.pixelsPerChunk a.position.y b.position.y R hppc hy1 hy2
  have hgrid := inGrid_worldToChunkPos S w h.1 b.position hbb
  obtain ⟨h0, hlt⟩ := chunkIndex_in_range S w h.1 _ hgrid
  have hpos : (⟨(⌊b.position.x / S.pixelsPerChunk⌋ - ⌊a.position.x / S.pixelsPerChunk⌋) +
        (worldToChunkPos S a.position).x,
      (⌊b.position.y / S.pixelsPerChunk⌋ - ⌊a.position.y / S.pixelsPerChunk⌋) +
        (worldToChunkPos S a.position).y⟩ : Vec2i) = worldToChunkPos S b.position := by
    rw [hax, hbx]
    simp only [sub_add_cancel]
  unfold scanOrder
  simp only [List.mem_flatMap]
  refine ⟨⌊b.position.x / S.pixelsPerChunk⌋ - ⌊a.position.x / S.pixelsPerChunk⌋, ?_,
    ⌊b.position.y / S.pixelsPerChunk⌋ - ⌊a.position.y / S.pixelsPerChunk⌋, ?_, ?_⟩
  · rw [mem_offsets, searchDistance_eq]; exact ⟨ox1, ox2⟩
  · rw [mem_offsets, searchDistance_eq]; exact ⟨oy1, oy2⟩
  · rw [hpos, if_pos ((inBoundsEx_iff_inGrid S _).2 hgrid)]
    unfold chunkScanOrder
    simp only [List.mem_flatMap, List.mem_range]
    refine ⟨b.teamId, h.team_lt b hb, ?_⟩
    rw [if_neg hteam]
    unfold bucketCells
    rw [List.mem_filterMap]
    refine ⟨b.id, ?_, cellById_of_mem h b hb⟩
    rw [getChunk_eq_getD S _ _ h0]
    have hcount := (h.2.2.1 b hb).2.2.2.2 _ hlt b.teamId (h.team_lt b hb)
    unfold bucketAt at hcount
    unfold homeIndex at hcount
    rw [if_pos ⟨rfl, rfl⟩] at hcount
    rw [← List.count_pos_iff, hcount]
    exact Nat.one_pos

theorem exampleSqrt_upper : SqrtUpper exampleSqrt := by
  intro q hq
  unfold exampleSqrt
  constructor
  · linarith
  · nlinarith [mul_self_nonneg (q - 1)]

theorem cellDistance_nonneg (sqrtf : ℚ → ℚ) (hsqrt : SqrtUpper sqrtf) (a b : Cell) :
    0 ≤ cellDistance sqrtf a b :=
  (hsqrt _ (by nlinarith [mul_self_nonneg (b.position.x - a.position.x),
    mul_self_nonneg (b.position.y - a.position.y)])).1

/-- With a range that no distance is below, `findNearestEnemies` returns
`nullptr`, in every world. -/
theorem findNearestEnemies_none_of_le (S : WorldSettings) (sqrtf : ℚ → ℚ) (w : World) (a : Cell)
    (R : ℚ) (hR : ∀ c, R ≤ cellDistance sqrtf a c) : findNearestEnemies S sqrtf w a R = none := by
  unfold findNearestEnemies
  rw [findNearestEnemiesScan_eq]
  rcases considerCell_foldl sqrtf a R (scanOrder S w a R) with ⟨hnone, _⟩ |
    ⟨e, pre, post, hst, hl, hlt, hpre, hpost⟩
  · exact hnone
  · exact absurd hlt (not_lt.2 (hR e))

/-- C13: `findNearestEnemies` finds the true nearest hostile agent. In a
consistent world (all positions in bounds, `inBoundsEx` taken as
`0 ≤ coordinate < numChunks`), for every agent `a` of the registry and every
attack range `R`, with distances measured through a `sqrtf` as in `SqrtUpper`:
the result is `nullptr` exactly when no agent of another team lies at distance
strictly less than `R` from `a`; otherwise the result is an agent of the registry
of another team whose distance is below `R` and at most the distance of every
agent of another team in the whole registry, and it is the first such agent in
scan order (every agent scanned before it is strictly farther); the scanned
square of `ceil(R / pixelsPerChunk)` chunks around the chunk of `a` contains every
agent of another team within distance `R`; and with `R = 0` the result is
`nullptr`. -/
theorem findNearestEnemies_nearest (S : WorldSettings) (sqrtf : ℚ → ℚ) (w : World)
    (h : Consistent S w) (hsqrt : SqrtUpper sqrtf) (a : Cell) (ha : a ∈ w.cells) (R : ℚ) :
    (findNearestEnemies S sqrtf w a R = none ↔
        ∀ b ∈ w.cells, b.teamId ≠ a.teamId → ¬ cellDistance sqrtf a b < R) ∧
      (∀ e, findNearestEnemies S sqrtf w a R = some e →
        e ∈ w.cells ∧ e.teamId ≠ a.teamId ∧ cellDistance sqrtf a e < R ∧
          (∀ b ∈ w.cells, b.teamId ≠ a.teamId →
            cellDistance sqrtf a e ≤ cellDistance sqrtf a b) ∧
          ∃ pre post, scanOrder S w a R = pre ++ e :: post ∧
            ∀ c ∈ pre, cellDistance sqrtf a e < cellDistance sqrtf a c) ∧
      (∀ b ∈ w.cells, b.teamId ≠ a.teamId → cellDistance sqrtf a b < R →
        b ∈ scanOrder S w a R) ∧
      findNearestEnemies S sqrtf w a 0 = none := by
  have hcomplete : ∀ b ∈ w.cells, b.teamId ≠ a.teamId → cellDistance sqrtf a b < R →
      b ∈ scanOrder S w a R :=
    fun b hb hteam hdist => scanOrder_complete h sqrtf hsqrt a (h.bounds a ha) R b hb hteam hdist
  refine ⟨?_, ?_, hcomplete,
    findNearestEnemies_none_of_le S sqrtf w a 0 (fun c => cellDistance_nonneg sqrtf hsqrt a c)⟩
  · unfold findNearestEnemies
    rw [findNearestEnemiesScan_eq]
    rcases considerCell_foldl sqrtf a R (scanOrder S w a R) with ⟨hnone, hall⟩ |
      ⟨e, pre, post, hst, hl, hlt, hpre, hpost⟩
    · refine ⟨fun _ b hb hteam hdist => ?_, fun _ => hnone⟩
      exact absurd hdist (not_lt.2 (hall b (hcomplete b hb hteam hdist)))
    · rw [hst]
      refine ⟨fun hc => by simp at hc, fun hall => ?_⟩
      have he : e ∈ scanOrder S w a R := by rw [hl]; simp
      obtain ⟨hmem, hteam⟩ := scanOrder_sound h a R e he
      exact absurd hlt (hall e hmem hteam)
  · intro e' he'
    unfold findNearestEnemies at he'
    rw [findNearestEnemiesScan_eq] at he'
    rcases considerCell_foldl sqrtf a R (scanOrder S w a R) with ⟨hnone, hall⟩ |
      ⟨e, pre, post, hst, hl, hlt, hpre, hpost⟩
    · rw [hnone] at he'; simp at he'
    · rw [hst] at he'
      have hee : e = e' := by simpa using he'
      subst hee
      have he : e ∈ scanOrder S w a R := by rw [hl]; simp
      obtain ⟨hmem, hteam⟩ := scanOrder_sound h a R e he
      refine ⟨hmem, hteam, hlt, ?_, pre, post, hl, hpre⟩
      intro b hb hbteam
      by_cases hdist : cellDistance sqrtf a b < R
      · have hbs := hcomplete b hb hbteam hdist
        rw [hl] at hbs
        rcases List.mem_append.1 hbs with hx | hx
        · exact (hpre b hx).le
        · rcases List.mem_cons.1 hx with hx | hx
          · rw [hx]
          · exact hpost b hx
      · exact le_trans hlt.le (not_lt.1 hdist)

theorem findNearestEnemies_nearest_witness :
    Consistent combatExampleSettings combatExampleWorld ∧
      combatExampleAttacker ∈ combatExampleWorld.cells ∧
      findNearestEnemies combatExampleSettings exampleSqrt combatExampleWorld
        combatExampleAttacker 3 = some combatExampleDefender ∧
      cellDistance exampleSqrt combatExampleAttacker combatExampleDefender < 3 ∧
      findNearestEnemies combatExampleSettings exampleSqrt combatExampleWorld
        combatExampleAttacker 0 = none :=
  ⟨by decide!, by decide!, by decide!,
    ((findNearestEnemies_nearest combatExampleSettings exampleSqrt combatExampleWorld
      (by decide!) exampleSqrt_upper combatExampleAttacker (by decide!) 3).2.1
        combatExampleDefender (by decide!)).2.2.1,
    (findNearestEnemies_nearest combatExampleSettings exampleSqrt combatExampleWorld
      (by decide!) exampleSqrt_upper combatExampleAttacker (by decide!) 3).2.2.2⟩

/-! ## Consistency through `attackNearby`, and claim C14 -/

theorem bucketAt_congr (chunks chunks' : List Chunk)
    (h : chunks'.map Chunk.cells = chunks.map Chunk.cells) (k t : Nat) :
    bucketAt chunks' k t = bucketAt chunks k t := by
  unfold bucketAt
  have hlen : chunks'.length = chunks.length := by
    have := congrArg List.length h
    simpa using this
  have hcells : (chunks'.getD k default).cells = (chunks.getD k default).cells := by
    by_cases hk : k < chunks.length
    · have hk' : k < chunks'.length := hlen ▸ hk
      have h1 := congrArg (fun l => l[k]?) h
      simp only [List.getElem?_map, List.getElem?_eq_getElem hk,
        List.getElem?_eq_getElem hk', Option.map_some', Option.some.injEq] at h1
      rw [List.getD_eq_getElem _ _ hk, List.getD_eq_getElem _ _ hk']
      exact h1
    · rw [List.getD_eq_default chunks _ (by omega), List.getD_eq_default chunks' _ (by omega)]
  rw [hcells]

/-- Consistency depends only on the identities, teams and positions of the agents
and on the buckets of the chunks. -/
theorem Consistent.of_skeleton {S : WorldSettings} {w w' : World} (h : Consistent S w)
    (hcells : w'.cells.map (fun c => (c.id, c.teamId, c.position)) =
      w.cells.map (fun c => (c.id, c.teamId, c.position)))
    (hchunks : w'.chunks.map Chunk.cells = w.chunks.map Chunk.cells) : Consistent S w' := by
  have hlen : w'.chunks.length = w.chunks.length := by
    have := congrArg List.length hchunks
    simpa using this
  have hback : ∀ c' ∈ w'.cells, ∃ c ∈ w.cells,
      c.id = c'.id ∧ c.teamId = c'.teamId ∧ c.position = c'.position := by
    intro c' hc'
    have : (c'.id, c'.teamId, c'.position) ∈
        w.cells.map (fun c => (c.id, c.teamId, c.position)) := by
      rw [← hcells]; exact List.mem_map.2 ⟨c', hc', rfl⟩
    obtain ⟨c, hc, he⟩ := List.mem_map.1 this
    simp only [Prod.mk.injEq] at he
    exact ⟨c, hc, he.1, he.2.1, he.2.2⟩
  have hforth : ∀ c ∈ w.cells, ∃ c' ∈ w'.cells,
      c.id = c'.id ∧ c.teamId = c'.teamId ∧ c.position = c'.position := by
    intro c hc
    have : (c.id, c.teamId, c.position) ∈
        w'.cells.map (fun c => (c.id, c.teamId, c.position)) := by
      rw [hcells]; exact List.mem_map.2 ⟨c, hc, rfl⟩
    obtain ⟨c', hc', he⟩ := List.mem_map.1 this
    simp only [Prod.mk.injEq] at he
    exact ⟨c', hc', he.1.symm, he.2.1.symm, he.2.2.symm⟩
  refine ⟨⟨h.1.1, h.1.2.1, h.1.2.2.1, by rw [hlen]; exact h.1.2.2.2.1, ?_⟩, ?_, ?_, ?_⟩
  · intro ch' hch'
    have : ch'.cells ∈ w.chunks.map Chunk.cells := by
      rw [← hchunks]; exact List.mem_map.2 ⟨ch', hch', rfl⟩
    obtain ⟨ch, hch, he⟩ := List.mem_map.1 this
    rw [← he]; exact h.1.2.2.2.2 ch hch
  · have h1 : w'.cells.map Cell.id =
        (w'.cells.map (fun c => (c.id, c.teamId, c.position))).map Prod.fst := by
      rw [List.map_map]; rfl
    have h2 : w.cells.map Cell.id =
        (w.cells.map (fun c => (c.id, c.teamId, c.position))).map Prod.fst := by
      rw [List.map_map]; rfl
    rw [h1, hcells, ← h2]; exact h.2.1
  · intro c' hc'
    obtain ⟨c, hc, hid, hteam, hpos⟩ := hback c' hc'
    obtain ⟨hb, h0, hlt, ht, hcount⟩ := h.2.2.1 c hc
    have hhome : homeIndex S c' = homeIndex S c := by unfold homeIndex; rw [hpos]
    refine ⟨by rw [← hpos]; exact hb, by rw [hhome]; exact h0, by rw [hhome, hlen]; exact hlt,
      by rw [← hteam]; exact ht, ?_⟩
    intro k hk t ht'
    rw [bucketAt_congr _ _ hchunks, hhome, ← hid, ← hteam]
    exact hcount k (hlen ▸ hk) t ht'
  · intro k hk t ht i hi
    rw [bucketAt_congr _ _ hchunks] at hi
    obtain ⟨c, hc, hid⟩ := h.2.2.2 k (hlen ▸ hk) t ht i hi
    obtain ⟨c', hc', hid', _, _⟩ := hforth c hc
    exact ⟨c', hc', by rw [← hid', hid]⟩

/-- A map over the registry that keeps identity, team and position of every
agent keeps the world consistent. -/
theorem Consistent.map_cells {S : WorldSettings} {w : World} (h : Consistent S w)
    (f : Cell → Cell) (hf : ∀ c, (f c).id = c.id ∧ (f c).teamId = c.teamId ∧
      (f c).position = c.position) (t : ℚ) :
    Consistent S ⟨w.cells.map f, w.chunks, t⟩ := by
  apply h.of_skeleton
  · simp only [List.map_map]
    apply List.map_congr_left
    intro c _
    simp only [Function.comp, (hf c).1, (hf c).2.1, (hf c).2.2]
  · rfl

theorem attackStep_cells (S : WorldSettings) (sqrtf : ℚ → ℚ) (delta : ℚ) (w : World) (i : Nat) :
    ∃ f : Cell → Cell, (∀ c, (f c).id = c.id ∧ (f c).teamId = c.teamId ∧
        (f c).position = c.position ∧ (f c).supply = c.supply ∧ (f c).velocity = c.velocity ∧
        (f c).strength = c.strength ∧ (f c).lastBirth = c.lastBirth) ∧
      attackStep S sqrtf delta w i = ⟨w.cells.map f, w.chunks, w.worldTime⟩ := by
  unfold attackStep
  cases hc : w.cells[i]? with
  | none => exact ⟨id, fun c => ⟨rfl, rfl, rfl, rfl, rfl, rfl, rfl⟩, by simp⟩
  | some c =>
    dsimp only
    cases he : findNearestEnemies S sqrtf w c S.cellAttackRange with
    | none => exact ⟨id, fun c => ⟨rfl, rfl, rfl, rfl, rfl, rfl, rfl⟩, by simp⟩
    | some e =>
      dsimp only
      refine ⟨_, ?_, rfl⟩
      intro x
      by_cases hx : x.id = e.id
      · rw [if_pos hx]; exact ⟨rfl, rfl, rfl, rfl, rfl, rfl, rfl⟩
      · rw [if_neg hx]; exact ⟨rfl, rfl, rfl, rfl, rfl, rfl, rfl⟩

theorem attackStep_consistent (S : WorldSettings) (sqrtf : ℚ → ℚ) (delta : ℚ) (w : World)
    (i : Nat) (h : Consistent S w) : Consistent S (attackStep S sqrtf delta w i) := by
  obtain ⟨f, hf, heq⟩ := attackStep_cells S sqrtf delta w i
  rw [heq]
  exact h.map_cells f (fun c => ⟨(hf c).1, (hf c).2.1, (hf c).2.2.1⟩) _

theorem attackStep_length (S : WorldSettings) (sqrtf : ℚ → ℚ) (delta : ℚ) (w : World)
    (i : Nat) : (attackStep S sqrtf delta w i).cells.length = w.cells.length := by
  obtain ⟨f, _, heq⟩ := attackStep_cells S sqrtf delta w i
  rw [heq]; exact List.length_map _ _

theorem attackLoop_succ (S : WorldSettings) (sqrtf : ℚ → ℚ) (delta : ℚ) (n : Nat) (w : World) :
    attackLoop S sqrtf delta (n + 1) w =
      attackStep S sqrtf delta (attackLoop S sqrtf delta n w) n := by
  unfold attackLoop
  rw [List.range_succ, List.foldl_append, List.foldl_cons, List.foldl_nil]

theorem attackLoop_consistent (S : WorldSettings) (sqrtf : ℚ → ℚ) (delta : ℚ) (n : Nat)
    (w : World) (h : Consistent S w) : Consistent S (attackLoop S sqrtf delta n w) := by
  induction n with
  | zero => exact h
  | succ n ih => rw [attackLoop_succ]; exact attackStep_consistent S sqrtf delta _ n ih

theorem attackNearby_consistent (S : WorldSettings) (sqrtf : ℚ → ℚ) (delta : ℚ) (w : World)
    (h : Consistent S w) : Consistent S (attackNearby S sqrtf delta w) :=
  deleteDeadCells_consistent S _ (attackLoop_consistent S sqrtf delta _ w h)

/-- A target returned by `findNearestEnemies` in a consistent world is an agent of
the registry of another team. -/
theorem findNearestEnemies_some_mem {S : WorldSettings} {w : World} (h : Consistent S w)
    (sqrtf : ℚ → ℚ) (a : Cell) (R : ℚ) (e : Cell)
    (he : findNearestEnemies S sqrtf w a R = some e) : e ∈ w.cells ∧ e.teamId ≠ a.teamId := by
  unfold findNearestEnemies at he
  rw [findNearestEnemiesScan_eq] at he
  rcases considerCell_foldl sqrtf a R (scanOrder S w a R) with ⟨hnone, _⟩ |
    ⟨e', pre, post, hst, hl, _, _, _⟩
  · rw [hnone] at he; simp at he
  · rw [hst] at he
    have hee : e' = e := by simpa using he
    subst hee
    exact scanOrder_sound h a R e' (by rw [hl]; simp)

/-- C14: combat damage in `attackNearby`. In a consistent world, when the loop
reaches the attacker `c` at registry position `i` and `findNearestEnemies` gives
it the target `enemy`, the iteration replaces the target by itself with health
`max(0, health - elapsed * attacker.strength / target.strength)` and changes
nothing else: no other field of the target, no other agent (the attacker stays
as it is), no chunk. For an attacker and a target of equal non-zero strength the
new health is `max(0, health - elapsed)`: the damage equals `elapsed`, floored at
health zero. `attackNearby` is this loop over the registry followed by
`deleteDeadCells`. -/
theorem attackNearby_damage (S : WorldSettings) (sqrtf : ℚ → ℚ) (elapsed : ℚ) (w : World)
    (h : Consistent S w) (i : Nat) (c enemy : Cell)
    (hc : (attackLoop S sqrtf elapsed i w).cells[i]? = some c)
    (htarget : findNearestEnemies S sqrtf (attackLoop S sqrtf elapsed i w) c S.cellAttackRange =
      some enemy) :
    (attackLoop S sqrtf elapsed (i + 1) w).cells =
        (attackLoop S sqrtf elapsed i w).cells.map (fun x =>
          if x = enemy then
            { enemy with
              health := max 0 (enemy.health - elapsed * c.strength / enemy.strength) }
          else x) ∧
      (attackLoop S sqrtf elapsed (i + 1) w).chunks = (attackLoop S sqrtf elapsed i w).chunks ∧
      (attackLoop S sqrtf elapsed (i + 1) w).cells[i]? = some c ∧
      (c.strength = enemy.strength → enemy.strength ≠ 0 →
        max 0 (enemy.health - elapsed * c.strength / enemy.strength) =
          max 0 (enemy.health - elapsed)) ∧
      attackNearby S sqrtf elapsed w =
        deleteDeadCells S (attackLoop S sqrtf elapsed w.cells.length w) := by
  have hcons := attackLoop_consistent S sqrtf elapsed i w h
  obtain ⟨hemem, heteam⟩ := findNearestEnemies_some_mem hcons sqrtf c _ enemy htarget
  have hcmem : c ∈ (attackLoop S sqrtf elapsed i w).cells := List.getElem?_mem hc
  have hstep : attackStep S sqrtf elapsed (attackLoop S sqrtf elapsed i w) i =
      { attackLoop S sqrtf elapsed i w with
        cells := (attackLoop S sqrtf elapsed i w).cells.map fun x =>
          if x.id = enemy.id then
            { x with
              health :=
                if enemy.health - elapsed * (c.strength / enemy.strength) < 0 then 0
                else enemy.health - elapsed * (c.strength / enemy.strength) }
          else x } := by
    unfold attackStep
    rw [hc]
    dsimp only
    rw [htarget]
  have hmax : (if enemy.health - elapsed * (c.strength / enemy.strength) < 0 then 0
      else enemy.health - elapsed * (c.strength / enemy.strength)) =
      max 0 (enemy.health - elapsed * c.strength / enemy.strength) := by
    rw [mul_div_assoc]
    by_cases hneg : enemy.health - elapsed * (c.strength / enemy.strength) < 0
    · rw [if_pos hneg, max_eq_left hneg.le]
    · rw [if_neg hneg, max_eq_right (not_lt.1 hneg)]
  have hcells : (attackLoop S sqrtf elapsed (i + 1) w).cells =
      (attackLoop S sqrtf elapsed i w).cells.map (fun x =>
        if x = enemy then
          { enemy with
            health := max 0 (enemy.health - elapsed * c.strength / enemy.strength) }
        else x) := by
    rw [attackLoop_succ, hstep]
    dsimp only
    apply List.map_congr_left
    intro x hx
    by_cases hxe : x = enemy
    · rw [if_pos hxe, if_pos (by rw [hxe]), hmax, hxe]
    · rw [if_neg hxe, if_neg (fun hid => hxe (id_injOn hcons x enemy hx hemem hid))]
  refine ⟨hcells, ?_, ?_, ?_, rfl⟩
  · rw [attackLoop_succ, hstep]
  · rw [hcells, List.getElem?_map, hc]
    have hne : c ≠ enemy := fun hce => heteam (by rw [hce])
    simp only [Option.map_some', if_neg hne]
  · intro hs h0
    rw [hs, mul_div_assoc, div_self h0, mul_one]

theorem attackNearby_damage_witness :
    Consistent combatExampleSettings combatExampleWorld ∧
      (attackLoop combatExampleSettings exampleSqrt (1 / 4) 1 combatExampleWorld).cells =
        [combatExampleAttacker, { combatExampleDefender with health := 3 / 4 }] ∧
      (attackNearby combatExampleSettings exampleSqrt (1 / 4) combatExampleWorld).cells =
        [{ combatExampleAttacker with health := 3 / 4 },
          { combatExampleDefender with health := 3 / 4 }] :=
  ⟨by decide!,
    ((attackNearby_damage combatExampleSettings exampleSqrt (1 / 4) combatExampleWorld
      (by decide!) 0 combatExampleAttacker combatExampleDefender (by decide!) (by decide!)).1).trans
        (by decide!),
    by decide!⟩

/-! ## Consistency through one call of `step` -/

theorem modifyChunk_buckets_eq (S : WorldSettings) (chunks : List Chunk) (p : Vec2i)
    (f : Chunk → Chunk) (hf : ∀ c, (f c).cells = c.cells) :
    (modifyChunk S chunks p f).map Chunk.cells = chunks.map Chunk.cells := by
  unfold modifyChunk
  split_ifs
  · apply List.ext_getElem?
    intro m
    simp only [List.getElem?_map, List.getElem?_modify]
    cases chunks[m]? with
    | none => rfl
    | some c =>
      simp only [Option.map_some', Option.some.injEq]
      split_ifs
      · exact congrArg some (hf c)
      · rfl
  · rfl

theorem foldl_modifyChunk_buckets_eq {α : Type} (S : WorldSettings) (pos : α → Vec2i)
    (f : α → Chunk → Chunk) (hf : ∀ a c, (f a c).cells = c.cells) :
    ∀ (l : List α) (chunks : List Chunk),
      (l.foldl (fun chunks a => modifyChunk S chunks (pos a) (f a)) chunks).map Chunk.cells =
        chunks.map Chunk.cells := by
  intro l
  induction l with
  | nil => intro chunks; rfl
  | cons a l ih =>
    intro chunks
    rw [List.foldl_cons, ih, modifyChunk_buckets_eq S chunks (pos a) (f a) (hf a)]

theorem updateTerritoriesChunk_cells (numTeams : Nat) (delta : ℚ) (chunk : Chunk) :
    (updateTerritoriesChunk numTeams delta chunk).cells = chunk.cells := by
  unfold updateTerritoriesChunk
  split_ifs <;> rfl

theorem updateTerritories_consistent (S : WorldSettings) (delta : ℚ) (w : World)
    (h : Consistent S w) : Consistent S (updateTerritories S delta w) := by
  apply h.of_skeleton
  · rfl
  · unfold updateTerritories
    exact foldl_modifyChunk_buckets_eq S (fun p => p)
      (fun _ => updateTerritoriesChunk S.numTeams delta)
      (fun _ c => updateTerritoriesChunk_cells _ _ c) _ _

theorem updateChunkSupply_consistent (S : WorldSettings) (owner : Chunk → Int) (delta : ℚ)
    (w : World) (h : Consistent S w) : Consistent S (updateChunkSupply S owner delta w) := by
  apply h.of_skeleton
  · rfl
  · unfold updateChunkSupply updateChunkSupplyIn applyPass
    refine foldl_modifyChunk_buckets_eq S (fun p => p) _ ?_ _ _
    intro _ _
    rfl

theorem updateCellSupplyCell_skeleton (S : WorldSettings) (owner : Chunk → Int) (delta : ℚ)
    (cell : Cell) (chunks : List Chunk) :
    ((updateCellSupplyCell S owner delta cell chunks).1.id = cell.id ∧
        (updateCellSupplyCell S owner delta cell chunks).1.teamId = cell.teamId ∧
        (updateCellSupplyCell S owner delta cell chunks).1.position = cell.position ∧
        (updateCellSupplyCell S owner delta cell chunks).1.velocity = cell.velocity ∧
        (updateCellSupplyCell S owner delta cell chunks).1.lastBirth = cell.lastBirth) ∧
      (updateCellSupplyCell S owner delta cell chunks).2.map Chunk.cells =
        chunks.map Chunk.cells := by
  unfold updateCellSupplyCell
  by_cases h : owner (getChunk S chunks (worldToChunkPos S cell.position)) ≠ (cell.teamId : Int)
  · rw [if_pos h]
    exact ⟨⟨rfl, rfl, rfl, rfl, rfl⟩, rfl⟩
  · rw [if_neg h]
    exact ⟨⟨rfl, rfl, rfl, rfl, rfl⟩, modifyChunk_buckets_eq S chunks _ _ (fun _ => rfl)⟩

theorem updateCellSupplyLoop_skeleton (S : WorldSettings) (owner : Chunk → Int) (delta : ℚ) :
    ∀ (cells : List Cell) (chunks : List Chunk),
      (updateCellSupplyLoop S owner delta cells chunks).1.map
          (fun c => (c.id, c.teamId, c.position)) =
        cells.map (fun c => (c.id, c.teamId, c.position)) ∧
      (updateCellSupplyLoop S owner delta cells chunks).2.map Chunk.cells =
        chunks.map Chunk.cells := by
  intro cells
  induction cells with
  | nil => intro chunks; exact ⟨rfl, rfl⟩
  | cons c rest ih =>
    intro chunks
    unfold updateCellSupplyLoop
    obtain ⟨⟨h1, h2, h3, _, _⟩, h4⟩ := updateCellSupplyCell_skeleton S owner delta c chunks
    obtain ⟨i1, i2⟩ := ih (updateCellSupplyCell S owner delta c chunks).2
    refine ⟨?_, by rw [i2, h4]⟩
    simp only [List.map_cons]
    rw [i1, h1, h2, h3]

theorem updateCellSupply_consistent (S : WorldSettings) (owner : Chunk → Int) (delta : ℚ)
    (w : World) (h : Consistent S w) : Consistent S (updateCellSupply S owner delta w) := by
  unfold updateCellSupply
  apply deleteDeadCells_consistent
  obtain ⟨h1, h2⟩ := updateCellSupplyLoop_skeleton S owner delta w.cells w.chunks
  exact h.of_skeleton h1 h2

theorem updateVelocities_consistent (S : WorldSettings) (sqrtf : ℚ → ℚ) (delta : ℚ) (w : World)
    (h : Consistent S w) : Consistent S (updateVelocities S sqrtf delta w) :=
  h.map_cells (updateVelocity S sqrtf delta w.chunks) (fun _ => ⟨rfl, rfl, rfl⟩) _

theorem beforeSpawn_consistent (S : WorldSettings) (hb : BoundInside S) (owner : Chunk → Int)
    (sqrtf : ℚ → ℚ) (delta : ℚ) (w : World) (h : Consistent S w) :
    Consistent S (beforeSpawn S owner sqrtf delta w) := by
  unfold beforeSpawn
  have h0 : Consistent S { w with worldTime := w.worldTime + delta } :=
    h.of_skeleton rfl rfl
  exact attackNearby_consistent S sqrtf delta _
    (updatePositions_consistent S hb delta _
      (updateVelocities_consistent S sqrtf delta _
        (updateCellSupply_consistent S owner delta _
          (updateChunkSupply_consistent S owner delta _
            (updateTerritories_consistent S delta _ h0)))))

/-- When the upper bounds of the code lie inside the world, one call of `step`
keeps a consistent world consistent. -/
theorem step_consistent (S : WorldSettings) (hb : BoundInside S) (owner : Chunk → Int)
    (sqrtf : ℚ → ℚ) (birth0 delta : ℚ) (rng : Nat → SpawnDraw) (w : World)
    (h : Consistent S w) : Consistent S (step S owner sqrtf birth0 delta rng w) :=
  spawnChildren_consistent S hb birth0 rng _
    (beforeSpawn_consistent S hb owner sqrtf delta w h)

/-! ## Supply below `2` along calls of `step`: claim C18 -/

/-- For `delta ≥ 0` the body of `updateCellSupply` keeps the supply of an agent
below `2`: the exchange caps it at `2` and gives nothing when `delta = 0`, and
the passive loss is positive when `delta > 0`. -/
theorem updateCellSupplyCell_supply_lt (S : WorldSettings) (owner : Chunk → Int) (delta : ℚ)
    (hdelta : 0 ≤ delta) (cell : Cell) (chunks : List Chunk) (hcell : cell.supply < 2) :
    (updateCellSupplyCell S owner delta cell chunks).1.supply < 2 := by
  unfold updateCellSupplyCell
  by_cases h : owner (getChunk S chunks (worldToChunkPos S cell.position)) ≠ (cell.teamId : Int)
  · rw [if_pos h]; exact hcell
  · rw [if_neg h]
    dsimp only
    have ht : supplyExchange delta cell.supply
        (getChunk S chunks (worldToChunkPos S cell.position)).supply ≤ 2 - cell.supply :=
      min_le_right _ _
    have ht2 : supplyExchange delta cell.supply
        (getChunk S chunks (worldToChunkPos S cell.position)).supply ≤
        delta * (1 / (3 / 10 * cell.supply + 1)) :=
      le_trans (min_le_left _ _) (min_le_left _ _)
    rcases eq_or_lt_of_le hdelta with h0 | hpos
    · rw [← h0] at ht2 ⊢
      rw [zero_mul] at ht2
      linarith
    · linarith

theorem updateCellSupplyLoop_mem (S : WorldSettings) (owner : Chunk → Int) (delta : ℚ) :
    ∀ (cells : List Cell) (chunks : List Chunk),
      ∀ a ∈ (updateCellSupplyLoop S owner delta cells chunks).1,
        ∃ c ∈ cells, ∃ ch, a = (updateCellSupplyCell S owner delta c ch).1 := by
  intro cells
  induction cells with
  | nil => intro chunks a ha; simp [updateCellSupplyLoop] at ha
  | cons c rest ih =>
    intro chunks a ha
    unfold updateCellSupplyLoop at ha
    rcases List.mem_cons.1 ha with rfl | ha
    · exact ⟨c, List.mem_cons_self _ _, chunks, rfl⟩
    · obtain ⟨c', hc', ch, hch⟩ := ih _ a ha
      exact ⟨c', List.mem_cons_of_mem _ hc', ch, hch⟩

theorem updateCellSupplyLoop_length (S : WorldSettings) (owner : Chunk → Int) (delta : ℚ)
    (cells : List Cell) (chunks : List Chunk) :
    (updateCellSupplyLoop S owner delta cells chunks).1.length = cells.length := by
  have := congrArg List.length (updateCellSupplyLoop_skeleton S owner delta cells chunks).1
  simpa using this

/-- Every agent left by `updateCellSupply` is the result of the loop body on an
agent of the registry. -/
theorem updateCellSupply_mem (S : WorldSettings) (owner : Chunk → Int) (delta : ℚ) (w : World) :
    ∀ a ∈ (updateCellSupply S owner delta w).cells,
      ∃ c ∈ w.cells, ∃ ch, a = (updateCellSupplyCell S owner delta c ch).1 := by
  intro a ha
  have hsub := (deleteDeadCells_cells_sublist S
    { w with
      cells := (updateCellSupplyLoop S owner delta w.cells w.chunks).1
      chunks := (updateCellSupplyLoop S owner delta w.cells w.chunks).2 }).subset ha
  exact updateCellSupplyLoop_mem S owner delta w.cells w.chunks a hsub

theorem updateCellSupply_length_le (S : WorldSettings) (owner : Chunk → Int) (delta : ℚ)
    (w : World) : (updateCellSupply S owner delta w).cells.length ≤ w.cells.length := by
  have hsub := (deleteDeadCells_cells_sublist S
    { w with
      cells := (updateCellSupplyLoop S owner delta w.cells w.chunks).1
      chunks := (updateCellSupplyLoop S owner delta w.cells w.chunks).2 }).length_le
  rw [updateCellSupplyLoop_length] at hsub
  exact hsub

theorem updatePositions_cells (S : WorldSettings) (delta : ℚ) (w : World) :
    (updatePositions S delta w).cells = w.cells.map (positionSpec S delta) :=
  updatePositionsLoop_fst S delta w.cells w.chunks

theorem attackLoop_cells (S : WorldSettings) (sqrtf : ℚ → ℚ) (delta : ℚ) (n : Nat) (w : World) :
    ∃ f : Cell → Cell, (∀ c, (f c).id = c.id ∧ (f c).teamId = c.teamId ∧
        (f c).position = c.position ∧ (f c).supply = c.supply ∧ (f c).velocity = c.velocity ∧
        (f c).strength = c.strength ∧ (f c).lastBirth = c.lastBirth) ∧
      attackLoop S sqrtf delta n w = ⟨w.cells.map f, w.chunks, w.worldTime⟩ := by
  induction n with
  | zero => exact ⟨id, fun c => ⟨rfl, rfl, rfl, rfl, rfl, rfl, rfl⟩, by simp [attackLoop]⟩
  | succ n ih =>
    obtain ⟨f, hf, hloop⟩ := ih
    obtain ⟨g, hg, hstep⟩ := attackStep_cells S sqrtf delta (attackLoop S sqrtf delta n w) n
    refine ⟨g ∘ f, ?_, ?_⟩
    · intro c
      obtain ⟨f1, f2, f3, f4, f5, f6, f7⟩ := hf c
      obtain ⟨g1, g2, g3, g4, g5, g6, g7⟩ := hg (f c)
      simp only [Function.comp]
      exact ⟨g1.trans f1, g2.trans f2, g3.trans f3, g4.trans f4, g5.trans f5, g6.trans f6,
        g7.trans f7⟩
    · rw [attackLoop_succ, hstep, hloop]
      simp only [List.map_map]

/-- Every agent left by `attackNearby` is an agent of the registry with at most
its health changed. -/
theorem attackNearby_mem (S : WorldSettings) (sqrtf : ℚ → ℚ) (delta : ℚ) (w : World) :
    ∀ a ∈ (attackNearby S sqrtf delta w).cells,
      ∃ c ∈ w.cells, a.id = c.id ∧ a.teamId = c.teamId ∧ a.position = c.position ∧
        a.supply = c.supply ∧ a.velocity = c.velocity ∧ a.strength = c.strength ∧
        a.lastBirth = c.lastBirth := by
  intro a ha
  unfold attackNearby at ha
  have hsub := (deleteDeadCells_cells_sublist S _).subset ha
  obtain ⟨f, hf, hloop⟩ := attackLoop_cells S sqrtf delta w.cells.length w
  rw [hloop] at hsub
  obtain ⟨c, hc, rfl⟩ := List.mem_map.1 hsub
  exact ⟨c, hc, hf c⟩

theorem attackNearby_length_le (S : WorldSettings) (sqrtf : ℚ → ℚ) (delta : ℚ) (w : World) :
    (attackNearby S sqrtf delta w).cells.length ≤ w.cells.length := by
  unfold attackNearby
  have hsub := (deleteDeadCells_cells_sublist S
    (attackLoop S sqrtf delta w.cells.length w)).length_le
  obtain ⟨f, _, hloop⟩ := attackLoop_cells S sqrtf delta w.cells.length w
  rw [hloop] at hsub ⊢
  simpa using hsub

/-- Every agent on which `spawnChildren` runs in a call of `step` comes from an
agent of the world before the call through the body of `updateCellSupply`; the
later passes keep its supply and last birth. -/
theorem beforeSpawn_mem (S : WorldSettings) (owner : Chunk → Int) (sqrtf : ℚ → ℚ) (delta : ℚ)
    (w : World) :
    ∀ a ∈ (beforeSpawn S owner sqrtf delta w).cells,
      ∃ c ∈ w.cells, ∃ ch, a.id = c.id ∧
        a.supply = (updateCellSupplyCell S owner delta c ch).1.supply ∧
        a.lastBirth = c.lastBirth := by
  intro a ha
  unfold beforeSpawn at ha
  obtain ⟨a1, ha1, hid1, _, _, hs1, _, _, hb1⟩ := attackNearby_mem S sqrtf delta _ a ha
  rw [updatePositions_cells] at ha1
  obtain ⟨a2, ha2, rfl⟩ := List.mem_map.1 ha1
  obtain ⟨a3, ha3, rfl⟩ := List.mem_map.1 ha2
  obtain ⟨c, hc, ch, rfl⟩ := updateCellSupply_mem S owner delta _ a3 ha3
  refine ⟨c, hc, ch, ?_, hs1, ?_⟩
  · rw [hid1]
    exact (updateCellSupplyCell_skeleton S owner delta c ch).1.1
  · rw [hb1]
    exact (updateCellSupplyCell_skeleton S owner delta c ch).1.2.2.2.2

theorem beforeSpawn_length_le (S : WorldSettings) (owner : Chunk → Int) (sqrtf : ℚ → ℚ)
    (delta : ℚ) (w : World) :
    (beforeSpawn S owner sqrtf delta w).cells.length ≤ w.cells.length := by
  unfold beforeSpawn
  refine le_trans (attackNearby_length_le S sqrtf delta _) ?_
  rw [updatePositions_cells, List.length_map]
  unfold updateVelocities
  rw [List.length_map]
  exact updateCellSupply_length_le S owner delta _

theorem deleteCell_worldTime (S : WorldSettings) (w : World) (it : Nat) :
    (deleteCell S w it).worldTime = w.worldTime := by
  unfold deleteCell
  cases w.cells[it]? <;> rfl

theorem deleteDeadCellsFrom_worldTime (S : WorldSettings) :
    ∀ (fuel it : Nat) (w : World), (deleteDeadCellsFrom S fuel it w).worldTime = w.worldTime := by
  intro fuel
  induction fuel with
  | zero => intro it w; rfl
  | succ fuel ih =>
    intro it w
    unfold deleteDeadCellsFrom
    cases hc : w.cells[it]? with
    | none => rfl
    | some c =>
      dsimp only
      by_cases hh : c.health ≤ 0
      · rw [if_pos hh, ih]
        unfold deleteCell
        rw [hc]
      · rw [if_neg hh, ih]

theorem deleteDeadCells_worldTime (S : WorldSettings) (w : World) :
    (deleteDeadCells S w).worldTime = w.worldTime :=
  deleteDeadCellsFrom_worldTime S _ 0 w

theorem beforeSpawn_worldTime (S : WorldSettings) (owner : Chunk → Int) (sqrtf : ℚ → ℚ)
    (delta : ℚ) (w : World) :
    (beforeSpawn S owner sqrtf delta w).worldTime = w.worldTime + delta := by
  unfold beforeSpawn attackNearby
  rw [deleteDeadCells_worldTime]
  obtain ⟨f, _, hloop⟩ := attackLoop_cells S sqrtf delta
    (updatePositions S delta (updateVelocities S sqrtf delta (updateCellSupply S owner delta
      (updateChunkSupply S owner delta (updateTerritories S delta
        { w with worldTime := w.worldTime + delta }))))).cells.length
    (updatePositions S delta (updateVelocities S sqrtf delta (updateCellSupply S owner delta
      (updateChunkSupply S owner delta (updateTerritories S delta
        { w with worldTime := w.worldTime + delta })))))
  rw [hloop]
  show (updateCellSupply S owner delta _).worldTime = _
  unfold updateCellSupply
  rw [deleteDeadCells_worldTime]
  rfl

theorem childrenOf_nil_of_not_eligible (S : WorldSettings) (birth0 t : ℚ) :
    ∀ (l : List Cell) (firstId : Nat) (rng : Nat → SpawnDraw),
      (∀ c ∈ l, ¬ isEligible t c) → childrenOf S birth0 t firstId rng l = [] := by
  intro l firstId rng h
  apply List.eq_nil_of_length_eq_zero
  rw [childrenOf_length, List.length_eq_zero, List.filter_eq_nil_iff]
  intro c hc
  simpa using h c hc

/-- Without an eligible agent `spawnChildren` changes nothing. -/
theorem spawnChildren_of_not_eligible (S : WorldSettings) (birth0 : ℚ) (rng : Nat → SpawnDraw)
    (w : World) (h : ∀ c ∈ w.cells, ¬ isEligible w.worldTime c) :
    spawnChildren S birth0 rng w = w := by
  rw [spawnChildren_eq_spec]
  unfold spawnSpec
  rw [childrenOf_nil_of_not_eligible S birth0 _ _ _ _ h]
  have hmap : (w.cells.map fun c =>
      if isEligible w.worldTime c then parentAfterBirth w.worldTime c else c) = w.cells := by
    conv_rhs => rw [← List.map_id w.cells]
    apply List.map_congr_left
    intro c hc
    rw [if_neg (h c hc)]; rfl
  rw [hmap]
  simp [pushChildren]

theorem not_eligible_of_supply_lt (t : ℚ) (c : Cell) (h : c.supply < 2) : ¬ isEligible t c :=
  fun he => absurd he.1 (not_le.2 h)

theorem beforeSpawn_supply_lt (S : WorldSettings) (owner : Chunk → Int) (sqrtf : ℚ → ℚ)
    (delta : ℚ) (hdelta : 0 ≤ delta) (w : World) (h : ∀ c ∈ w.cells, c.supply < 2) :
    ∀ a ∈ (beforeSpawn S owner sqrtf delta w).cells, a.supply < 2 := by
  intro a ha
  obtain ⟨c, hc, ch, _, hs, _⟩ := beforeSpawn_mem S owner sqrtf delta w a ha
  rw [hs]
  exact updateCellSupplyCell_supply_lt S owner delta hdelta c ch (h c hc)

theorem step_of_supply_lt (S : WorldSettings) (owner : Chunk → Int) (sqrtf : ℚ → ℚ)
    (birth0 delta : ℚ) (hdelta : 0 ≤ delta) (rng : Nat → SpawnDraw) (w : World)
    (h : ∀ c ∈ w.cells, c.supply < 2) :
    step S owner sqrtf birth0 delta rng w = beforeSpawn S owner sqrtf delta w :=
  spawnChildren_of_not_eligible S birth0 rng _ (fun c hc =>
    not_eligible_of_supply_lt _ c (beforeSpawn_supply_lt S owner sqrtf delta hdelta w h c hc))

theorem steps_supply_lt (S : WorldSettings) (owner : Chunk → Int) (sqrtf : ℚ → ℚ) (birth0 : ℚ) :
    ∀ (calls : List (ℚ × (Nat → SpawnDraw))) (w : World), (∀ call ∈ calls, 0 ≤ call.1) →
      (∀ c ∈ w.cells, c.supply < 2) →
      (∀ c ∈ (steps S owner sqrtf birth0 calls w).cells, c.supply < 2) ∧
        (steps S owner sqrtf birth0 calls w).cells.length ≤ w.cells.length := by
  intro calls
  induction calls with
  | nil => intro w _ h; exact ⟨h, le_refl _⟩
  | cons call calls ih =>
    intro w hcalls h
    have hd := hcalls call (List.mem_cons_self _ _)
    have hstep := step_of_supply_lt S owner sqrtf birth0 call.1 hd call.2 w h
    have hinv : ∀ c ∈ (step S owner sqrtf birth0 call.1 call.2 w).cells, c.supply < 2 := by
      rw [hstep]; exact beforeSpawn_supply_lt S owner sqrtf call.1 hd w h
    obtain ⟨i1, i2⟩ := ih (step S owner sqrtf birth0 call.1 call.2 w)
      (fun c hc => hcalls c (List.mem_cons_of_mem _ hc)) hinv
    have hcons : steps S owner sqrtf birth0 (call :: calls) w =
        steps S owner sqrtf birth0 calls (step S owner sqrtf birth0 call.1 call.2 w) := by
      unfold steps; rw [List.foldl_cons]
    rw [hcons]
    refine ⟨i1, le_trans i2 ?_⟩
    rw [hstep]
    exact beforeSpawn_length_le S owner sqrtf call.1 w

theorem steps_append (S : WorldSettings) (owner : Chunk → Int) (sqrtf : ℚ → ℚ) (birth0 : ℚ)
    (calls more : List (ℚ × (Nat → SpawnDraw))) (w : World) :
    steps S owner sqrtf birth0 (calls ++ more) w =
      steps S owner sqrtf birth0 more (steps S owner sqrtf birth0 calls w) := by
  unfold steps; rw [List.foldl_append]

theorem constructCells_mem (birth0 : ℚ) (numTeams n : Nat) (spawnRadius : ℚ)
    (spawns : List Vec2f) (rng : Nat → SpawnDraw) (c : Cell)
    (hc : c ∈ constructCells birth0 numTeams n spawnRadius spawns rng) :
    ∃ id team spawn k, c = initialCell birth0 id team spawnRadius spawn (rng k) := by
  unfold constructCells at hc
  simp only [List.mem_flatMap, List.mem_map, List.mem_range] at hc
  obtain ⟨team, _, i, _, hi⟩ := hc
  exact ⟨team * n + i + 1, team, spawns.getD team ⟨0, 0⟩, team * n + i, hi.symm⟩

/-- C18: in exact arithmetic, "every agent has supply strictly below `2`" is an
invariant of every state reachable from construction by calls of `step` with
`elapsed ≥ 0`. The agents built by the constructor have supply `1`. One call of
`step` with `elapsed ≥ 0` on a world where every supply is below `2` leaves every
supply below `2`, finds no eligible agent when `spawnChildren` runs, and does not
increase the number of agents. Hence in every state reached from a constructed
registry by a sequence of such calls every supply is below `2`, and further calls
never increase the number of agents. -/
theorem supply_lt_two_invariant (S : WorldSettings) (owner : Chunk → Int) (sqrtf : ℚ → ℚ)
    (birth0 : ℚ) :
    (∀ (numTeams n : Nat) (spawnRadius : ℚ) (spawns : List Vec2f) (rng0 : Nat → SpawnDraw),
        ∀ c ∈ constructCells birth0 numTeams n spawnRadius spawns rng0, c.supply = 1) ∧
      (∀ (w : World) (elapsed : ℚ) (rng : Nat → SpawnDraw), 0 ≤ elapsed →
        (∀ c ∈ w.cells, c.supply < 2) →
        (∀ c ∈ (step S owner sqrtf birth0 elapsed rng w).cells, c.supply < 2) ∧
          (∀ c ∈ (beforeSpawn S owner sqrtf elapsed w).cells,
            ¬ isEligible (beforeSpawn S owner sqrtf elapsed w).worldTime c) ∧
          (step S owner sqrtf birth0 elapsed rng w).cells.length ≤ w.cells.length) ∧
      (∀ (numTeams n : Nat) (spawnRadius : ℚ) (spawns : List Vec2f) (rng0 : Nat → SpawnDraw) (w0 : World)
          (calls more : List (ℚ × (Nat → SpawnDraw))),
        w0.cells = constructCells birth0 numTeams n spawnRadius spawns rng0 →
        (∀ call ∈ calls ++ more, 0 ≤ call.1) →
        (∀ c ∈ (steps S owner sqrtf birth0 calls w0).cells, c.supply < 2) ∧
          (steps S owner sqrtf birth0 (calls ++ more) w0).cells.length ≤
            (steps S owner sqrtf birth0 calls w0).cells.length) := by
  have hinit : ∀ (numTeams n : Nat) (spawnRadius : ℚ) (spawns : List Vec2f) (rng0 : Nat → SpawnDraw),
      ∀ c ∈ constructCells birth0 numTeams n spawnRadius spawns rng0, c.supply = 1 := by
    intro numTeams n spawnRadius spawns rng0 c hc
    obtain ⟨id, team, spawn, k, rfl⟩ := constructCells_mem birth0 numTeams n spawnRadius spawns rng0 c hc
    rfl
  refine ⟨hinit, ?_, ?_⟩
  · intro w elapsed rng hel h
    have hb := beforeSpawn_supply_lt S owner sqrtf elapsed hel w h
    have hstep := step_of_supply_lt S owner sqrtf birth0 elapsed hel rng w h
    refine ⟨by rw [hstep]; exact hb, fun c hc => not_eligible_of_supply_lt _ c (hb c hc), ?_⟩
    rw [hstep]
    exact beforeSpawn_length_le S owner sqrtf elapsed w
  · intro numTeams n spawnRadius spawns rng0 w0 calls more hw0 hcalls
    have h0 : ∀ c ∈ w0.cells, c.supply < 2 := by
      intro c hc
      rw [hw0] at hc
      rw [hinit numTeams n spawnRadius spawns rng0 c hc]
      norm_num
    obtain ⟨i1, _⟩ := steps_supply_lt S owner sqrtf birth0 calls w0
      (fun call hc => hcalls call (List.mem_append_left _ hc)) h0
    refine ⟨i1, ?_⟩
    rw [steps_append]
    exact (steps_supply_lt S owner sqrtf birth0 more _
      (fun call hc => hcalls call (List.mem_append_right _ hc)) i1).2

theorem supply_lt_two_invariant_witness :
    constructedExampleWorld.cells = constructCells 0 1 1 3 [⟨5, 5⟩] (fun _ => exampleDraw) ∧
      (steps exchangeExampleSettings getCurrentOwner exampleSqrt 0
          ([] ++ [(1 / 2, fun _ => exampleDraw)]) constructedExampleWorld).cells.length ≤
        (steps exchangeExampleSettings getCurrentOwner exampleSqrt 0 []
          constructedExampleWorld).cells.length :=
  ⟨rfl,
    ((supply_lt_two_invariant exchangeExampleSettings getCurrentOwner exampleSqrt 0).2.2
      1 1 3 [⟨5, 5⟩] (fun _ => exampleDraw) constructedExampleWorld []
      [(1 / 2, fun _ => exampleDraw)] rfl
      (by intro call hc; simp at hc; rw [hc]; norm_num)).2⟩

/-! ## The speed bound: claim C20 -/

/-- The normalised target is shorter than `50`: the divisor exceeds the length
of the vector it divides. -/
theorem normalizeTarget_speedSq (sqrtf : ℚ → ℚ) (hsqrt : SqrtUpper sqrtf) (pv t : Vec2f) :
    speedSq (normalizeTarget sqrtf pv t) < 2500 := by
  unfold speedSq normalizeTarget
  dsimp only
  generalize t.x + pv.x / 1000 = u
  generalize t.y + pv.y / 1000 = v
  obtain ⟨h0, h1⟩ := hsqrt (u * u + v * v) (by nlinarith [mul_self_nonneg u, mul_self_nonneg v])
  generalize sqrtf (u * u + v * v) = s at h0 h1
  have hL : 0 < s + 1 / 100000000 := by linarith
  have hLL : u * u + v * v < (s + 1 / 100000000) * (s + 1 / 100000000) := by nlinarith
  have heq : u / (s + 1 / 100000000) * 50 * (u / (s + 1 / 100000000) * 50) +
      v / (s + 1 / 100000000) * 50 * (v / (s + 1 / 100000000) * 50) =
      2500 * (u * u + v * v) / ((s + 1 / 100000000) * (s + 1 / 100000000)) := by
    field_simp
    ring
  rw [heq, div_lt_iff₀ (mul_pos hL hL)]
  linarith

theorem targetVelocity_speedSq (S : WorldSettings) (sqrtf : ℚ → ℚ) (hsqrt : SqrtUpper sqrtf)
    (chunks : List Chunk) (c : Cell) : speedSq (targetVelocity S sqrtf chunks c) < 2500 :=
  normalizeTarget_speedSq sqrtf hsqrt _ _

theorem speedSq_mix (delta : ℚ) (h0 : 0 ≤ delta) (h1 : delta ≤ 1) (v t : Vec2f) (B : ℚ)
    (hv : speedSq v ≤ B) (ht : speedSq t ≤ B) :
    speedSq ⟨(1 - delta) * v.x + delta * t.x, (1 - delta) * v.y + delta * t.y⟩ ≤ B := by
  unfold speedSq at *
  dsimp only
  have hid : ((1 - delta) * v.x + delta * t.x) * ((1 - delta) * v.x + delta * t.x) +
      ((1 - delta) * v.y + delta * t.y) * ((1 - delta) * v.y + delta * t.y) =
      (1 - delta) * (v.x * v.x + v.y * v.y) + delta * (t.x * t.x + t.y * t.y) -
        delta * (1 - delta) * ((v.x - t.x) * (v.x - t.x) + (v.y - t.y) * (v.y - t.y)) := by
    ring
  rw [hid]
  have hd : 0 ≤ delta * (1 - delta) * ((v.x - t.x) * (v.x - t.x) + (v.y - t.y) * (v.y - t.y)) :=
    mul_nonneg (mul_nonneg h0 (by linarith))
      (add_nonneg (mul_self_nonneg _) (mul_self_nonneg _))
  have ha : (1 - delta) * (v.x * v.x + v.y * v.y) ≤ (1 - delta) * B :=
    mul_le_mul_of_nonneg_left hv (by linarith)
  have hb : delta * (t.x * t.x + t.y * t.y) ≤ delta * B := mul_le_mul_of_nonneg_left ht h0
  linarith

theorem updateVelocity_speedSq (S : WorldSettings) (sqrtf : ℚ → ℚ) (hsqrt : SqrtUpper sqrtf)
    (delta : ℚ) (h0 : 0 ≤ delta) (h1 : delta ≤ 1) (chunks : List Chunk) (c : Cell)
    (hc : speedSq c.velocity ≤ 2500) :
    speedSq (updateVelocity S sqrtf delta chunks c).velocity ≤ 2500 :=
  speedSq_mix delta h0 h1 c.velocity (targetVelocity S sqrtf chunks c) 2500 hc
    (targetVelocity_speedSq S sqrtf hsqrt chunks c).le

theorem reflectAxisSpec_velocity (dim p v h elapsed : ℚ) :
    (reflectAxisSpec dim p v h elapsed).2.1 = v ∨ (reflectAxisSpec dim p v h elapsed).2.1 = -v := by
  unfold reflectAxisSpec
  split_ifs
  · right; rfl
  · right; rfl
  · left; rfl

/-- The body of `updatePositions` only negates components of the velocity. -/
theorem positionSpec_velocity (S : WorldSettings) (elapsed : ℚ) (c : Cell) :
    ((positionSpec S elapsed c).velocity.x = c.velocity.x ∨
        (positionSpec S elapsed c).velocity.x = -c.velocity.x) ∧
      ((positionSpec S elapsed c).velocity.y = c.velocity.y ∨
        (positionSpec S elapsed c).velocity.y = -c.velocity.y) ∧
      speedSq (positionSpec S elapsed c).velocity = speedSq c.velocity := by
  have hx := reflectAxisSpec_velocity (upperBound S.width) c.position.x c.velocity.x
    c.preferredVelocity.x elapsed
  have hy := reflectAxisSpec_velocity (upperBound S.height) c.position.y c.velocity.y
    c.preferredVelocity.y elapsed
  refine ⟨hx, hy, ?_⟩
  have hxx : (positionSpec S elapsed c).velocity.x * (positionSpec S elapsed c).velocity.x =
      c.velocity.x * c.velocity.x := by
    rcases hx with h | h
    · show (reflectAxisSpec _ _ _ _ _).2.1 * (reflectAxisSpec _ _ _ _ _).2.1 = _
      rw [h]
    · show (reflectAxisSpec _ _ _ _ _).2.1 * (reflectAxisSpec _ _ _ _ _).2.1 = _
      rw [h]; ring
  have hyy : (positionSpec S elapsed c).velocity.y * (positionSpec S elapsed c).velocity.y =
      c.velocity.y * c.velocity.y := by
    rcases hy with h | h
    · show (reflectAxisSpec _ _ _ _ _).2.1 * (reflectAxisSpec _ _ _ _ _).2.1 = _
      rw [h]
    · show (reflectAxisSpec _ _ _ _ _).2.1 * (reflectAxisSpec _ _ _ _ _).2.1 = _
      rw [h]; ring
  unfold speedSq
  rw [hxx, hyy]

theorem beforeSpawn_speedSq (S : WorldSettings) (owner : Chunk → Int) (sqrtf : ℚ → ℚ)
    (hsqrt : SqrtUpper sqrtf) (delta : ℚ) (h0 : 0 ≤ delta) (h1 : delta ≤ 1) (w : World)
    (h : ∀ c ∈ w.cells, speedSq c.velocity ≤ 2500) :
    ∀ a ∈ (beforeSpawn S owner sqrtf delta w).cells, speedSq a.velocity ≤ 2500 := by
  intro a ha
  unfold beforeSpawn at ha
  obtain ⟨a1, ha1, _, _, _, _, hv1, _, _⟩ := attackNearby_mem S sqrtf delta _ a ha
  rw [updatePositions_cells] at ha1
  obtain ⟨a2, ha2, rfl⟩ := List.mem_map.1 ha1
  obtain ⟨a3, ha3, rfl⟩ := List.mem_map.1 ha2
  obtain ⟨c, hc, ch, rfl⟩ := updateCellSupply_mem S owner delta _ a3 ha3
  rw [hv1, (positionSpec_velocity S delta _).2.2]
  apply updateVelocity_speedSq S sqrtf hsqrt delta h0 h1
  rw [(updateCellSupplyCell_skeleton S owner delta c ch).1.2.2.2.1]
  exact h c hc

theorem speedSq_of_inRange (v : Vec2f) (h : (-1 ≤ v.x ∧ v.x ≤ 1) ∧ (-1 ≤ v.y ∧ v.y ≤ 1)) :
    speedSq v ≤ 2500 := by
  unfold speedSq
  obtain ⟨⟨h1, h2⟩, h3, h4⟩ := h
  nlinarith

theorem spawnChildren_speedSq (S : WorldSettings) (birth0 : ℚ) (rng : Nat → SpawnDraw)
    (hrng : ∀ k, VelocityInRange (rng k)) (w : World)
    (h : ∀ c ∈ w.cells, speedSq c.velocity ≤ 2500) :
    ∀ a ∈ (spawnChildren S birth0 rng w).cells, speedSq a.velocity ≤ 2500 := by
  intro a ha
  rw [spawnChildren_eq_spec] at ha
  unfold spawnSpec at ha
  dsimp only at ha
  rcases List.mem_append.1 ha with ha | ha
  · obtain ⟨c, hc, rfl⟩ := List.mem_map.1 ha
    split_ifs
    · exact h c hc
    · exact h c hc
  · obtain ⟨p, _, _, id, k, rfl⟩ := childrenOf_mem S birth0 _ _ _ _ a ha
    exact speedSq_of_inRange _ (hrng k)

theorem steps_speedSq (S : WorldSettings) (owner : Chunk → Int) (sqrtf : ℚ → ℚ)
    (hsqrt : SqrtUpper sqrtf) (birth0 : ℚ) :
    ∀ (calls : List (ℚ × (Nat → SpawnDraw))) (w : World),
      (∀ call ∈ calls, 0 ≤ call.1 ∧ call.1 ≤ 1 ∧ ∀ k, VelocityInRange (call.2 k)) →
      (∀ c ∈ w.cells, speedSq c.velocity ≤ 2500) →
      ∀ c ∈ (steps S owner sqrtf birth0 calls w).cells, speedSq c.velocity ≤ 2500 := by
  intro calls
  induction calls with
  | nil => intro w _ h; exact h
  | cons call calls ih =>
    intro w hcalls h
    obtain ⟨h0, h1, hrng⟩ := hcalls call (List.mem_cons_self _ _)
    have hcons : steps S owner sqrtf birth0 (call :: calls) w =
        steps S owner sqrtf birth0 calls (step S owner sqrtf birth0 call.1 call.2 w) := by
      unfold steps; rw [List.foldl_cons]
    rw [hcons]
    apply ih _ (fun c hc => hcalls c (List.mem_cons_of_mem _ hc))
    unfold step
    exact spawnChildren_speedSq S birth0 call.2 hrng _
      (beforeSpawn_speedSq S owner sqrtf hsqrt call.1 h0 h1 w h)

/-- C20: speed bound, on squared lengths (`speed ≤ 50` is `speedSq ≤ 2500`), for
a `sqrtf` as in `SqrtUpper`. The target velocity computed by `updateVelocities`
always has length strictly less than `50`; for every `elapsed` in `[0, 1]` an
agent whose speed is at most `50` before `updateVelocities` has speed at most `50`
after it; `updatePositions` only negates components of the velocity, so it keeps
the speed; and every agent's speed is at most `50` in every state reached by
calls of `step` with `elapsed` in `[0, 1]` from a registry built by the
constructor, all agents being created with velocity components in `[-1, 1]`. -/
theorem speed_bound (S : WorldSettings) (owner : Chunk → Int) (sqrtf : ℚ → ℚ) (birth0 : ℚ)
    (hsqrt : SqrtUpper sqrtf) :
    (∀ (chunks : List Chunk) (c : Cell), speedSq (targetVelocity S sqrtf chunks c) < 2500) ∧
      (∀ (elapsed : ℚ) (w : World), 0 ≤ elapsed → elapsed ≤ 1 →
        (∀ c ∈ w.cells, speedSq c.velocity ≤ 2500 →
          speedSq (updateVelocity S sqrtf elapsed w.chunks c).velocity ≤ 2500) ∧
        (updateVelocities S sqrtf elapsed w).cells =
          w.cells.map (updateVelocity S sqrtf elapsed w.chunks)) ∧
      (∀ (elapsed : ℚ) (w : World),
        (updatePositions S elapsed w).cells = w.cells.map (positionSpec S elapsed) ∧
        ∀ c : Cell,
          ((positionSpec S elapsed c).velocity.x = c.velocity.x ∨
              (positionSpec S elapsed c).velocity.x = -c.velocity.x) ∧
            ((positionSpec S elapsed c).velocity.y = c.velocity.y ∨
              (positionSpec S elapsed c).velocity.y = -c.velocity.y) ∧
            speedSq (positionSpec S elapsed c).velocity = speedSq c.velocity) ∧
      (∀ (numTeams n : Nat) (spawnRadius : ℚ) (spawns : List Vec2f) (rng0 : Nat → SpawnDraw) (w0 : World)
          (calls : List (ℚ × (Nat → SpawnDraw))),
        w0.cells = constructCells birth0 numTeams n spawnRadius spawns rng0 →
        (∀ k, VelocityInRange (rng0 k)) →
        (∀ call ∈ calls, 0 ≤ call.1 ∧ call.1 ≤ 1 ∧ ∀ k, VelocityInRange (call.2 k)) →
        ∀ c ∈ (steps S owner sqrtf birth0 calls w0).cells, speedSq c.velocity ≤ 2500) := by
  refine ⟨targetVelocity_speedSq S sqrtf hsqrt, ?_, ?_, ?_⟩
  · intro elapsed w h0 h1
    exact ⟨fun c _ hc => updateVelocity_speedSq S sqrtf hsqrt elapsed h0 h1 w.chunks c hc, rfl⟩
  · intro elapsed w
    exact ⟨updatePositions_cells S elapsed w, positionSpec_velocity S elapsed⟩
  · intro numTeams n spawnRadius spawns rng0 w0 calls hw0 hrng0 hcalls
    apply steps_speedSq S owner sqrtf hsqrt birth0 calls w0 hcalls
    intro c hc
    rw [hw0] at hc
    obtain ⟨id, team, spawn, k, rfl⟩ := constructCells_mem birth0 numTeams n spawnRadius spawns rng0 c hc
    exact speedSq_of_inRange _ (hrng0 k)

theorem speed_bound_witness :
    speedSq (targetVelocity exchangeExampleSettings exampleSqrt constructedExampleWorld.chunks
        exchangeExampleCell) < 2500 ∧
      ∀ c ∈ (steps exchangeExampleSettings getCurrentOwner exampleSqrt 0
          [(1 / 2, fun _ => exampleDraw)] constructedExampleWorld).cells,
        speedSq c.velocity ≤ 2500 :=
  ⟨(speed_bound exchangeExampleSettings getCurrentOwner exampleSqrt 0 exampleSqrt_upper).1
      constructedExampleWorld.chunks exchangeExampleCell,
    (speed_bound exchangeExampleSettings getCurrentOwner exampleSqrt 0 exampleSqrt_upper).2.2.2
      1 1 3 [⟨5, 5⟩] (fun _ => exampleDraw) constructedExampleWorld
      [(1 / 2, fun _ => exampleDraw)] rfl (fun _ => (by decide! : VelocityInRange exampleDraw))
      (by
        intro call hc
        simp only [List.mem_singleton] at hc
        rw [hc]
        exact ⟨by norm_num, by norm_num, fun _ => (by decide! : VelocityInRange exampleDraw)⟩)⟩

/-! ## The upper bound `(float) dimension - 1e-4f` in binary32 -/

/-- For every dimension from `1` to `512` the binary32 value of
`(float) dimension - 1e-4f` lies in `[0, dimension)`; checked value by value, in
blocks of `128`. -/
theorem upperBound_blocks_512 :
    BoundBlock 1 ∧ BoundBlock 129 ∧ BoundBlock 257 ∧ BoundBlock 385 := by
  refine ⟨by decide!, by decide!, by decide!, by decide!⟩

/-- The same for the dimensions from `513` to `1024`. -/
theorem upperBound_blocks_1024 :
    BoundBlock 513 ∧ BoundBlock 641 ∧ BoundBlock 769 ∧ BoundBlock 897 := by
  refine ⟨by decide!, by decide!, by decide!, by decide!⟩

/-- The same for the dimensions from `1025` to `1536`. -/
theorem upperBound_blocks_1536 :
    BoundBlock 1025 ∧ BoundBlock 1153 ∧ BoundBlock 1281 ∧ BoundBlock 1409 := by
  refine ⟨by decide!, by decide!, by decide!, by decide!⟩

/-- The same for the dimensions from `1537` to `2048`. -/
theorem upperBound_blocks_2048 :
    BoundBlock 1537 ∧ BoundBlock 1665 ∧ BoundBlock 1793 ∧ BoundBlock 1921 := by
  refine ⟨by decide!, by decide!, by decide!, by decide!⟩

theorem boundBlock_apply (offset dim : Int) (h : BoundBlock offset) (h1 : offset ≤ dim)
    (h2 : dim < offset + 128) : 0 ≤ upperBound dim ∧ upperBound dim < (dim : ℚ) := by
  have h := h ⟨(dim - offset).toNat, by omega⟩
  have hd : (((dim - offset).toNat : Nat) : Int) + offset = dim := by omega
  simp only [hd] at h
  exact h

theorem upperBound_inside (dim : Int) (h1 : 1 ≤ dim) (h2 : dim ≤ 2048) :
    0 ≤ upperBound dim ∧ upperBound dim < (dim : ℚ) := by
  obtain ⟨b1, b2, b3, b4⟩ := upperBound_blocks_512
  obtain ⟨b5, b6, b7, b8⟩ := upperBound_blocks_1024
  obtain ⟨b9, b10, b11, b12⟩ := upperBound_blocks_1536
  obtain ⟨b13, b14, b15, b16⟩ := upperBound_blocks_2048
  by_cases c1 : dim < 129
  · exact boundBlock_apply 1 dim b1 (by omega) (by omega)
  by_cases c2 : dim < 257
  · exact boundBlock_apply 129 dim b2 (by omega) (by omega)
  by_cases c3 : dim < 385
  · exact boundBlock_apply 257 dim b3 (by omega) (by omega)
  by_cases c4 : dim < 513
  · exact boundBlock_apply 385 dim b4 (by omega) (by omega)
  by_cases c5 : dim < 641
  · exact boundBlock_apply 513 dim b5 (by omega) (by omega)
  by_cases c6 : dim < 769
  · exact boundBlock_apply 641 dim b6 (by omega) (by omega)
  by_cases c7 : dim < 897
  · exact boundBlock_apply 769 dim b7 (by omega) (by omega)
  by_cases c8 : dim < 1025
  · exact boundBlock_apply 897 dim b8 (by omega) (by omega)
  by_cases c9 : dim < 1153
  · exact boundBlock_apply 1025 dim b9 (by omega) (by omega)
  by_cases c10 : dim < 1281
  · exact boundBlock_apply 1153 dim b10 (by omega) (by omega)
  by_cases c11 : dim < 1409
  · exact boundBlock_apply 1281 dim b11 (by omega) (by omega)
  by_cases c12 : dim < 1537
  · exact boundBlock_apply 1409 dim b12 (by omega) (by omega)
  by_cases c13 : dim < 1665
  · exact boundBlock_apply 1537 dim b13 (by omega) (by omega)
  by_cases c14 : dim < 1793
  · exact boundBlock_apply 1665 dim b14 (by omega) (by omega)
  by_cases c15 : dim < 1921
  · exact boundBlock_apply 1793 dim b15 (by omega) (by omega)
  exact boundBlock_apply 1921 dim b16 (by omega) (by omega)

/-- In a world of width and height between `1` and `2048` the margin of the upper
bounds survives the rounding. -/
theorem boundInside_of_le (S : WorldSettings) (hw1 : 1 ≤ S.width) (hw2 : S.width ≤ 2048)
    (hh1 : 1 ≤ S.height) (hh2 : S.height ≤ 2048) : BoundInside S :=
  ⟨upperBound_inside S.width hw1 hw2, upperBound_inside S.height hh1 hh2⟩

/-- From width `2049` on the margin is lost, here at `2049` and at `2560`: the
binary32 value of `(float) dimension - 1e-4f` is the dimension itself. -/
theorem upperBound_large : upperBound 2049 = 2049 ∧ upperBound 2560 = 2560 := by
  decide!

/-! ## Failing inputs in a world of width `2560`: claims C1, C12, C15 and C21 -/

/-- C1, failing input: `wallExampleWorld` in the world of `2560 x 2560` is
consistent, with its agent at `(2550, 5)` moving right at speed `100`. After
`updatePositions` with `elapsed = 1` the agent stands at `x = 2560 = width`, which
is outside the world bounds, because the bound `(float) 2560 - 1e-4f` of the clamp
is `2560`; its reference has moved to the chunk at linear index `2`, grid
position `(0, 1)`, and the world is not consistent. -/
theorem updatePositions_breaks_consistency :
    Consistent largeExampleSettings wallExampleWorld ∧
      upperBound largeExampleSettings.width = (largeExampleSettings.width : ℚ) ∧
      (updatePositions largeExampleSettings 1 wallExampleWorld).cells.map Cell.position =
        [⟨2560, 5⟩] ∧
      ¬ inBounds largeExampleSettings ⟨2560, 5⟩ ∧
      (updatePositions largeExampleSettings 1 wallExampleWorld).chunks = largeExampleChunks 2 ∧
      chunkIndex largeExampleSettings ⟨0, 1⟩ = 2 ∧
      ¬ Consistent largeExampleSettings (updatePositions largeExampleSettings 1 wallExampleWorld) := by
  refine ⟨by decide!, by decide!, by decide!, by decide!, by decide!, by decide!, by decide!⟩

/-- C12, failing input: in the world of `2560 x 2560` (width and height at least
`1`) the agent of `wallExampleWorld` has `p' = 2550 + 100 * 1 = 2650` on the `x`
axis. `updatePositions` with `elapsed = 1` negates its velocity and sets its
position to `2560`: not to `2560 - 1e-4`, and not below the width. -/
theorem updatePositions_reaches_width :
    (1 : Int) ≤ largeExampleSettings.width ∧ (1 : Int) ≤ largeExampleSettings.height ∧
      (updatePositions largeExampleSettings 1 wallExampleWorld).cells.map
          (fun c => (c.position, c.velocity)) = [(⟨2560, 5⟩, ⟨-100, 0⟩)] ∧
      (2560 : ℚ) ≠ (largeExampleSettings.width : ℚ) - 1 / 10000 ∧
      ¬ ((2560 : ℚ) < (largeExampleSettings.width : ℚ)) := by
  refine ⟨by decide, by decide, by decide!, by decide!, by decide!⟩

/-- C15, failing input: in the world of `2560 x 2560` the parent of
`wallParentExampleWorld` stands at `(2559, 5)` and is eligible. With the draw
`wallExampleDraw` (angle `0`, distance `1.5`) `spawnChildren` clamps the child to
`x = 2560 = width`, which is not in `[0, width - 1e-4]`; `worldToChunkPos` gives
the column `2` of a grid with `2` columns, and the child is registered in the
bucket of the chunk at linear index `2`, grid position `(0, 1)`, which does not
contain its position. -/
theorem spawnChildren_child_outside_grid :
    Consistent largeExampleSettings wallParentExampleWorld ∧
      DrawInRange wallExampleDraw ∧
      (spawnChildren largeExampleSettings 0 (fun _ => wallExampleDraw)
          wallParentExampleWorld).cells.map (fun c => (c.id, c.position)) =
        [(1, ⟨2559, 5⟩), (2, ⟨2560, 5⟩)] ∧
      ¬ inClampRange largeExampleSettings ⟨2560, 5⟩ ∧
      worldToChunkPos largeExampleSettings ⟨2560, 5⟩ = ⟨2, 0⟩ ∧
      ¬ inGrid largeExampleSettings ⟨2, 0⟩ ∧
      (spawnChildren largeExampleSettings 0 (fun _ => wallExampleDraw)
          wallParentExampleWorld).chunks.map Chunk.cells = [[[]], [[1]], [[2]], [[]]] ∧
      chunkIndex largeExampleSettings ⟨0, 1⟩ = 2 := by
  refine ⟨by decide!, by decide!, by decide!, by decide!, by decide!, by decide!, by decide!,
    by decide!⟩

/-- C21, failing inputs. In the world of `2560 x 2560` with chunks of size `1280`
the grid dimensions are those the constructor computes, `2 x 2`. `updatePositions`
with `elapsed = 1` leaves the agent of `cornerExampleWorld` at `(2560, 2560)`;
`worldToChunkPos` maps this position to `(2, 2)`, outside the grid, the index
used by `getChunk` is `6` in a vector of `4` chunks, and the lookup finds no
chunk. Besides, for width `2^24 + 1` and chunk size `2^24` the constructor
computes one column, `ceil(width / chunkSize)` being `2`. -/
theorem chunk_lookup_out_of_range :
    (1 : Int) ≤ largeExampleSettings.width ∧ (1 : Int) ≤ largeExampleSettings.height ∧
      0 < largeExampleSettings.pixelsPerChunk ∧
      largeExampleSettings.numChunks = (constructSettings largeExampleSettings).numChunks ∧
      (updatePositions largeExampleSettings 1 cornerExampleWorld).cells.map Cell.position =
        [⟨2560, 2560⟩] ∧
      worldToChunkPos largeExampleSettings ⟨2560, 2560⟩ = ⟨2, 2⟩ ∧
      ¬ inGrid largeExampleSettings ⟨2, 2⟩ ∧
      chunkIndex largeExampleSettings ⟨2, 2⟩ = 6 ∧
      cornerExampleWorld.chunks.length = 4 ∧
      getChunk? largeExampleSettings
        (updatePositions largeExampleSettings 1 cornerExampleWorld).chunks ⟨2, 2⟩ = none ∧
      (constructSettings wideExampleSettings).numChunks.x = 1 ∧
      ⌈(wideExampleSettings.width : ℚ) / wideExampleSettings.pixelsPerChunk⌉ = 2 := by
  refine ⟨by decide, by decide, by decide!, by decide!, by decide!, by decide!, by decide!,
    by decide!, by decide!, by decide!, by decide!, by decide!⟩

/-! ## Chunk lookup for positions inside the world -/

/-- A non-negative coordinate below `dim` lies in a chunk column below
`ceil(dim / pixelsPerChunk)`. -/
theorem truncToInt_div_range (ppc dim x : ℚ) (hppc : 0 < ppc) (h0 : 0 ≤ x) (h1 : x < dim) :
    0 ≤ truncToInt (x / ppc) ∧ truncToInt (x / ppc) < ⌈dim / ppc⌉ := by
  have hq : 0 ≤ x / ppc := div_nonneg h0 hppc.le
  rw [truncToInt_of_nonneg _ hq]
  refine ⟨Int.floor_nonneg.2 hq, ?_⟩
  rw [Int.floor_lt]
  exact lt_of_lt_of_le (div_lt_div_of_pos_right h1 hppc) (Int.le_ceil _)

/-- Column and row inside the grid give a linear index inside
`[0, numChunks.x * numChunks.y)`. -/
theorem chunkIndex_bounds (S : WorldSettings) (p : Vec2i) (hx0 : 0 ≤ p.x)
    (hx1 : p.x < S.numChunks.x) (hy0 : 0 ≤ p.y) (hy1 : p.y < S.numChunks.y) :
    0 ≤ chunkIndex S p ∧ chunkIndex S p < S.numChunks.x * S.numChunks.y := by
  unfold chunkIndex
  have hnn : 0 ≤ p.y * S.numChunks.x := mul_nonneg hy0 (by omega)
  have hle : (p.y + 1) * S.numChunks.x ≤ S.numChunks.y * S.numChunks.x :=
    mul_le_mul_of_nonneg_right (by omega) (by omega)
  constructor
  · omega
  · nlinarith

/-- Chunk lookup for positions strictly inside the world, when the grid has
`ceil(size / pixelsPerChunk)` chunks per axis: `worldToChunkPos` returns a grid
position, the index used by `getChunk` lies in `[0, numChunks.x * numChunks.y)`,
and in a chunk vector of that size the lookup finds a chunk. This covers every
position with `0 ≤ x ≤ width - 1e-4` and `0 ≤ y ≤ height - 1e-4`. -/
theorem chunk_lookup_of_inBounds (S : WorldSettings) (hppc : 0 < S.pixelsPerChunk)
    (hnx : S.numChunks.x = ⌈(S.width : ℚ) / S.pixelsPerChunk⌉)
    (hny : S.numChunks.y = ⌈(S.height : ℚ) / S.pixelsPerChunk⌉) (p : Vec2f)
    (hp : inBounds S p) :
    inGrid S (worldToChunkPos S p) ∧
      (0 ≤ chunkIndex S (worldToChunkPos S p) ∧
        chunkIndex S (worldToChunkPos S p) < S.numChunks.x * S.numChunks.y) ∧
      ∀ chunks : List Chunk, chunks.length = (S.numChunks.x * S.numChunks.y).toNat →
        ∃ c ∈ chunks, getChunk? S chunks (worldToChunkPos S p) = some c := by
  obtain ⟨⟨hx0, hx1⟩, hy0, hy1⟩ := hp
  have hcx := truncToInt_div_range S.pixelsPerChunk (S.width : ℚ) p.x hppc hx0 hx1
  have hcy := truncToInt_div_range S.pixelsPerChunk (S.height : ℚ) p.y hppc hy0 hy1
  rw [← hnx] at hcx
  rw [← hny] at hcy
  have hx : 0 ≤ (worldToChunkPos S p).x ∧ (worldToChunkPos S p).x < S.numChunks.x := hcx
  have hy : 0 ≤ (worldToChunkPos S p).y ∧ (worldToChunkPos S p).y < S.numChunks.y := hcy
  have hidx := chunkIndex_bounds S (worldToChunkPos S p) hx.1 hx.2 hy.1 hy.2
  refine ⟨⟨hx, hy⟩, hidx, ?_⟩
  intro chunks hlen
  have hlt : (chunkIndex S (worldToChunkPos S p)).toNat < chunks.length := by
    rw [hlen]
    omega
  refine ⟨chunks[(chunkIndex S (worldToChunkPos S p)).toNat], List.getElem_mem hlt, ?_⟩
  unfold getChunk?
  rw [if_pos hidx.1, List.getElem?_eq_getElem hlt]

theorem inBounds_of_inClampRange (S : WorldSettings) (p : Vec2f) (hp : inClampRange S p) :
    inBounds S p :=
  ⟨⟨hp.1.1, by linarith [hp.1.2]⟩, hp.2.1, by linarith [hp.2.2]⟩

/-! ## Following one agent through a call of `step` -/

theorem modifyChunk_map_eq {β : Type} (g : Chunk → β) (S : WorldSettings) (chunks : List Chunk)
    (p : Vec2i) (f : Chunk → Chunk) (hf : ∀ c, g (f c) = g c) :
    (modifyChunk S chunks p f).map g = chunks.map g := by
  unfold modifyChunk
  split_ifs
  · apply List.ext_getElem?
    intro m
    simp only [List.getElem?_map, List.getElem?_modify]
    cases chunks[m]? with
    | none => rfl
    | some c =>
      simp only [Option.map_some', Option.some.injEq]
      split_ifs
      · exact congrArg some (hf c)
      · rfl
  · rfl

theorem foldl_modifyChunk_map_eq {α β : Type} (g : Chunk → β) (S : WorldSettings)
    (pos : α → Vec2i) (f : α → Chunk → Chunk) (hf : ∀ a c, g (f a c) = g c) :
    ∀ (l : List α) (chunks : List Chunk),
      (l.foldl (fun chunks a => modifyChunk S chunks (pos a) (f a)) chunks).map g =
        chunks.map g := by
  intro l
  induction l with
  | nil => intro chunks; rfl
  | cons a l ih =>
    intro chunks
    rw [List.foldl_cons, ih, modifyChunk_map_eq g S chunks (pos a) (f a) (hf a)]

/-- Chunk vectors that agree on a projection give chunks that agree on it at
every position. -/
theorem getChunk_map_eq {β : Type} (g : Chunk → β) (S : WorldSettings)
    (chunks chunks' : List Chunk) (h : chunks.map g = chunks'.map g) (p : Vec2i) :
    g (getChunk S chunks p) = g (getChunk S chunks' p) := by
  unfold getChunk getChunk?
  by_cases h0 : 0 ≤ chunkIndex S p
  · rw [if_pos h0, if_pos h0]
    have h1 := congrArg (fun l => l[(chunkIndex S p).toNat]?) h
    simp only [List.getElem?_map] at h1
    cases hc : chunks[(chunkIndex S p).toNat]? with
    | none =>
      rw [hc] at h1
      cases hc' : chunks'[(chunkIndex S p).toNat]? with
      | none => rfl
      | some c' => rw [hc'] at h1; simp at h1
    | some c =>
      rw [hc] at h1
      cases hc' : chunks'[(chunkIndex S p).toNat]? with
      | none => rw [hc'] at h1; simp at h1
      | some c' =>
        rw [hc'] at h1
        simpa using h1
  · rw [if_neg h0, if_neg h0]

theorem owner_eq_of_withoutSupply (owner : Chunk → Int) (hown : OwnerIgnoresSupply owner)
    (c c' : Chunk) (h : c.withoutSupply = c'.withoutSupply) : owner c = owner c' := by
  have hc : c = { c' with supply := c.supply } := by
    cases c with
    | mk a b s d e =>
      cases c' with
      | mk a' b' s' d' e' =>
        simp only [Chunk.withoutSupply, Prod.mk.injEq] at h
        obtain ⟨h1, h2, h3, h4⟩ := h
        simp only [h1, h2, h3, h4]
  rw [hc, hown]

theorem updateChunkSupply_withoutSupply (S : WorldSettings) (owner : Chunk → Int) (delta : ℚ)
    (w : World) :
    (updateChunkSupply S owner delta w).chunks.map Chunk.withoutSupply =
      w.chunks.map Chunk.withoutSupply := by
  unfold updateChunkSupply updateChunkSupplyIn applyPass
  refine foldl_modifyChunk_map_eq Chunk.withoutSupply S (fun p => p) _ ?_ _ _
  intro _ _
  rfl

theorem updateCellSupplyCell_withoutSupply (S : WorldSettings) (owner : Chunk → Int) (delta : ℚ)
    (cell : Cell) (chunks : List Chunk) :
    (updateCellSupplyCell S owner delta cell chunks).2.map Chunk.withoutSupply =
      chunks.map Chunk.withoutSupply := by
  unfold updateCellSupplyCell
  by_cases h : owner (getChunk S chunks (worldToChunkPos S cell.position)) ≠ (cell.teamId : Int)
  · rw [if_pos h]
  · rw [if_neg h]
    exact modifyChunk_map_eq Chunk.withoutSupply S chunks _ _ (fun _ => rfl)

/-- Every agent left by the loop of `updateCellSupply` is the result of the loop
body on an agent of the registry, on chunks that differ from the initial ones
in their supplies only. -/
theorem updateCellSupplyLoop_mem_variant (S : WorldSettings) (owner : Chunk → Int) (delta : ℚ) :
    ∀ (cells : List Cell) (chunks : List Chunk),
      ∀ a ∈ (updateCellSupplyLoop S owner delta cells chunks).1,
        ∃ c ∈ cells, ∃ ch, ch.map Chunk.withoutSupply = chunks.map Chunk.withoutSupply ∧
          a = (updateCellSupplyCell S owner delta c ch).1 := by
  intro cells
  induction cells with
  | nil => intro chunks a ha; simp [updateCellSupplyLoop] at ha
  | cons c rest ih =>
    intro chunks a ha
    unfold updateCellSupplyLoop at ha
    rcases List.mem_cons.1 ha with rfl | ha
    · exact ⟨c, List.mem_cons_self _ _, chunks, rfl, rfl⟩
    · obtain ⟨c', hc', ch, hvar, hch⟩ := ih _ a ha
      exact ⟨c', List.mem_cons_of_mem _ hc', ch,
        hvar.trans (updateCellSupplyCell_withoutSupply S owner delta c chunks), hch⟩

/-- Every agent of the registry has its image under the loop body in the registry
left by the loop of `updateCellSupply`. -/
theorem updateCellSupplyLoop_image (S : WorldSettings) (owner : Chunk → Int) (delta : ℚ) :
    ∀ (cells : List Cell) (chunks : List Chunk), ∀ c ∈ cells,
      ∃ ch, ch.map Chunk.withoutSupply = chunks.map Chunk.withoutSupply ∧
        (updateCellSupplyCell S owner delta c ch).1 ∈
          (updateCellSupplyLoop S owner delta cells chunks).1 := by
  intro cells
  induction cells with
  | nil => intro chunks c hc; simp at hc
  | cons d rest ih =>
    intro chunks c hc
    unfold updateCellSupplyLoop
    rcases List.mem_cons.1 hc with rfl | hc
    · exact ⟨chunks, rfl, List.mem_cons_self _ _⟩
    · obtain ⟨ch, hvar, hmem⟩ := ih (updateCellSupplyCell S owner delta d chunks).2 c hc
      exact ⟨ch, hvar.trans (updateCellSupplyCell_withoutSupply S owner delta d chunks),
        List.mem_cons_of_mem _ hmem⟩

/-- An agent in a chunk that its team does not own is skipped by the body of
`updateCellSupply`, on every chunk vector that differs from `chunks` in the
supplies only. -/
theorem updateCellSupplyCell_skip (S : WorldSettings) (owner : Chunk → Int)
    (hown : OwnerIgnoresSupply owner) (delta : ℚ) (c : Cell) (chunks ch : List Chunk)
    (hvar : ch.map Chunk.withoutSupply = chunks.map Chunk.withoutSupply)
    (hforeign : owner (getChunk S chunks (worldToChunkPos S c.position)) ≠ (c.teamId : Int)) :
    (updateCellSupplyCell S owner delta c ch).1 = c := by
  have hsame : owner (getChunk S ch (worldToChunkPos S c.position)) =
      owner (getChunk S chunks (worldToChunkPos S c.position)) :=
    owner_eq_of_withoutSupply owner hown _ _
      (getChunk_map_eq Chunk.withoutSupply S ch chunks hvar _)
  unfold updateCellSupplyCell
  rw [if_pos (by rw [hsame]; exact hforeign)]

theorem attackStep_of_none (S : WorldSettings) (sqrtf : ℚ → ℚ) (delta : ℚ) (w : World) (i : Nat)
    (h : ∀ c ∈ w.cells, findNearestEnemies S sqrtf w c S.cellAttackRange = none) :
    attackStep S sqrtf delta w i = w := by
  unfold attackStep
  cases hc : w.cells[i]? with
  | none => rfl
  | some c =>
    dsimp only
    rw [h c (List.getElem?_mem hc)]

theorem attackLoop_of_none (S : WorldSettings) (sqrtf : ℚ → ℚ) (delta : ℚ) (w : World)
    (h : ∀ c ∈ w.cells, findNearestEnemies S sqrtf w c S.cellAttackRange = none) (n : Nat) :
    attackLoop S sqrtf delta n w = w := by
  induction n with
  | zero => rfl
  | succ n ih => rw [attackLoop_succ, ih, attackStep_of_none S sqrtf delta w n h]

/-- Without combat, by an attack range of at most zero or because every agent
is of one team, no agent of a consistent world has a target. -/
theorem findNearestEnemies_none_of_peace (S : WorldSettings) (sqrtf : ℚ → ℚ)
    (hsqrt : SqrtUpper sqrtf) (w : World) (h : Consistent S w) (team : Nat)
    (hpeace : S.cellAttackRange ≤ 0 ∨ ∀ c ∈ w.cells, c.teamId = team) :
    ∀ c ∈ w.cells, findNearestEnemies S sqrtf w c S.cellAttackRange = none := by
  intro c hc
  rcases hpeace with hR | hteam
  · exact findNearestEnemies_none_of_le S sqrtf w c _
      (fun e => le_trans hR (cellDistance_nonneg sqrtf hsqrt c e))
  · cases hf : findNearestEnemies S sqrtf w c S.cellAttackRange with
    | none => rfl
    | some e =>
      obtain ⟨he, hne⟩ := findNearestEnemies_some_mem h sqrtf c _ e hf
      exact absurd ((hteam e he).trans (hteam c hc).symm) hne

/-- In a list without repeated identities in which `a` is the only member
satisfying `P`, the members satisfying `P` are `[a]`. -/
theorem filter_eq_singleton (l : List Cell) (hnd : (l.map Cell.id).Nodup) (P : Cell → Prop)
    [DecidablePred P] (a : Cell) (ha : a ∈ l) (hPa : P a) (honly : ∀ c ∈ l, P c → c = a) :
    (l.filter fun c => decide (P c)) = [a] := by
  have hnd' : l.Nodup := List.Nodup.of_map _ hnd
  have hcongr : (l.filter fun c => decide (P c)) = l.filter (fun c => c == a) := by
    apply List.filter_congr
    intro c hc
    by_cases hca : c = a
    · subst hca; simp [hPa]
    · have : ¬ P c := fun hp => hca (honly c hc hp)
      simp [hca, this]
  rw [hcongr, List.filter_beq, List.count_eq_one_of_mem hnd' ha]
  rfl

theorem updateCellSupply_mem_variant (S : WorldSettings) (owner : Chunk → Int) (delta : ℚ)
    (w : World) :
    ∀ a ∈ (updateCellSupply S owner delta w).cells,
      ∃ c ∈ w.cells, ∃ ch, ch.map Chunk.withoutSupply = w.chunks.map Chunk.withoutSupply ∧
        a = (updateCellSupplyCell S owner delta c ch).1 := by
  intro a ha
  have hsub := (deleteDeadCells_cells_sublist S
    { w with
      cells := (updateCellSupplyLoop S owner delta w.cells w.chunks).1
      chunks := (updateCellSupplyLoop S owner delta w.cells w.chunks).2 }).subset ha
  exact updateCellSupplyLoop_mem_variant S owner delta w.cells w.chunks a hsub

/-- Every agent on which `spawnChildren` runs in a call of `step` comes from an
agent of the world before the call through the body of `updateCellSupply`, run on
chunks that differ from those left by `updateTerritories` in the supplies only;
the later passes keep its team, supply and last birth. -/
theorem beforeSpawn_mem_variant (S : WorldSettings) (owner : Chunk → Int) (sqrtf : ℚ → ℚ)
    (delta : ℚ) (w : World) :
    ∀ a ∈ (beforeSpawn S owner sqrtf delta w).cells,
      ∃ c ∈ w.cells, ∃ ch,
        ch.map Chunk.withoutSupply =
          (updateTerritories S delta w).chunks.map Chunk.withoutSupply ∧
        a.id = c.id ∧ a.teamId = c.teamId ∧
        a.supply = (updateCellSupplyCell S owner delta c ch).1.supply ∧
        a.lastBirth = c.lastBirth := by
  intro a ha
  unfold beforeSpawn at ha
  obtain ⟨a1, ha1, hid1, ht1, _, hs1, _, _, hb1⟩ := attackNearby_mem S sqrtf delta _ a ha
  rw [updatePositions_cells] at ha1
  obtain ⟨a2, ha2, rfl⟩ := List.mem_map.1 ha1
  obtain ⟨a3, ha3, rfl⟩ := List.mem_map.1 ha2
  obtain ⟨c, hc, ch, hvar, rfl⟩ := updateCellSupply_mem_variant S owner delta _ a3 ha3
  have hvar2 := hvar.trans (updateChunkSupply_withoutSupply S owner delta
    (updateTerritories S delta { w with worldTime := w.worldTime + delta }))
  obtain ⟨k1, k2, _, _, k5⟩ := (updateCellSupplyCell_skeleton S owner delta c ch).1
  exact ⟨c, hc, ch, hvar2, hid1.trans k1, ht1.trans k2, hs1, hb1.trans k5⟩

theorem updateCellSupply_ids_sublist (S : WorldSettings) (owner : Chunk → Int) (delta : ℚ)
    (w : World) :
    ((updateCellSupply S owner delta w).cells.map Cell.id).Sublist (w.cells.map Cell.id) := by
  have hsub := (deleteDeadCells_cells_sublist S
    { w with
      cells := (updateCellSupplyLoop S owner delta w.cells w.chunks).1
      chunks := (updateCellSupplyLoop S owner delta w.cells w.chunks).2 }).map Cell.id
  have hkey := congrArg (List.map Prod.fst)
    (updateCellSupplyLoop_skeleton S owner delta w.cells w.chunks).1
  simp only [List.map_map] at hkey
  have hid : (updateCellSupplyLoop S owner delta w.cells w.chunks).1.map Cell.id =
      w.cells.map Cell.id := hkey
  unfold updateCellSupply
  rw [← hid]
  exact hsub

/-- The registry on which `spawnChildren` runs in a call of `step` holds agents of
the registry before the call, in their order. -/
theorem beforeSpawn_ids_sublist (S : WorldSettings) (owner : Chunk → Int) (sqrtf : ℚ → ℚ)
    (delta : ℚ) (w : World) :
    ((beforeSpawn S owner sqrtf delta w).cells.map Cell.id).Sublist (w.cells.map Cell.id) := by
  unfold beforeSpawn attackNearby
  obtain ⟨f, hf, hloop⟩ := attackLoop_cells S sqrtf delta
    (updatePositions S delta (updateVelocities S sqrtf delta (updateCellSupply S owner delta
      (updateChunkSupply S owner delta (updateTerritories S delta
        { w with worldTime := w.worldTime + delta }))))).cells.length
    (updatePositions S delta (updateVelocities S sqrtf delta (updateCellSupply S owner delta
      (updateChunkSupply S owner delta (updateTerritories S delta
        { w with worldTime := w.worldTime + delta })))))
  have hsub := (deleteDeadCells_cells_sublist S
    (attackLoop S sqrtf delta
      (updatePositions S delta (updateVelocities S sqrtf delta (updateCellSupply S owner delta
        (updateChunkSupply S owner delta (updateTerritories S delta
          { w with worldTime := w.worldTime + delta }))))).cells.length
      (updatePositions S delta (updateVelocities S sqrtf delta (updateCellSupply S owner delta
        (updateChunkSupply S owner delta (updateTerritories S delta
          { w with worldTime := w.worldTime + delta }))))))).map Cell.id
  refine hsub.trans ?_
  rw [hloop]
  have hids : ((updatePositions S delta (updateVelocities S sqrtf delta
      (updateCellSupply S owner delta (updateChunkSupply S owner delta (updateTerritories S delta
        { w with worldTime := w.worldTime + delta }))))).cells.map f).map Cell.id =
      (updateCellSupply S owner delta (updateChunkSupply S owner delta (updateTerritories S delta
        { w with worldTime := w.worldTime + delta }))).cells.map Cell.id := by
    rw [updatePositions_cells]
    unfold updateVelocities
    simp only [List.map_map]
    apply List.map_congr_left
    intro c _
    simp only [Function.comp]
    rw [(hf _).1]
    rfl
  show (List.map Cell.id (List.map f _)).Sublist _
  rw [hids]
  exact updateCellSupply_ids_sublist S owner delta _

/-- A live agent standing in a chunk that, after the ownership update of the step,
its team does not own, reaches `spawnChildren` in a call of `step` without combat
with its supply and last birth untouched. -/
theorem beforeSpawn_survivor (S : WorldSettings) (hb : BoundInside S) (owner : Chunk → Int)
    (hown : OwnerIgnoresSupply owner) (sqrtf : ℚ → ℚ) (hsqrt : SqrtUpper sqrtf) (delta : ℚ)
    (w : World) (h : Consistent S w) (p : Cell) (hp : p ∈ w.cells) (hhealth : 0 < p.health)
    (hforeign : owner (getChunk S (updateTerritories S delta w).chunks
      (worldToChunkPos S p.position)) ≠ (p.teamId : Int))
    (hpeace : S.cellAttackRange ≤ 0 ∨ ∀ c ∈ w.cells, c.teamId = p.teamId) :
    ∃ a ∈ (beforeSpawn S owner sqrtf delta w).cells,
      a.id = p.id ∧ a.teamId = p.teamId ∧ a.supply = p.supply ∧ a.lastBirth = p.lastBirth := by
  have h0 : Consistent S { w with worldTime := w.worldTime + delta } := h.of_skeleton rfl rfl
  have hS := updateChunkSupply_consistent S owner delta _
    (updateTerritories_consistent S delta _ h0)
  obtain ⟨k1, k2⟩ := updateCellSupplyLoop_skeleton S owner delta
    (updateChunkSupply S owner delta (updateTerritories S delta
      { w with worldTime := w.worldTime + delta })).cells
    (updateChunkSupply S owner delta (updateTerritories S delta
      { w with worldTime := w.worldTime + delta })).chunks
  have hpre : Consistent S
      { updateChunkSupply S owner delta (updateTerritories S delta
          { w with worldTime := w.worldTime + delta }) with
        cells := (updateCellSupplyLoop S owner delta
          (updateChunkSupply S owner delta (updateTerritories S delta
            { w with worldTime := w.worldTime + delta })).cells
          (updateChunkSupply S owner delta (updateTerritories S delta
            { w with worldTime := w.worldTime + delta })).chunks).1
        chunks := (updateCellSupplyLoop S owner delta
          (updateChunkSupply S owner delta (updateTerritories S delta
            { w with worldTime := w.worldTime + delta })).cells
          (updateChunkSupply S owner delta (updateTerritories S delta
            { w with worldTime := w.worldTime + delta })).chunks).2 } :=
    hS.of_skeleton k1 k2
  -- the parent is skipped by the exchange and survives its purge
  have hE : p ∈ (updateCellSupply S owner delta (updateChunkSupply S owner delta
      (updateTerritories S delta { w with worldTime := w.worldTime + delta }))).cells := by
    obtain ⟨ch, hvar, hmem⟩ := updateCellSupplyLoop_image S owner delta
      (updateChunkSupply S owner delta (updateTerritories S delta
        { w with worldTime := w.worldTime + delta })).cells
      (updateChunkSupply S owner delta (updateTerritories S delta
        { w with worldTime := w.worldTime + delta })).chunks p hp
    have hvar2 := hvar.trans (updateChunkSupply_withoutSupply S owner delta
      (updateTerritories S delta { w with worldTime := w.worldTime + delta }))
    rw [updateCellSupplyCell_skip S owner hown delta p
      (updateTerritories S delta { w with worldTime := w.worldTime + delta }).chunks ch hvar2
      hforeign] at hmem
    unfold updateCellSupply
    rw [deleteDeadCells_eq S _ hpre]
    exact List.mem_filter.2 ⟨hmem, by simpa using hhealth⟩
  have hE' := updateCellSupply_consistent S owner delta _ hS
  have hV := updateVelocities_consistent S sqrtf delta _ hE'
  have hP := updatePositions_consistent S hb delta _ hV
  -- its image after the velocity and position passes
  have hPmem : positionSpec S delta (updateVelocity S sqrtf delta
      (updateCellSupply S owner delta (updateChunkSupply S owner delta
        (updateTerritories S delta { w with worldTime := w.worldTime + delta }))).chunks p) ∈
      (updatePositions S delta (updateVelocities S sqrtf delta
        (updateCellSupply S owner delta (updateChunkSupply S owner delta
          (updateTerritories S delta { w with worldTime := w.worldTime + delta }))))).cells := by
    rw [updatePositions_cells]
    exact List.mem_map_of_mem _ (List.mem_map_of_mem _ hE)
  -- no agent has a target
  have hteams : (∀ c ∈ w.cells, c.teamId = p.teamId) →
      ∀ a ∈ (updatePositions S delta (updateVelocities S sqrtf delta
        (updateCellSupply S owner delta (updateChunkSupply S owner delta
          (updateTerritories S delta { w with worldTime := w.worldTime + delta }))))).cells,
        a.teamId = p.teamId := by
    intro hall a ha
    rw [updatePositions_cells] at ha
    obtain ⟨a2, ha2, rfl⟩ := List.mem_map.1 ha
    obtain ⟨a3, ha3, rfl⟩ := List.mem_map.1 ha2
    obtain ⟨c, hc, ch, rfl⟩ := updateCellSupply_mem S owner delta _ a3 ha3
    exact ((updateCellSupplyCell_skeleton S owner delta c ch).1.2.1).trans (hall c hc)
  have hnone := findNearestEnemies_none_of_peace S sqrtf hsqrt _ hP p.teamId
    (hpeace.imp id hteams)
  refine ⟨positionSpec S delta (updateVelocity S sqrtf delta
      (updateCellSupply S owner delta (updateChunkSupply S owner delta
        (updateTerritories S delta { w with worldTime := w.worldTime + delta }))).chunks p),
    ?_, rfl, rfl, rfl, rfl⟩
  unfold beforeSpawn attackNearby
  rw [attackLoop_of_none S sqrtf delta _ hnone, deleteDeadCells_eq S _ hP]
  exact List.mem_filter.2 ⟨hPmem, by simpa using hhealth⟩

/-! ## Reproduction within one call of `step`: claim C17 -/

/-- Every eligible agent of the list has a child in `childrenOf`, with an identity
from `firstId` on. -/
theorem childrenOf_of_eligible (S : WorldSettings) (birth0 t : ℚ) :
    ∀ (l : List Cell) (firstId : Nat) (rng : Nat → SpawnDraw) (p : Cell), p ∈ l →
      isEligible t p →
      ∃ id k, firstId ≤ id ∧
        makeChild S birth0 id p (rng k) ∈ childrenOf S birth0 t firstId rng l := by
  intro l
  induction l with
  | nil => intro _ _ p hp; simp at hp
  | cons q qs ih =>
    intro firstId rng p hp hel
    unfold childrenOf
    by_cases hq : isEligible t q
    · rw [if_pos hq]
      rcases List.mem_cons.1 hp with rfl | hp
      · exact ⟨firstId, 0, le_refl _, List.mem_cons_self _ _⟩
      · obtain ⟨id, k, hid, hmem⟩ := ih (firstId + 1) (fun n => rng (n + 1)) p hp hel
        exact ⟨id, k + 1, by omega, List.mem_cons_of_mem _ hmem⟩
    · rw [if_neg hq]
      rcases List.mem_cons.1 hp with rfl | hp
      · exact absurd hel hq
      · exact ih firstId rng p hp hel

end CellBattles
